import Mathlib

/-!
Verification of the Rust/Python import-streamlining core of the
`alfred-workflows` repository, shallowly embedded in Lean 4.

Python strings are modelled as `List Char` (`Str`), text as a `Str` with
embedded newline characters, Python `list`/`dict`/`set` as Lean lists and
insertion-ordered association lists / deduplicated lists.  Fallible Python
code (list indexing that can raise `IndexError`, loops that can fail to
terminate) is modelled with `Except PyErr`.  Each definition is a direct
translation of the function of the same name in
`process_text.py` / `rust_import_helpers.py` / `python_import_helpers.py`.
-/

/-- Failure modes of the embedded Python code: an uncaught `IndexError`,
or non-termination of a `while` loop (modelled by fuel exhaustion). -/
inductive PyErr where
  | indexError : PyErr
  | nonTermination : PyErr

deriving DecidableEq, Repr

deriving instance DecidableEq for Except

/-- Result of running a piece of embedded Python code. -/
abbrev PRes (α : Type) := Except PyErr α

/-- A Python string, modelled as its list of characters. -/
abbrev Str := List Char

/-- Shorthand turning a Lean string literal into the `Str` model. -/
def S (s : String) : Str := s.data

/-- The `'{'` character (Python `"{"`). -/
def brOpen : Char := '\x7b'

/-- The `'}'` character (Python `"}"`). -/
def brClose : Char := '\x7d'

/-- Python whitespace characters recognised by `str.strip()` /
`str.isspace()` (for the ASCII range that the inputs use). -/
def isPySpace (c : Char) : Bool :=
  c == ' ' || c == '\t' || c == '\n' || c == '\r' || c == '\x0b' || c == '\x0c'

/-- Python `s.strip()`. -/
def pyStrip (s : Str) : Str :=
  ((s.dropWhile isPySpace).reverse.dropWhile isPySpace).reverse

/-- Python `s.startswith(pre)`. -/
def strStarts : Str → Str → Bool
  | _, [] => true
  | [], _ :: _ => false
  | c :: s, d :: p => c == d && strStarts s p

/-- Python `s.endswith(suf)`. -/
def strEnds (s suf : Str) : Bool :=
  strStarts s.reverse suf.reverse

/-- Python `c in s` for a single character `c`. -/
def hasCh (c : Char) (s : Str) : Bool := s.contains c

/-- Python `"::" in s`. -/
def hasCC : Str → Bool
  | [] => false
  | ':' :: ':' :: _ => true
  | _ :: rest => hasCC rest

/-- Python `s.split("::")` (greedy left-to-right, non-overlapping). -/
def splitCC : Str → List Str
  | [] => [[]]
  | ':' :: ':' :: rest => [] :: splitCC rest
  | d :: rest =>
    match splitCC rest with
    | r :: rs => (d :: r) :: rs
    | [] => [[d]]

/-- Python `s.split(c)` for a single-character separator. -/
def splitCh (c : Char) : Str → List Str
  | [] => [[]]
  | d :: rest =>
    if d == c then [] :: splitCh c rest
    else
      match splitCh c rest with
      | r :: rs => (d :: r) :: rs
      | [] => [[d]]

/-- Python `sep.join(xs)`. -/
def joinSep (sep : Str) : List Str → Str
  | [] => []
  | [x] => x
  | x :: xs => x ++ sep ++ joinSep sep xs

/-- Python `s.count(c)` for a single character. -/
def countCh (c : Char) (s : Str) : Nat :=
  (s.filter (fun d => d == c)).length

/-- Python `s.rstrip(":")` (also used for `rstrip("::")`, which strips the
same character set). -/
def rstripColon (s : Str) : Str :=
  (s.reverse.dropWhile (fun c => c == ':')).reverse

/-- Python `s.index("{")`: position of the first `'{'` (callers guard on
`"{" in s`, so the not-found value is never observed). -/
def idxBrace : Str → Nat
  | [] => 0
  | c :: rest => if c == brOpen then 0 else 1 + idxBrace rest

/-- Python slice `s[k+1:-1]` used after locating a brace at index `k`. -/
def sliceInner (s : Str) (k : Nat) : Str :=
  (s.drop (k + 1)).dropLast

/-- Strict code-point lexicographic order on Python strings. -/
def ltStr : Str → Str → Bool
  | [], [] => false
  | [], _ :: _ => true
  | _ :: _, [] => false
  | a :: s, b :: t => if a == b then ltStr s t else decide (a.toNat < b.toNat)

/-- Non-strict order used for Python's stable ascending `sorted`. -/
def leStr (a b : Str) : Prop := ltStr b a = false

instance : DecidableRel leStr := fun a b => by
  unfold leStr; infer_instance

/-- Python `sorted(xs)` for strings (stable insertion sort). -/
def sortStr (l : List Str) : List Str := l.insertionSort leStr

/-- Order on `(base_path, is_pub)` keys, as Python compares the tuples
(`False < True` for booleans). -/
def leKey (a b : Str × Bool) : Prop :=
  ltStr a.1 b.1 = true ∨ (a.1 = b.1 ∧ (a.2 = true → b.2 = true))

instance : DecidableRel leKey := fun a b => by
  unfold leKey; infer_instance

/-- Python's set-`add`: append if not already present (insertion-ordered
model of a CPython `set`). -/
def sAdd (s : List Str) (x : Str) : List Str :=
  if s.contains x then s else s ++ [x]

/-- Python's set-`update`: add each element in turn. -/
def sUnion (s : List Str) (xs : List Str) : List Str :=
  xs.foldl sAdd s

/-- Insertion-ordered map (model of a CPython `dict`). -/
abbrev AMap (κ ν : Type) := List (κ × ν)

/-- `m.get(k, default)` on the map model. -/
def aGet [BEq κ] (m : AMap κ ν) (k : κ) (dflt : ν) : ν :=
  match m.find? (fun p => p.1 == k) with
  | some p => p.2
  | none => dflt

/-- `m.setdefault(k, set()).update(xs)` on a map of insertion-ordered sets. -/
def mUpd : AMap Str (List Str) → Str → List Str → AMap Str (List Str)
  | [], k, xs => [(k, sUnion [] xs)]
  | (k', v) :: rest, k, xs =>
    if k' == k then (k', sUnion v xs) :: rest
    else (k', v) :: mUpd rest k xs

/-- A parsed `use` statement record `(cfg_attr, statement, is_pub)` as built
by `parse_import_statements`. -/
abbrev UseStmt := Option Str × Str × Bool

/-- Inner scan of the cfg-attribute multi-line branch of
`parse_import_statements` (lines 36–44 of `rust_import_helpers.py`):
consume stripped lines until one ends with `"};"`.  Returns the collected
stripped lines (closer included) or `none` when the input ends first. -/
def cfgScan : List Str → Option (List Str)
  | [] => none
  | l :: rest =>
    let s := pyStrip l
    if strEnds s (S "\x7d;") then some [s]
    else
      match cfgScan rest with
      | some parts => some (s :: parts)
      | none => none

/-- Inner scan of the brace-counting multi-line branch of
`parse_import_statements` (lines 59–69): returns the final brace count,
the accumulated statement and the number of lines consumed. -/
def multiScan (bc : Int) (full : Str) : List Str → Int × Str × Nat
  | [] => (bc, full, 0)
  | l :: rest =>
    if bc > 0 then
      let cur := pyStrip l
      let full' := full ++ [' '] ++ cur
      let bc' := bc + (countCh brOpen cur : Int) - (countCh brClose cur : Int)
      if bc' == 0 && strEnds full' (S ";") then (bc', full', 1)
      else
        match multiScan bc' full' rest with
        | (b, f, n) => (b, f, n + 1)
    else (bc, full, 0)

/-- One fuel-indexed pass of the `while i < len(lines)` loop of
`parse_import_statements`.  The loop does not advance `i` when a line
starting with `"#[cfg"` is followed by a next line that is not a
semicolon-terminated or brace-opened import (or when its forward scan for
`"};"` runs off the end): those iterations repeat forever, modelled as
fuel exhaustion (`PyErr.nonTermination`). -/
def parseAux (lines : List Str) :
    Nat → Nat → List UseStmt → List Str → PRes (List UseStmt × List Str)
  | 0, _, _, _ => .error .nonTermination
  | fuel + 1, i, uses, others =>
    match lines.get? i with
    | none => .ok (uses, others)
    | some raw =>
      let line := pyStrip raw
      if strStarts line (S "#[cfg") then
        match lines.get? (i + 1) with
        | some nextRaw =>
          let next := pyStrip nextRaw
          let is_pub := strStarts next (S "pub use ")
          let is_use := strStarts next (S "use ")
          if (is_pub || is_use) && strEnds next (S ";") then
            parseAux lines fuel (i + 2) (uses ++ [(some line, next, is_pub)]) others
          else if (is_pub || is_use) && hasCh brOpen next &&
              !(strEnds next (S "\x7d;")) then
            match cfgScan (lines.drop (i + 2)) with
            | some parts =>
              let full := next ++ (parts.map (fun p => ' ' :: p)).flatten
              parseAux lines fuel (i + 2 + parts.length)
                (uses ++ [(some line, full, is_pub)]) others
            | none => parseAux lines fuel i uses others
          else
            parseAux lines fuel i uses others
        | none =>
          parseAux lines fuel (i + 1) uses (others ++ [line])
      else if strStarts line (S "pub use ") && strEnds line (S ";") then
        parseAux lines fuel (i + 1) (uses ++ [(none, line, true)]) others
      else if strStarts line (S "use ") && strEnds line (S ";") then
        parseAux lines fuel (i + 1) (uses ++ [(none, line, false)]) others
      else if (strStarts line (S "pub use ") || strStarts line (S "use ")) &&
          hasCh brOpen line && !(strEnds line (S "\x7d;")) then
        let is_pub := strStarts line (S "pub use ")
        let bc0 : Int := (countCh brOpen line : Int) - (countCh brClose line : Int)
        match multiScan bc0 line (lines.drop (i + 1)) with
        | (bcF, fullF, n) =>
          if bcF == 0 && strEnds fullF (S ";") then
            parseAux lines fuel (i + 1 + n) (uses ++ [(none, fullF, is_pub)]) others
          else
            parseAux lines fuel (i + 1) uses (others ++ [line])
      else
        parseAux lines fuel (i + 1) uses (others ++ [line])

/-- `parse_import_statements(lines)` (`rust_import_helpers.py` 3–83).
Every terminating iteration advances `i` by at least one, so
`lines.length + 1` units of fuel are exhausted exactly when the Python
loop runs forever. -/
def parse_import_statements (lines : List Str) : PRes (List UseStmt × List Str) :=
  parseAux lines (lines.length + 1) 0 [] []

/-- Character loop of `_parse_brace_aware_items` (`rust_import_helpers.py`
105–143): split on commas at brace level 0, tracking a `self` flag. -/
def braceItemsGo (acc : List Str) (cur : Str) (lvl : Int) (hs : Bool) :
    Str → List Str × Bool
  | [] =>
    let item := pyStrip cur
    if item = [] then (acc, hs)
    else if item = S "self" then (acc, true)
    else (acc ++ [item], hs)
  | c :: rest =>
    if c == brOpen then braceItemsGo acc (cur ++ [c]) (lvl + 1) hs rest
    else if c == brClose then braceItemsGo acc (cur ++ [c]) (lvl - 1) hs rest
    else if c == ',' && lvl == 0 then
      let item := pyStrip cur
      if item = [] then braceItemsGo acc [] lvl hs rest
      else if item = S "self" then braceItemsGo acc [] lvl true rest
      else braceItemsGo (acc ++ [item]) [] lvl hs rest
    else braceItemsGo acc (cur ++ [c]) lvl hs rest

/-- `_parse_brace_aware_items(items_str)`: ordered top-level items plus a
`has_self` flag. -/
def _parse_brace_aware_items (items_str : Str) : List Str × Bool :=
  braceItemsGo [] [] 0 false items_str

/-- `parse_import_statements`' companion `parse_nested_import_items`
(86–102): the set of items, with `self` added when the flag is set
(insertion-ordered model of the Python `set`). -/
def parse_nested_import_items (items_str : Str) : List Str :=
  match _parse_brace_aware_items items_str with
  | (l, hs) =>
    let s := sUnion [] l
    if hs then sAdd s (S "self") else s

/-- `handle_item(prefix, itm)` inside `process_import_with_braces`
(175–201), with fuel for the nested-brace recursion (each recursive call
strictly shrinks the item string, so `length + 1` fuel always suffices;
`parts[-1]` on an empty `parts` list raises `IndexError`). -/
def handleItem : Nat → Str → Str → AMap Str (List Str) → PRes (AMap Str (List Str))
  | 0, _, _, _ => .error .nonTermination
  | fuel + 1, pre, itm0, m =>
    let itm := pyStrip itm0
    if hasCh brOpen itm then
      let mod_name := rstripColon (pyStrip (itm.take (idxBrace itm)))
      let nested := sliceInner itm (idxBrace itm)
      let new_pre := if pre ≠ [] then pre ++ S "::" ++ mod_name else mod_name
      (parse_nested_import_items nested).foldlM
        (fun acc sub => handleItem fuel new_pre sub acc) m
    else if hasCC itm then
      let parts := ((splitCC itm).map pyStrip).filter (fun p => p ≠ [])
      if h2 : parts.length ≥ 2 then
        let base₀ := joinSep (S "::") parts.dropLast
        let base := if pre ≠ [] then pre ++ S "::" ++ base₀ else base₀
        .ok (mUpd m base [parts.getLast (by intro h; simp [h] at h2)])
      else
        match parts.getLast? with
        | some name => .ok (mUpd m pre [name])
        | none => .error .indexError
    else
      .ok (mUpd m pre [itm])

/-- `process_import_with_braces(import_path)` (153–203): expand a braced
path into a mapping `base_path -> set of leaf items`. -/
def process_import_with_braces (import_path : Str) : PRes (AMap Str (List Str)) :=
  let k := idxBrace import_path
  let full_path := rstripColon (import_path.take k)
  let items_str := sliceInner import_path k
  (parse_nested_import_items items_str).foldlM
    (fun m it => handleItem (it.length + 1) full_path it m) []

/-- `_canonicalize_import(cfg_attr, stmt_str)` (`process_text.py`
359–399): the canonical key `(cfg_norm, is_pub, sorted fully-qualified
paths)`. -/
def _canonicalize_import (cfg_attr : Option Str) (stmt_str : Str) :
    PRes (Str × Bool × List Str) :=
  let cfg_norm := (cfg_attr.getD []).filter (fun c => !(isPySpace c))
  let is_pub := strStarts stmt_str (S "pub use ")
  let preLen := if is_pub then 8 else 4
  let import_path := pyStrip ((stmt_str.drop preLen).dropLast)
  if strEnds import_path (S "::*") then .ok (cfg_norm, is_pub, [import_path])
  else if hasCh brOpen import_path then do
    let mapping ← process_import_with_braces import_path
    let full_paths := mapping.foldl (fun fp bpItems =>
      bpItems.2.foldl (fun fp item =>
        if item == S "self" then sAdd fp bpItems.1
        else sAdd fp (bpItems.1 ++ S "::" ++ item)) fp) []
    .ok (cfg_norm, is_pub, sortStr full_paths)
  else
    let parts := (splitCC import_path).filter (fun p => p ≠ [])
    let full_paths : List Str := if parts ≠ [] then [joinSep (S "::") parts] else []
    .ok (cfg_norm, is_pub, sortStr full_paths)

/-- `_is_covered_by(prev_key, new_key)` (338–357): every fully-qualified
name of the new key matches a previous name exactly or falls under a
previous glob `prefix::*`. -/
def _is_covered_by : (Str × Bool × List Str) → (Str × Bool × List Str) → Bool
  | (pc, pp, pPaths), (nc, np, nPaths) =>
    if pc == nc && pp == np then
      nPaths.all (fun ni =>
        pPaths.any (fun pv =>
          pv == ni ||
          (strEnds pv (S "::*") &&
            (ni == pv.take (pv.length - 3) ||
              strStarts ni (pv.take (pv.length - 3) ++ S "::")))))
    else false

/-- Forward scan of `_collect_import_block` (426–430): lines of a
multi-line import until one ends with `"};"`; returns the collected lines
and the remaining suffix. -/
def blockScan : List Str → List Str × List Str
  | [] => ([], [])
  | l :: rest =>
    if strEnds (pyStrip l) (S "\x7d;") then ([l], rest)
    else (l :: (blockScan rest).1, (blockScan rest).2)

/-- `_collect_import_block(lines, start_idx)` (402–433), phrased on the
suffix of lines from `start_idx`: returns the original statement lines,
the lines after the block, and the compact one-line join. -/
def _collect_import_block : List Str → List Str × List Str × Str
  | [] => ([], [], [])
  | first :: rest =>
    let fs := pyStrip first
    if strEnds fs (S ";") then ([first], rest, fs)
    else
      ((first :: (blockScan rest).1, (blockScan rest).2,
        joinSep [' '] ((first :: (blockScan rest).1).map pyStrip)))

/-- Main loop of `streamline_rust_imports_unique` (461–498), phrased on
the suffix of remaining lines; returns the kept output lines and the list
of seen canonical keys, in order of first emission.  Every iteration
consumes at least one line, so fuel `lines.length + 1` always suffices
(`uniqueAux_fuel_ok` below); the fuel only makes the recursion
structural. -/
def uniqueAux : Nat → List Str → List (Str × Bool × List Str) → List Str →
    PRes (List Str × List (Str × Bool × List Str))
  | 0, _, _, _ => .error .nonTermination
  | _ + 1, [], seen, out => .ok (out, seen)
  | fuel + 1, line :: rest, seen, out =>
    let stripped := pyStrip line
    if strStarts stripped (S "#[cfg") && rest ≠ [] &&
        (strStarts (pyStrip (rest.headD [])) (S "pub use ") ||
          strStarts (pyStrip (rest.headD [])) (S "use ")) then
      let blk := _collect_import_block rest
      match _canonicalize_import (some stripped) blk.2.2 with
      | .error e => .error e
      | .ok key =>
        if seen.any (fun p => _is_covered_by p key) then
          uniqueAux fuel blk.2.1 seen out
        else
          uniqueAux fuel blk.2.1 (seen ++ [key]) (out ++ line :: blk.1)
    else if strStarts stripped (S "pub use ") || strStarts stripped (S "use ") then
      let blk := _collect_import_block (line :: rest)
      match _canonicalize_import none blk.2.2 with
      | .error e => .error e
      | .ok key =>
        if seen.any (fun p => _is_covered_by p key) then
          uniqueAux fuel blk.2.1 seen out
        else
          uniqueAux fuel blk.2.1 (seen ++ [key]) (out ++ blk.1)
    else
      uniqueAux fuel rest seen (out ++ [line])

/-- `streamline_rust_imports_unique(text)` (435–500). -/
def streamline_rust_imports_unique (text : Str) : PRes Str :=
  if text.all isPySpace then .ok text
  else
    match uniqueAux ((splitCh '\n' text).length + 1) (splitCh '\n' text) [] [] with
    | .error e => .error e
    | .ok r => .ok (joinSep ['\n'] r.1)

/-- `streamline_rust_imports(text)` (`process_text.py` 253–254). -/
def streamline_rust_imports (text : Str) : PRes Str :=
  streamline_rust_imports_unique text

/-- One iteration of the `_split_use_statements` loop (462–489). -/
def splitStep (acc : List (Option Str × Bool × AMap Str (List Str)) ×
      List (Option Str × Bool × List Str) × List UseStmt) (stmt : UseStmt) :
    PRes (List (Option Str × Bool × AMap Str (List Str)) ×
      List (Option Str × Bool × List Str) × List UseStmt) := do
  let (cfg_attr, statement, is_pub) := stmt
  let preLen := if is_pub then 8 else 4
  let import_path := pyStrip ((statement.drop preLen).dropLast)
  if !(hasCC import_path) || strEnds import_path (S "::*") then
    pure (acc.1, acc.2.1, acc.2.2 ++ [stmt])
  else if hasCh brOpen import_path then do
    let mapping ← process_import_with_braces import_path
    pure (acc.1 ++ [(cfg_attr, is_pub, mapping)], acc.2.1, acc.2.2)
  else
    let parts := (splitCC import_path).filter (fun p => p ≠ [])
    pure (acc.1, acc.2.1 ++ [(cfg_attr, is_pub, parts)], acc.2.2)

/-- `_split_use_statements(use_statements)` (462–489): classify each
statement as braced (expanded to a base-path mapping), simple (path
parts), or special (globs and single-segment paths, kept verbatim). -/
def _split_use_statements (use_statements : List UseStmt) :
    PRes (List (Option Str × Bool × AMap Str (List Str)) ×
      List (Option Str × Bool × List Str) × List UseStmt) :=
  use_statements.foldlM splitStep ([], [], [])

/-- Nested-map update used by the grouping collectors:
`grouped[key].setdefault(attr, set()).update(items)` with
`grouped.setdefault(key, {})`. -/
def gUpd (g : AMap (Str × Bool) (AMap Str (List Str))) (k : Str × Bool)
    (attr : Str) (items : List Str) : AMap (Str × Bool) (AMap Str (List Str)) :=
  match g with
  | [] => [(k, mUpd [] attr items)]
  | (k', v) :: rest =>
    if k' == k then (k', mUpd v attr items) :: rest
    else (k', v) :: gUpd rest k attr items

/-- One iteration of the simple-entry loop of `collect_low_groups`
(660–672). -/
def lowSimpleStep (g : AMap (Str × Bool) (AMap Str (List Str)))
    (e : Option Str × Bool × List Str) :
    PRes (AMap (Str × Bool) (AMap Str (List Str))) := do
  let parts := e.2.2
  if h2 : parts.length ≥ 2 then
    let base_path := joinSep (S "::") parts.dropLast
    let item := parts.getLast (by intro h; simp [h] at h2)
    pure (gUpd g (base_path, e.2.1) ((e.1).getD []) [item])
  else
    match parts with
    | [] => .error .indexError
    | p :: ps => pure (gUpd g (p, e.2.1) ((e.1).getD []) [(p :: ps).getLast (by simp)])

/-- `collect_low_groups(use_statements)` (641–674): group by the
most-specific base path; `parts[0]` on an empty parts list raises
`IndexError`. -/
def collect_low_groups (use_statements : List UseStmt) :
    PRes (AMap (Str × Bool) (AMap Str (List Str)) × List UseStmt) := do
  let (braced, simple, special) ← _split_use_statements use_statements
  let g1 := braced.foldl
    (fun g e =>
      e.2.2.foldl (fun g bpItems =>
        gUpd g (bpItems.1, e.2.1) ((e.1).getD []) bpItems.2) g)
    []
  let g2 ← simple.foldlM lowSimpleStep g1
  pure (g2, special)

/-- Matching-close-brace scan of `organize_items_by_module` (324–335):
position of the close brace matching the opening one, `0` if unmatched. -/
def findClose (pos lvl : Nat) : Str → Nat
  | [] => 0
  | c :: rest =>
    if c == brOpen then findClose (pos + 1) (lvl + 1) rest
    else if c == brClose then
      (if lvl == 0 then pos else findClose (pos + 1) (lvl - 1) rest)
    else findClose (pos + 1) lvl rest

/-- `process_nested_module_items(nested_content)` (279–292). -/
def process_nested_module_items (nested_content : Str) : List Str × Bool :=
  _parse_brace_aware_items nested_content

/-- `organize_items_by_module(items)` (295–374): split a group's items
into per-module sub-groups and flat simple items. -/
def organize_items_by_module (items : List Str) : AMap Str (List Str) × List Str :=
  items.foldl
    (fun acc item =>
      if hasCC item || hasCh brOpen item then
        if hasCh brOpen item then
          let module_name := rstripColon (pyStrip (item.take (idxBrace item)))
          if module_name == S "self" then (acc.1, acc.2 ++ [S "self"])
          else
            let start_idx := idxBrace item + 1
            let end_idx := findClose start_idx 0 (item.drop start_idx)
            if end_idx == 0 then (acc.1, acc.2 ++ [item])
            else
              let nested_content := pyStrip ((item.drop start_idx).take (end_idx - start_idx))
              let ni := process_nested_module_items nested_content
              let mg := mUpd acc.1 module_name ni.1
              (if ni.2 then mUpd mg module_name [S "self"] else mg, acc.2)
        else
          let parts := splitCC item
          if parts.length ≥ 2 then
            match parts with
            | [] => (acc.1, acc.2 ++ [item])
            | p :: ps => (mUpd acc.1 p [joinSep (S "::") ps], acc.2)
          else (acc.1, acc.2 ++ [item])
      else (acc.1, acc.2 ++ [item]))
    ([], [])

/-- The `self`-last ordering used by `generate_import_statements` (439–441)
and `format_module_groups` (392–395): sort ascending, then move the
literal `self` (when present) to the end. -/
def sortedSelfLast (items : List Str) : List Str :=
  sortStr (items.filter (fun it => !(it == S "self"))) ++
    (if items.contains (S "self") then [S "self"] else [])

/-- `format_module_groups(module_groups)` (377–405). -/
def format_module_groups (module_groups : AMap Str (List Str)) : List Str :=
  (sortStr (module_groups.map Prod.fst)).map
    (fun module =>
      let sorted_module_items := sortedSelfLast (aGet module_groups module [])
      match sorted_module_items with
      | [it] => module ++ S "::" ++ it
      | l => module ++ S "::" ++ [brOpen] ++ joinSep (S ", ") l ++ [brClose])

/-- Sort of `grouped_by_base.items()` by `(base_path, is_pub)` key. -/
def sortGroupPairs (g : AMap (Str × Bool) (AMap Str (List Str))) :
    AMap (Str × Bool) (AMap Str (List Str)) :=
  g.insertionSort (fun a b => leKey a.1 b.1)

/-- Sort of `attr_groups.items()` by normalized attribute. -/
def sortAttrPairs (m : AMap Str (List Str)) : AMap Str (List Str) :=
  m.insertionSort (fun a b => leStr a.1 b.1)

/-- Lines emitted by `generate_import_statements` for one
`(base_path, is_pub)` group and one attribute sub-group (428–457): the
re-emitted attribute line, then the statement in singleton / two-item
single-line / multi-line block form. -/
def genStmtLines (is_pub : Bool) (base_path : Str) (cfg_attr : Str)
    (items : List Str) : List Str :=
  let pre := if is_pub then S "pub use " else S "use "
  let og := organize_items_by_module items
  let sorted_items := sortedSelfLast og.2 ++ format_module_groups og.1
  (if cfg_attr ≠ [] then [cfg_attr] else []) ++
    match sorted_items with
    | [it] => [pre ++ base_path ++ S "::" ++ it ++ S ";"]
    | l =>
      if l.any (fun it => hasCh brOpen it) || l.length > 2 then
        [pre ++ base_path ++ S "::" ++ [brOpen]] ++
          l.map (fun it => S "    " ++ it ++ S ",") ++ [S "\x7d;"]
      else
        [pre ++ base_path ++ S "::" ++ [brOpen] ++ joinSep (S ", ") l ++
          [brClose] ++ S ";"]

/-- `generate_import_statements(grouped_by_base, special_imports)`
(408–459). -/
def generate_import_statements (grouped_by_base : AMap (Str × Bool) (AMap Str (List Str)))
    (special_imports : List UseStmt) : List Str :=
  let specials := special_imports.foldl
    (fun r st => r ++ (match st.1 with | some c => [c] | none => []) ++ [st.2.1]) []
  (sortGroupPairs grouped_by_base).foldl
    (fun r kv =>
      (sortAttrPairs kv.2).foldl
        (fun r av => r ++ genStmtLines kv.1.2 kv.1.1 av.1 av.2)
        r)
    specials

/-- `streamline_rust_imports_low(text)` (`process_text.py` 316–335). -/
def streamline_rust_imports_low (text : Str) : PRes Str :=
  if text.all isPySpace then .ok text
  else do
    let lines := splitCh '\n' (pyStrip text)
    let (use_statements, other_lines) ← parse_import_statements lines
    let (grouped, special) ← collect_low_groups use_statements
    let result := generate_import_statements grouped special
    if other_lines ≠ [] ∧ result ≠ [] then
      pure (joinSep ['\n'] (other_lines ++ [[]] ++ result))
    else
      pure (joinSep ['\n'] (other_lines ++ result))

/-- Root-group update of `collect_root_groups` (512–520, 527–535):
`order` records first-encounter subpath order, `submap` accumulates the
item sets. -/
def rgUpd (groups : AMap (Str × Bool) (List Str × AMap Str (List Str)))
    (k : Str × Bool) (subpath : Str) (items : List Str) :
    AMap (Str × Bool) (List Str × AMap Str (List Str)) :=
  match groups with
  | [] => [(k, ([subpath], mUpd [] subpath items))]
  | (k', v) :: rest =>
    if k' == k then
      let order := if (v.2.find? (fun p => p.1 == subpath)).isSome
        then v.1 else v.1 ++ [subpath]
      (k', (order, mUpd v.2 subpath items)) :: rest
    else (k', v) :: rgUpd rest k subpath items

/-- `collect_root_groups(use_statements)` (492–537): group by the
top-level (root) segment, carrying the remaining subpath; `parts[0]` on
an empty parts list raises `IndexError`. -/
def collect_root_groups (use_statements : List UseStmt) :
    PRes (AMap (Str × Bool) (List Str × AMap Str (List Str)) × List UseStmt) :=
  use_statements.foldlM
    (fun acc stmt => do
      let (_, statement, is_pub) := stmt
      let preLen := if is_pub then 8 else 4
      let import_path := pyStrip ((statement.drop preLen).dropLast)
      if !(hasCC import_path) || strEnds import_path (S "::*") then
        pure (acc.1, acc.2 ++ [stmt])
      else if hasCh brOpen import_path then do
        let mapping ← process_import_with_braces import_path
        let g ← mapping.foldlM
          (fun g bpItems => do
            let parts := (splitCC bpItems.1).filter (fun p => p ≠ [])
            match parts with
            | [] => .error .indexError
            | root :: restParts =>
              let subpath := joinSep (S "::") restParts
              pure (rgUpd g (root, is_pub) subpath bpItems.2))
          acc.1
        pure (g, acc.2)
      else
        let parts := (splitCC import_path).filter (fun p => p ≠ [])
        match parts with
        | [] => .error .indexError
        | root :: restParts =>
          let subpath :=
            if parts.length > 2 then joinSep (S "::") ((parts.drop 1).dropLast)
            else match restParts with
                 | r1 :: _ => r1
                 | [] => []
          let item := (root :: restParts).getLast (by simp)
          pure (rgUpd acc.1 (root, is_pub) subpath [item], acc.2))
    ([], [])

/-- The `zip(*split_lists)` loop of `highest_common_subpath` (550–554):
positionwise agreement of all segment lists, stopping at the first
divergence or at the end of the shortest list. -/
def lcpZip : Nat → List (List Str) → List Str
  | 0, _ => []
  | fuel + 1, ls =>
    match ls with
    | [] => []
    | l0 :: _ =>
      match l0.head? with
      | none => []
      | some h =>
        if ls.all (fun l => !l.isEmpty) then
          if ls.all (fun l => l.headD [] == h) then
            h :: lcpZip fuel (ls.map List.tail)
          else []
        else []

/-- `highest_common_subpath(group)` (540–556). -/
def highest_common_subpath (group : List Str × AMap Str (List Str)) : Str :=
  let subpaths := group.2.map Prod.fst
  let nonempty := subpaths.filter (fun s => s ≠ [])
  if nonempty = [] then []
  else
    let split_lists := nonempty.map splitCC
    let common := lcpZip ((split_lists.headD []).length + 1) split_lists
    if common ≠ [] then joinSep (S "::") common else []

/-- The `_sorted_items` helper of `format_high_group` (567–570):
lowercase-initial identifiers first, then the rest, each sorted. -/
def sortLowerThenUpper (items : List Str) : List Str :=
  sortStr (items.filter (fun it => !it.isEmpty && (it.headD ' ').isLower)) ++
    sortStr (items.filter (fun it => !(!it.isEmpty && (it.headD ' ').isLower)))

/-- Remainder of a subpath relative to the common subpath
(`format_high_group` 576–582 and 588–594). -/
def remOf (common_sub sub : Str) : Str :=
  if sub = [] then []
  else if strStarts sub common_sub then
    (if sub.length > common_sub.length then sub.drop (common_sub.length + 2) else [])
  else sub

/-- `format_high_group(root, is_pub, group, common_sub)` (559–638). -/
def format_high_group (root : Str) (is_pub : Bool)
    (group : List Str × AMap Str (List Str)) (common_sub : Str) : List Str :=
  let pre := if is_pub then S "pub use " else S "use "
  if common_sub ≠ [] then
    let inner_map := group.2.foldl
      (fun im subItems => mUpd im (remOf common_sub subItems.1) subItems.2) []
    let order := group.1.filter (fun s => strStarts s common_sub || s == [])
    let ordered_remainders := order.foldl
      (fun (acc : List Str) s =>
        let r := remOf common_sub s
        if acc.contains r then acc else acc ++ [r]) []
    [pre ++ root ++ S "::" ++ common_sub ++ S "::" ++ [brOpen]] ++
      ordered_remainders.map
        (fun rem =>
          let sorted_items := sortLowerThenUpper (aGet inner_map rem [])
          if rem = [] then
            match sorted_items with
            | [it] => S "    " ++ it ++ S ","
            | l => S "    " ++ [brOpen] ++ joinSep (S ", ") l ++ [brClose] ++ S ","
          else
            match sorted_items with
            | [it] => S "    " ++ rem ++ S "::" ++ it ++ S ","
            | l => S "    " ++ rem ++ S "::" ++ [brOpen] ++ joinSep (S ", ") l ++
                [brClose] ++ S ",") ++
      [S "\x7d;"]
  else
    let inner_entries := group.1.map
      (fun sub =>
        let sorted_items := sortLowerThenUpper (aGet group.2 sub [])
        if sub = [] then
          match sorted_items with
          | [it] => it
          | l => [brOpen] ++ joinSep (S ", ") l ++ [brClose]
        else
          match sorted_items with
          | [it] => sub ++ S "::" ++ it
          | l => sub ++ S "::" ++ [brOpen] ++ joinSep (S ", ") l ++ [brClose])
    [pre ++ root ++ S "::" ++ [brOpen]] ++
      inner_entries.map (fun entry => S "    " ++ entry ++ S ",") ++ [S "\x7d;"]

/-- `streamline_rust_imports_high(text)` (`process_text.py` 285–313). -/
def streamline_rust_imports_high (text : Str) : PRes Str :=
  if text.all isPySpace then .ok text
  else do
    let lines := splitCh '\n' (pyStrip text)
    let (use_statements, other_lines) ← parse_import_statements lines
    let (root_groups, special) ← collect_root_groups use_statements
    let specialLines := special.foldl
      (fun r st => r ++ (match st.1 with | some c => [c] | none => []) ++ [st.2.1]) []
    let sortedKeys := (root_groups.map Prod.fst).insertionSort leKey
    let result := specialLines ++ sortedKeys.foldl
      (fun r k =>
        let group := aGet root_groups k ([], [])
        r ++ format_high_group k.1 k.2 group (highest_common_subpath group))
      []
    if other_lines ≠ [] ∧ result ≠ [] then
      pure (joinSep ['\n'] (other_lines ++ [[]] ++ result))
    else
      pure (joinSep ['\n'] (other_lines ++ result))

/-- `generate_python_import_statements(simple_imports, from_imports)`
(`python_import_helpers.py` 168–202). -/
def generate_python_import_statements (simple_imports : List Str)
    (from_imports : AMap Str (List Str)) : List Str :=
  let r := if simple_imports ≠ [] then
      (sortStr simple_imports).map (fun m => S "import " ++ m)
    else []
  (from_imports.insertionSort (fun a b => leStr a.1 b.1)).foldl
    (fun r mv =>
      let sorted_items := sortStr mv.2
      if sorted_items.length > 1 then
        r ++ [S "from " ++ mv.1 ++ S " import ("] ++
          sorted_items.dropLast.map (fun it => S "    " ++ it ++ S ", ") ++
          [S "    " ++ sorted_items.getLastD []] ++ [S ")"]
      else
        r ++ [S "from " ++ mv.1 ++ S " import " ++ joinSep (S ", ") sorted_items])
    r

/-- One statement's contribution to the names extraction: skip special
(non-`::` or glob) statements, otherwise expand via the program's own
canonicalizer. -/
def nameStep (acc : List Str) (st : UseStmt) : PRes (List Str) := do
  let preLen := if st.2.2 then 8 else 4
  let path := pyStrip ((st.2.1.drop preLen).dropLast)
  if !(hasCC path) || strEnds path (S "::*") then pure acc
  else do
    let key ← _canonicalize_import st.1 st.2.1
    pure (acc ++ key.2.2)

/-- Names-extraction used to state coverage preservation: parse a text
with the program's own parser and expand each non-special (non-glob,
`::`-containing) statement to its fully-qualified names via the program's
own canonicalizer, in statement order. -/
def importNames (text : Str) : PRes (List Str) := do
  let pr ← parse_import_statements (splitCh '\n' (pyStrip text))
  pr.1.foldlM nameStep []

/-- Characters allowed in a plain path segment: no braces, commas, colons,
semicolons, globs or whitespace. -/
def goodChar (c : Char) : Bool :=
  !(c == brOpen || c == brClose || c == ',' || c == ':' || c == ';' || c == '*' ||
    isPySpace c)

/-- A plain, normalized path segment: nonempty, not the literal `self`,
made of `goodChar`s. -/
def goodSeg (s : Str) : Prop := s ≠ [] ∧ s ≠ S "self" ∧ ∀ c ∈ s, goodChar c = true

/-- A normalized import path: at least two plain segments. -/
def goodPath (segs : List Str) : Prop := 2 ≤ segs.length ∧ ∀ s ∈ segs, goodSeg s

/-- The fully-qualified name denoted by a segment list. -/
def nameOf (segs : List Str) : Str := joinSep (S "::") segs

/-- The simple import line `use <name>;` of a segment list. -/
def lineOf (segs : List Str) : Str := S "use " ++ nameOf segs ++ S ";"

/-- The input text made of one simple import line per path. -/
def textOf (paths : List (List Str)) : Str := joinSep ['\n'] (paths.map lineOf)

/-- The grouped structure `collect_low_groups` builds from normalized
simple imports. -/
def lowGroups (paths : List (List Str)) : AMap (Str × Bool) (AMap Str (List Str)) :=
  paths.foldl
    (fun g segs => gUpd g (nameOf segs.dropLast, false) [] [segs.getLastD []]) []

/-- The fully-qualified names denoted by one attribute map of a group. -/
def attrNames (base : Str) (am : AMap Str (List Str)) : List Str :=
  am.flatMap (fun av => av.2.map (fun it => base ++ S "::" ++ it))

/-- The fully-qualified names denoted by a grouped structure. -/
def groupNames (g : AMap (Str × Bool) (AMap Str (List Str))) : List Str :=
  g.flatMap (fun kv => attrNames kv.1.1 kv.2)

/-- The output block `generate_import_statements` emits for one plain
`(base_path, items)` group of the low policy. -/
def lowBlock (base : Str) (items : List Str) : List Str :=
  match sortStr items with
  | [it] => [S "use " ++ base ++ S "::" ++ it ++ S ";"]
  | l =>
    if 2 < l.length then
      (S "use " ++ base ++ S "::" ++ [brOpen]) ::
        (l.map (fun it => S "    " ++ it ++ S ",") ++ [S "\x7d;"])
    else
      [S "use " ++ base ++ S "::" ++ [brOpen] ++ joinSep (S ", ") l ++ [brClose]
        ++ S ";"]

/-- The single statement string the parser re-assembles from such a block. -/
def stmtOf (base : Str) (items : List Str) : Str :=
  match sortStr items with
  | [it] => S "use " ++ base ++ S "::" ++ it ++ S ";"
  | l =>
    if 2 < l.length then
      S "use " ++ base ++ S "::" ++ [brOpen] ++
        (l.map (fun it => ' ' :: (it ++ [',']))).flatten ++ [' ', brClose, ';']
    else
      S "use " ++ base ++ S "::" ++ [brOpen] ++ joinSep (S ", ") l ++ [brClose]
        ++ S ";"

/-- Embed a plain `(base, items)` pair list as the grouped structure the
low collector produces. -/
def groupsOf (gs : List (Str × List Str)) :
    AMap (Str × Bool) (AMap Str (List Str)) :=
  gs.map (fun p => ((p.1, false), [([], p.2)]))

/-- Update of the pair list mirroring `gUpd` on embedded groups. -/
def updPair : List (Str × List Str) → Str → Str → List (Str × List Str)
  | [], b, it => [(b, [it])]
  | p :: rest, b, it =>
    if p.1 == b then (p.1, sAdd p.2 it) :: rest
    else p :: updPair rest b it

/-- The pair list accumulated by the low policy. -/
def lowPairs (paths : List (List Str)) : List (Str × List Str) :=
  paths.foldl
    (fun gs segs => updPair gs (nameOf segs.dropLast) (segs.getLastD [])) []

/-- Order on plain pair-list entries mirroring the `(base_path, is_pub)`
key order with `is_pub = False`. -/
def pairLe (p q : Str × List Str) : Prop := leKey (p.1, false) (q.1, false)

instance : DecidableRel pairLe := fun p q => by
  unfold pairLe
  infer_instance

/-- A base path arising from a normalized import: the joined name of a
nonempty list of plain segments. -/
def goodBase (b : Str) : Prop :=
  ∃ bsegs, bsegs ≠ [] ∧ (∀ s ∈ bsegs, goodSeg s) ∧ b = nameOf bsegs

/-- Well-formedness of the plain pair list built by the low policy. -/
def goodPairs (gs : List (Str × List Str)) : Prop :=
  (gs.map Prod.fst).Nodup ∧
    ∀ p ∈ gs, goodBase p.1 ∧ p.2 ≠ [] ∧ p.2.Nodup ∧ ∀ it ∈ p.2, goodSeg it

/-- First-occurrence filter by fully-qualified name: the paths the unique
policy keeps, given the names already seen. -/
def uniqR : List (List Str) → List Str → List (List Str)
  | [], _ => []
  | p :: ps, seen =>
    if seen.contains (nameOf p) then uniqR ps seen
    else p :: uniqR ps (seen ++ [nameOf p])

/-- The seen-name list after the unique policy processes the paths. -/
def uniqRSeen : List (List Str) → List Str → List Str
  | [], seen => seen
  | p :: ps, seen =>
    if seen.contains (nameOf p) then uniqRSeen ps seen
    else uniqRSeen ps (seen ++ [nameOf p])

instance (s : Str) : Decidable (goodSeg s) := by
  unfold goodSeg
  infer_instance

instance (segs : List Str) : Decidable (goodPath segs) := by
  unfold goodPath
  infer_instance

/-- The braced entries `_split_use_statements` produces from the emitted
statements of the low policy's groups. -/
def bracedOf (gs : List (Str × List Str)) :
    List (Option Str × Bool × AMap Str (List Str)) :=
  (gs.filter (fun q => 2 ≤ (sortStr q.2).length)).map
    (fun q => ((none : Option Str), false,
      ([(q.1, sortStr q.2)] : AMap Str (List Str))))

theorem blockScan_after_le (ls : List Str) : (blockScan ls).2.length ≤ ls.length := by
  induction ls with
  | nil => simp [blockScan]
  | cons l rest ih =>
    simp only [blockScan]
    split
    · simp
    · simpa using Nat.le_succ_of_le ih

theorem collect_after_le_cons (l : Str) (ls : List Str) :
    ((_collect_import_block (l :: ls)).2.1).length ≤ ls.length := by
  simp only [_collect_import_block]
  split
  · simp
  · simpa using blockScan_after_le ls

theorem collect_after_le (ls : List Str) :
    ((_collect_import_block ls).2.1).length ≤ ls.length := by
  cases ls with
  | nil => simp [_collect_import_block]
  | cons l rest => exact Nat.le_succ_of_le (collect_after_le_cons l rest)

theorem parseAux_stuck_step (fuel : Nat) :
    parseAux [S "#[cfg(test)]", S "foo"] (fuel + 1) 0 [] [] =
      parseAux [S "#[cfg(test)]", S "foo"] fuel 0 [] [] := rfl

/-- Claim C1: `parse_import_statements` terminates on every input, and so
do the three streamlining entry points — in particular on inputs where a
`#[cfg` line is immediately followed by a non-import line.  FALSE: the
`while` loop never advances `i` on such inputs (the `#[cfg` branch of
`rust_import_helpers.py` 24–44 has no fallback that increments `i`), so
`parse_import_statements`, `streamline_rust_imports_low` and
`streamline_rust_imports_high` loop forever on `"#[cfg(test)]\nfoo"`:
the fuel-indexed loop exhausts every fuel value.
(`streamline_rust_imports_unique` does not use this parser and
terminates.) -/
theorem claim_C1 :
    (∀ fuel, parseAux [S "#[cfg(test)]", S "foo"] fuel 0 [] [] =
      .error .nonTermination) ∧
    streamline_rust_imports_low (S "#[cfg(test)]\nfoo") = .error .nonTermination ∧
    streamline_rust_imports_high (S "#[cfg(test)]\nfoo") = .error .nonTermination ∧
    streamline_rust_imports_unique (S "#[cfg(test)]\nfoo") =
      .ok (S "#[cfg(test)]\nfoo") := by
  refine ⟨?_, by decide, by decide, by decide⟩
  intro fuel
  induction fuel with
  | zero => rfl
  | succ n ih => rw [parseAux_stuck_step, ih]

/-- Claim C2: the three streamlining functions never raise on any input,
including paths with empty segments.  FALSE for the low and high
policies: on `"use ::;"` the path `"::"` splits into no non-empty parts
and `parts[0]` raises `IndexError` in `collect_low_groups` /
`collect_root_groups`; the unique policy does return normally. -/
theorem claim_C2 :
    streamline_rust_imports_low (S "use ::;") = .error .indexError ∧
    streamline_rust_imports_high (S "use ::;") = .error .indexError ∧
    streamline_rust_imports_unique (S "use ::;") = .ok (S "use ::;") := by
  refine ⟨by decide, by decide, by decide⟩

/-- Claim C10: the default entry point `streamline_rust_imports` returns
exactly `streamline_rust_imports_unique` on every input
(`process_text.py` 253–254 is a direct delegation). -/
theorem claim_C10 :
    ∀ text, streamline_rust_imports text = streamline_rust_imports_unique text :=
  fun _ => rfl

/-- Claim C3: under the unique policy, a statement whose full name set is
covered by an earlier-emitted statement (same normalized attribute and
visibility; exact match or glob `prefix::*` coverage) is dropped together
with its attribute line, and an uncovered statement is emitted verbatim
and recorded.  Conjuncts: the two literal scenarios from the spec, the
emission/drop step for a single-line statement without attribute, and the
same step with a cfg attribute (the attribute line is dropped or emitted
together with its statement). -/
theorem claim_C3 :
    streamline_rust_imports_unique (S "use foo::Bar;\nuse foo::\x7bBar\x7d;") =
      .ok (S "use foo::Bar;") ∧
    streamline_rust_imports_unique (S "use foo::*;\nuse foo::Bar;") =
      .ok (S "use foo::*;") ∧
    (∀ fuel line rest seen out key,
      strStarts (pyStrip line) (S "#[cfg") = false →
      (strStarts (pyStrip line) (S "pub use ") ||
        strStarts (pyStrip line) (S "use ")) = true →
      strEnds (pyStrip line) (S ";") = true →
      _canonicalize_import none (pyStrip line) = .ok key →
      uniqueAux (fuel + 1) (line :: rest) seen out =
        if seen.any (fun p => _is_covered_by p key) then uniqueAux fuel rest seen out
        else uniqueAux fuel rest (seen ++ [key]) (out ++ [line])) ∧
    (∀ fuel attr line rest seen out key,
      strStarts (pyStrip attr) (S "#[cfg") = true →
      (strStarts (pyStrip line) (S "pub use ") ||
        strStarts (pyStrip line) (S "use ")) = true →
      strEnds (pyStrip line) (S ";") = true →
      _canonicalize_import (some (pyStrip attr)) (pyStrip line) = .ok key →
      uniqueAux (fuel + 1) (attr :: line :: rest) seen out =
        if seen.any (fun p => _is_covered_by p key) then uniqueAux fuel rest seen out
        else uniqueAux fuel rest (seen ++ [key]) (out ++ [attr, line])) := by
  refine ⟨by decide, by decide, ?_, ?_⟩
  · intro fuel line rest seen out key h1 h2 h3 h4
    rw [uniqueAux]
    simp only [h1, Bool.false_and]
    rw [if_neg (by simp)]
    rw [if_pos h2]
    have hblk : _collect_import_block (line :: rest) = ([line], rest, pyStrip line) := by
      rw [_collect_import_block]
      simp [h3]
    rw [hblk]
    simp only [h4]
  · intro fuel attr line rest seen out key h1 h2 h3 h4
    rw [uniqueAux]
    rw [if_pos (by simp [h1, h2])]
    have hblk : _collect_import_block (line :: rest) = ([line], rest, pyStrip line) := by
      rw [_collect_import_block]
      simp [h3]
    rw [hblk]
    simp only [h4]

theorem claim_C3_witness :
    strStarts (pyStrip (S "use foo::Bar;")) (S "#[cfg") = false ∧
    (strStarts (pyStrip (S "use foo::Bar;")) (S "pub use ") ||
      strStarts (pyStrip (S "use foo::Bar;")) (S "use ")) = true ∧
    strEnds (pyStrip (S "use foo::Bar;")) (S ";") = true ∧
    _canonicalize_import none (pyStrip (S "use foo::Bar;")) =
      .ok ([], false, [S "foo::Bar"]) ∧
    uniqueAux 2 [S "use foo::Bar;"] [] [] =
      (if ([] : List (Str × Bool × List Str)).any
          (fun p => _is_covered_by p ([], false, [S "foo::Bar"])) then
        uniqueAux 1 [] [] []
      else uniqueAux 1 [] ([] ++ [(([] : Str), false, [S "foo::Bar"])])
        ([] ++ [S "use foo::Bar;"])) :=
  ⟨by decide, by decide, by decide, by decide,
    claim_C3.2.2.1 1 (S "use foo::Bar;") [] [] []
      ([], false, [S "foo::Bar"]) (by decide) (by decide) (by decide) (by decide)⟩

theorem splitCC_ne_nil (s : Str) : splitCC s ≠ [] := by
  induction s using splitCC.induct with
  | case1 => simp [splitCC]
  | case2 rest ih => simp [splitCC]
  | case3 head rest hne r rs hsplit ih => simp [splitCC, hsplit]
  | case4 head rest hne hsplit ih => simp [splitCC, hsplit]

theorem joinSep_splitCC (s : Str) : joinSep (S "::") (splitCC s) = s := by
  induction s using splitCC.induct with
  | case1 => rfl
  | case2 rest ih =>
    obtain ⟨r, rs, hr⟩ : ∃ r rs, splitCC rest = r :: rs := by
      cases h : splitCC rest with
      | nil => exact absurd h (splitCC_ne_nil rest)
      | cons r rs => exact ⟨r, rs, rfl⟩
    rw [hr] at ih
    simp only [splitCC, hr]
    cases rs with
    | nil =>
      simp [joinSep] at ih ⊢
      simp [S, ih]
    | cons r2 rs2 =>
      simp [joinSep, S] at ih ⊢
      simp [ih]
  | case3 head rest hne r rs hsplit ih =>
    rw [hsplit] at ih
    simp only [splitCC, hsplit]
    cases rs with
    | nil =>
      simp [joinSep] at ih ⊢
      simp [ih]
    | cons r2 rs2 =>
      simp [joinSep, S] at ih ⊢
      simp [ih]
  | case4 head rest hne hsplit ih => exact absurd hsplit (splitCC_ne_nil rest)

theorem lcpZip_singleton (fuel : Nat) (l : List Str) (h : l.length < fuel) :
    lcpZip fuel [l] = l := by
  induction fuel generalizing l with
  | zero => omega
  | succ n ih =>
    cases l with
    | nil => simp [lcpZip]
    | cons x xs =>
      simp only [lcpZip, List.head?_cons, List.all_cons, List.all_nil,
        List.isEmpty_cons, List.headD_cons, List.map_cons, List.map_nil,
        List.tail_cons, Bool.not_false, Bool.and_true, beq_self_eq_true,
        Bool.true_and, if_true, ite_true]
      simp only [List.length_cons] at h
      rw [ih xs (by omega)]

theorem sortStr_mem (x : Str) (l : List Str) : x ∈ sortStr l ↔ x ∈ l :=
  (List.perm_insertionSort leStr l).mem_iff

/-- Claim C4 counterexample: two overlapping (but not mutually covering)
statements are both emitted by the unique policy under the same (empty)
attribute and visibility — their canonical name sets share `foo::B`.  This
refutes "no two emitted import statements denote an overlapping or
duplicate set of symbols". -/
theorem claim_C4_counterexample :
    streamline_rust_imports_unique
        (S "use foo::\x7bA, B\x7d;\nuse foo::\x7bB, C\x7d;") =
      .ok (S "use foo::\x7bA, B\x7d;\nuse foo::\x7bB, C\x7d;") ∧
    _canonicalize_import none (S "use foo::\x7bA, B\x7d;") =
      .ok ([], false, [S "foo::A", S "foo::B"]) ∧
    _canonicalize_import none (S "use foo::\x7bB, C\x7d;") =
      .ok ([], false, [S "foo::B", S "foo::C"]) ∧
    (S "foo::B") ∈ [S "foo::A", S "foo::B"] ∧
    (S "foo::B") ∈ [S "foo::B", S "foo::C"] := by
  refine ⟨by decide, by decide, by decide, by decide, by decide⟩

/-- Claim C5 counterexample.  (1) Multiset preservation fails: a
duplicated `use foo::Bar;` input has the name twice, the unique policy's
output has it once.  (2) Even set preservation fails for the high policy:
`use a::B;` is rewritten to a block denoting `a::B::B`
(`collect_root_groups` sets both subpath and item to `parts[1]` for
two-segment paths), silently dropping `a::B`. -/
theorem claim_C5_counterexample :
    importNames (S "use foo::Bar;\nuse foo::Bar;") =
      .ok [S "foo::Bar", S "foo::Bar"] ∧
    streamline_rust_imports_unique (S "use foo::Bar;\nuse foo::Bar;") =
      .ok (S "use foo::Bar;") ∧
    importNames (S "use foo::Bar;") = .ok [S "foo::Bar"] ∧
    ¬ ([S "foo::Bar", S "foo::Bar"].Perm [S "foo::Bar"]) ∧
    streamline_rust_imports_high (S "use a::B;") =
      .ok (S "use a::B::\x7b\n    B,\n\x7d;") ∧
    importNames (S "use a::B::\x7b\n    B,\n\x7d;") = .ok [S "a::B::B"] ∧
    importNames (S "use a::B;") = .ok [S "a::B"] ∧
    (S "a::B::B") ≠ (S "a::B") := by
  refine ⟨by decide, by decide, by decide, ?_, by decide, by decide, by decide,
    by decide⟩
  intro hperm
  exact absurd hperm.length_eq (by decide)

/-- Claim C6 counterexample: in the high policy, `self` is sorted among
the lowercase-initial items by `format_high_group`'s lower-then-upper
order, not moved to the end: with items `{self, write_fn}` the emitted
inner group lists `self` first, with `write_fn` after it. -/
theorem claim_C6_counterexample :
    streamline_rust_imports_high (S "use std::io::\x7bself, write_fn\x7d;") =
      .ok (S "use std::io::\x7b\n    \x7bself, write_fn\x7d,\n\x7d;") ∧
    collect_root_groups [(none, S "use std::io::\x7bself, write_fn\x7d;", false)] =
      Except.ok
        ([((S "std", false), ([S "io"], [(S "io", [S "write_fn", S "self"])]))],
          []) ∧
    sortLowerThenUpper [S "write_fn", S "self"] = [S "self", S "write_fn"] ∧
    (S "self") ∈ sortLowerThenUpper [S "write_fn", S "self"] ∧
    (sortLowerThenUpper [S "write_fn", S "self"]).getLast? ≠ some (S "self") := by
  refine ⟨by decide, by rfl, by decide, by decide, by decide⟩

/-- Claim C6 (amended): in the low policy — `generate_import_statements`
and `format_module_groups`, both of which order items with
`sortedSelfLast` — whenever an item set contains the literal `self`, it
is emitted as the last item of its group and nowhere earlier; e.g.
`use foo::{self, zebra};` becomes `use foo::{zebra, self};`.  (The high
policy instead sorts `self` among the lowercase items, see the
counterexample.) -/
theorem claim_C6 :
    (∀ items, (S "self") ∈ items →
      (sortedSelfLast items).getLast? = some (S "self") ∧
      (S "self") ∉ (sortedSelfLast items).dropLast) ∧
    streamline_rust_imports_low (S "use foo::\x7bself, zebra\x7d;") =
      .ok (S "use foo::\x7bzebra, self\x7d;") := by
  refine ⟨?_, by decide⟩
  intro items h
  have hc : items.contains (S "self") = true := List.elem_iff.2 h
  unfold sortedSelfLast
  rw [if_pos hc]
  constructor
  · exact List.getLast?_concat _
  · rw [List.dropLast_concat]
    intro hmem
    rw [sortStr_mem] at hmem
    have h2 := List.mem_filter.1 hmem
    simp at h2

theorem claim_C6_witness :
    (S "self") ∈ [S "self", S "zebra"] ∧
    (sortedSelfLast [S "self", S "zebra"]).getLast? = some (S "self") ∧
    (S "self") ∉ (sortedSelfLast [S "self", S "zebra"]).dropLast :=
  ⟨by decide, (claim_C6.1 [S "self", S "zebra"] (by decide)).1,
    (claim_C6.1 [S "self", S "zebra"] (by decide)).2⟩

/-- Claim C7 counterexample: a root group whose set of non-empty subpaths
is exactly `["b"]` (one distinct subpath) IS treated as having the
non-empty common subpath `"b"`: `highest_common_subpath` returns `"b"`
and the high policy emits the `use a::b::{ ... }` common form for the
single import `use a::b::C;`. -/
theorem claim_C7_counterexample :
    streamline_rust_imports_high (S "use a::b::C;") =
      .ok (S "use a::b::\x7b\n    C,\n\x7d;") ∧
    collect_root_groups [(none, S "use a::b::C;", false)] =
      Except.ok ([((S "a", false), ([S "b"], [(S "b", [S "C"])]))], []) ∧
    ((([S "b"], [(S "b", [S "C"])]) : List Str × AMap Str (List Str)).2.map
      Prod.fst).filter (fun s => s ≠ []) = [S "b"] ∧
    highest_common_subpath ([S "b"], [(S "b", [S "C"])]) = S "b" ∧
    (S "b") ≠ ([] : Str) := by
  refine ⟨by decide, by rfl, by decide, by decide, by decide⟩

/-- Claim C7 (amended): `highest_common_subpath` is the longest leading
agreement of ALL non-empty subpaths: it is empty when there are none, and
when the group has exactly one distinct non-empty subpath it returns that
subpath itself — a single subpath does count as common. -/
theorem claim_C7 :
    (∀ group : List Str × AMap Str (List Str),
      (group.2.map Prod.fst).filter (fun s => s ≠ []) = [] →
      highest_common_subpath group = []) ∧
    (∀ (group : List Str × AMap Str (List Str)) (sub : Str),
      (group.2.map Prod.fst).filter (fun s => s ≠ []) = [sub] →
      highest_common_subpath group = sub) := by
  constructor
  · intro group h
    simp only [highest_common_subpath]
    rw [h]
    simp
  · intro group sub h
    simp only [highest_common_subpath]
    rw [h]
    rw [if_neg (by simp)]
    simp only [List.map_cons, List.map_nil, List.headD_cons]
    rw [lcpZip_singleton _ _ (Nat.lt_succ_self _)]
    rw [if_pos (splitCC_ne_nil sub)]
    exact joinSep_splitCC sub

theorem claim_C7_witness :
    ((([S "b"], [(S "b", [S "C"]), (S "", [S "X"])]) :
        List Str × AMap Str (List Str)).2.map Prod.fst).filter
      (fun s => s ≠ []) = [S "b"] ∧
    highest_common_subpath ([S "b"], [(S "b", [S "C"]), (S "", [S "X"])]) =
      S "b" :=
  ⟨by decide, claim_C7.2 ([S "b"], [(S "b", [S "C"]), (S "", [S "X"])])
    (S "b") (by decide)⟩

/-- Claim C8 counterexample: `use a::{{B}};` is valid Rust import syntax
(a nested use-group), but the low policy is not idempotent on it:
one application yields `use a::::B;`, a second application yields
`use a::B;`. -/
theorem claim_C8_counterexample :
    streamline_rust_imports_low (S "use a::\x7b\x7bB\x7d\x7d;") =
      .ok (S "use a::::B;") ∧
    streamline_rust_imports_low (S "use a::::B;") = .ok (S "use a::B;") ∧
    (S "use a::B;") ≠ (S "use a::::B;") := by
  refine ⟨by decide, by decide, by decide⟩

/-- Claim C9 counterexample: with two items whose joined string
`"a, b"` is far below 79 characters, `generate_python_import_statements`
still emits the parenthesized multi-line block (the code tests
`len(sorted_items) > 1`, not the joined length), and the last item line
`"    b"` carries no trailing comma. -/
theorem claim_C9_counterexample :
    generate_python_import_statements [] [(S "m", [S "a", S "b"])] =
      [S "from m import (", S "    a, ", S "    b", S ")"] ∧
    (joinSep (S ", ") (sortStr [S "a", S "b"])).length ≤ 79 ∧
    generate_python_import_statements [] [(S "m", [S "a", S "b"])] ≠
      [S "from m import a, b"] ∧
    ¬ strEnds (S "    b") (S ",") = true := by
  refine ⟨by decide, by decide, by decide, by decide⟩

/-- Claim C9 (amended): `generate_python_import_statements` emits a
single-line `from <module> import <item>` exactly when the sorted item
list has at most one element; with two or more items it emits the
parenthesized block with `"    <item>, "` for every item but the last and
`"    <item>"` (no trailing comma) for the last, then `")"`. -/
theorem claim_C9 :
    (∀ m it, generate_python_import_statements [] [(m, [it])] =
      [S "from " ++ m ++ S " import " ++ it]) ∧
    (∀ m items, 2 ≤ (sortStr items).length →
      generate_python_import_statements [] [(m, items)] =
        [S "from " ++ m ++ S " import ("] ++
          (sortStr items).dropLast.map (fun it => S "    " ++ it ++ S ", ") ++
          [S "    " ++ (sortStr items).getLastD []] ++ [S ")"]) := by
  constructor
  · intro m it
    simp [generate_python_import_statements, sortStr, List.insertionSort,
      List.orderedInsert, joinSep]
  · intro m items h
    simp only [generate_python_import_statements, List.insertionSort,
      List.orderedInsert, ne_eq, not_true_eq_false, if_false, List.foldl_cons,
      List.foldl_nil]
    rw [if_pos (by omega)]
    simp

theorem claim_C9_witness :
    2 ≤ (sortStr [S "b", S "a"]).length ∧
    generate_python_import_statements [] [(S "collections", [S "b", S "a"])] =
      [S "from " ++ S "collections" ++ S " import ("] ++
        (sortStr [S "b", S "a"]).dropLast.map
          (fun it => S "    " ++ it ++ S ", ") ++
        [S "    " ++ (sortStr [S "b", S "a"]).getLastD []] ++ [S ")"] :=
  ⟨by decide, claim_C9.2 (S "collections") [S "b", S "a"] (by decide)⟩

theorem uniqueAux_pairwise (fuel : Nat) :
    ∀ lines seen out outF seenF,
      uniqueAux fuel lines seen out = .ok (outF, seenF) →
      List.Pairwise (fun a b => _is_covered_by a b = false) seen →
      List.Pairwise (fun a b => _is_covered_by a b = false) seenF := by
  induction fuel with
  | zero =>
    intro lines seen out outF seenF h
    simp [uniqueAux] at h
  | succ n ih =>
    intro lines seen out outF seenF h hp
    cases lines with
    | nil =>
      simp only [uniqueAux, Except.ok.injEq, Prod.mk.injEq] at h
      rw [← h.2]
      exact hp
    | cons line rest =>
      rw [uniqueAux] at h
      dsimp only at h
      split at h
      · split at h
        · exact absurd h (by simp)
        · split at h
          · exact ih _ _ _ _ _ h hp
          · rename_i hkey hAny
            refine ih _ _ _ _ _ h ?_
            rw [List.pairwise_append]
            refine ⟨hp, List.pairwise_singleton _ _, ?_⟩
            intro a ha b hb
            simp only [List.mem_singleton] at hb
            subst hb
            simp only [List.any_eq_true, not_exists, not_and] at hAny
            by_contra hcov
            exact hAny a ha (by simpa using hcov)
      · split at h
        · split at h
          · exact absurd h (by simp)
          · split at h
            · exact ih _ _ _ _ _ h hp
            · rename_i hkey hAny
              refine ih _ _ _ _ _ h ?_
              rw [List.pairwise_append]
              refine ⟨hp, List.pairwise_singleton _ _, ?_⟩
              intro a ha b hb
              simp only [List.mem_singleton] at hb
              subst hb
              simp only [List.any_eq_true, not_exists, not_and] at hAny
              by_contra hcov
              exact hAny a ha (by simpa using hcov)
        · exact ih _ _ _ _ _ h hp

/-- Claim C4 (amended): in `streamline_rust_imports_unique`'s run, the
emitted canonical keys are pairwise non-covering in emission order: no
later emitted statement's full name set is covered by an earlier emitted
statement of the same normalized attribute and visibility.  (Merely
overlapping statements are both emitted, see the counterexample.) -/
theorem claim_C4 :
    ∀ lines outF seenF,
      uniqueAux (lines.length + 1) lines [] [] = .ok (outF, seenF) →
      List.Pairwise (fun a b => _is_covered_by a b = false) seenF :=
  fun lines outF seenF h =>
    uniqueAux_pairwise (lines.length + 1) lines [] [] outF seenF h (by simp)

theorem claim_C4_witness :
    uniqueAux ([S "use foo::Bar;", S "use baz::Q;"].length + 1)
        [S "use foo::Bar;", S "use baz::Q;"] [] [] =
      .ok ([S "use foo::Bar;", S "use baz::Q;"],
        [([], false, [S "foo::Bar"]), ([], false, [S "baz::Q"])]) ∧
    List.Pairwise (fun a b => _is_covered_by a b = false)
      [(([] : Str), false, [S "foo::Bar"]), ([], false, [S "baz::Q"])] :=
  ⟨by decide, claim_C4 [S "use foo::Bar;", S "use baz::Q;"]
    [S "use foo::Bar;", S "use baz::Q;"]
    [([], false, [S "foo::Bar"]), ([], false, [S "baz::Q"])] (by decide)⟩

theorem ltStr_irrefl (a : Str) : ltStr a a = false := by
  induction a with
  | nil => rfl
  | cons c s ih => simp [ltStr, ih]

theorem ltStr_asymm : ∀ {a b : Str}, ltStr a b = true → ltStr b a = false := by
  intro a
  induction a with
  | nil =>
    intro b h
    cases b with
    | nil => exact absurd h (by decide)
    | cons d t => simp [ltStr]
  | cons c s ih =>
    intro b h
    cases b with
    | nil => simp [ltStr] at h
    | cons d t =>
      simp only [ltStr] at h ⊢
      by_cases hcd : c = d
      · subst hcd
        rw [if_pos (show (c == c) = true by simp)] at h
        rw [if_pos (show (c == c) = true by simp)]
        exact ih h
      · rw [if_neg (by simp [hcd])] at h
        rw [if_neg (by simp [Ne.symm hcd])]
        simp only [decide_eq_true_eq] at h
        simp only [decide_eq_false_iff_not]
        exact Nat.lt_asymm h

theorem ltStr_eq_of_not : ∀ {a b : Str}, ltStr a b = false → ltStr b a = false →
    a = b := by
  intro a
  induction a with
  | nil =>
    intro b h1 h2
    cases b with
    | nil => rfl
    | cons d t => simp [ltStr] at h1
  | cons c s ih =>
    intro b h1 h2
    cases b with
    | nil => simp [ltStr] at h2
    | cons d t =>
      simp only [ltStr] at h1 h2
      by_cases hcd : c = d
      · subst hcd
        rw [if_pos (show (c == c) = true by simp)] at h1 h2
        rw [ih h1 h2]
      · rw [if_neg (by simp [hcd])] at h1
        rw [if_neg (by simp [Ne.symm hcd])] at h2
        simp only [decide_eq_false_iff_not] at h1 h2
        exact absurd (Char.ext (UInt32.ext (Nat.le_antisymm (Nat.not_lt.1 h2) (Nat.not_lt.1 h1)))) hcd

theorem ltStr_trans : ∀ {a b c : Str}, ltStr a b = true → ltStr b c = true →
    ltStr a c = true := by
  intro a
  induction a with
  | nil =>
    intro b c h1 h2
    cases b with
    | nil => exact absurd h1 (by decide)
    | cons d t =>
      cases c with
      | nil => simp [ltStr] at h2
      | cons e u => simp [ltStr]
  | cons x s ih =>
    intro b c h1 h2
    cases b with
    | nil => simp [ltStr] at h1
    | cons y t =>
      cases c with
      | nil => simp [ltStr] at h2
      | cons z u =>
        simp only [ltStr] at h1 h2 ⊢
        by_cases hxy : x = y
        · subst hxy
          rw [if_pos (show (x == x) = true by simp)] at h1
          by_cases hyz : x = z
          · subst hyz
            rw [if_pos (show (x == x) = true by simp)] at h2 ⊢
            exact ih h1 h2
          · rw [if_neg (by simp [hyz])] at h2
            rw [if_neg (by simp [hyz])]
            exact h2
        · rw [if_neg (by simp [hxy])] at h1
          simp only [decide_eq_true_eq] at h1
          by_cases hyz : y = z
          · subst hyz
            rw [if_neg (by simp [hxy])]
            simp only [decide_eq_true_eq]
            exact h1
          · rw [if_neg (by simp [hyz])] at h2
            simp only [decide_eq_true_eq] at h2
            have hxz : x.toNat < z.toNat := Nat.lt_trans h1 h2
            have hxz' : x ≠ z := fun he => absurd hxz (by rw [he]; exact Nat.lt_irrefl _)
            rw [if_neg (by simp [hxz'])]
            simp only [decide_eq_true_eq]
            exact hxz

theorem ltStr_neg_trans {a b c : Str} (h1 : ltStr b a = false)
    (h2 : ltStr c b = false) : ltStr c a = false := by
  by_contra h
  rw [Bool.not_eq_false] at h
  by_cases hab : ltStr a b = true
  · have h3 := ltStr_trans h hab
    rw [h3] at h2
    simp at h2
  · have hba : ltStr a b = false := by simpa using hab
    have heq := ltStr_eq_of_not hba h1
    subst heq
    rw [h] at h2
    simp at h2

@[instance] theorem leStr_isTotal : IsTotal Str leStr := by
  constructor
  intro a b
  by_cases h : ltStr b a = true
  · exact Or.inr (ltStr_asymm h)
  · exact Or.inl (by simpa [leStr] using h)

@[instance] theorem leStr_isTrans : IsTrans Str leStr := by
  constructor
  intro a b c h1 h2
  exact ltStr_neg_trans h1 h2

@[instance] theorem leStr_isAntisymm : IsAntisymm Str leStr := by
  constructor
  intro a b h1 h2
  exact ltStr_eq_of_not h2 h1

theorem sortStr_sorted (l : List Str) : List.Sorted leStr (sortStr l) :=
  List.sorted_insertionSort leStr l

theorem sortStr_perm (l : List Str) : List.Perm (sortStr l) l :=
  List.perm_insertionSort leStr l

theorem sortStr_idem (l : List Str) : sortStr (sortStr l) = sortStr l :=
  List.eq_of_perm_of_sorted (sortStr_perm (sortStr l)) (sortStr_sorted _)
    (sortStr_sorted l)

theorem sortStr_eq_of_perm {l1 l2 : List Str} (h : List.Perm l1 l2) :
    sortStr l1 = sortStr l2 :=
  List.eq_of_perm_of_sorted
    ((sortStr_perm l1).trans (h.trans (sortStr_perm l2).symm))
    (sortStr_sorted l1) (sortStr_sorted l2)

theorem leKey_total (a b : Str × Bool) : leKey a b ∨ leKey b a := by
  by_cases h1 : ltStr a.1 b.1 = true
  · exact Or.inl (Or.inl h1)
  · by_cases h2 : ltStr b.1 a.1 = true
    · exact Or.inr (Or.inl h2)
    · have he : a.1 = b.1 := ltStr_eq_of_not (by simpa using h1) (by simpa using h2)
      by_cases hb : a.2 = true
      · by_cases hb2 : b.2 = true
        · exact Or.inl (Or.inr ⟨he, fun _ => hb2⟩)
        · exact Or.inr (Or.inr ⟨he.symm, fun _ => hb⟩)
      · exact Or.inl (Or.inr ⟨he, fun h => absurd h hb⟩)

theorem leKey_trans {a b c : Str × Bool} (h1 : leKey a b) (h2 : leKey b c) :
    leKey a c := by
  rcases h1 with h1 | ⟨he1, hb1⟩
  · rcases h2 with h2 | ⟨he2, hb2⟩
    · exact Or.inl (ltStr_trans h1 h2)
    · exact Or.inl (he2 ▸ h1)
  · rcases h2 with h2 | ⟨he2, hb2⟩
    · exact Or.inl (he1 ▸ h2)
    · exact Or.inr ⟨he1.trans he2, fun h => hb2 (hb1 h)⟩

theorem leKey_antisymm {a b : Str × Bool} (h1 : leKey a b) (h2 : leKey b a) :
    a = b := by
  rcases h1 with h1 | ⟨he1, hb1⟩
  · rcases h2 with h2 | ⟨he2, hb2⟩
    · have := ltStr_asymm h1
      rw [this] at h2
      simp at h2
    · rw [he2] at h1
      rw [ltStr_irrefl] at h1
      simp at h1
  · rcases h2 with h2 | ⟨he2, hb2⟩
    · rw [he1] at h2
      rw [ltStr_irrefl] at h2
      simp at h2
    · refine Prod.ext he1 ?_
      by_cases ha : a.2 = true
      · rw [ha, hb1 ha]
      · by_cases hb : b.2 = true
        · exact absurd (hb2 hb) ha
        · rw [Bool.not_eq_true] at ha hb
          rw [ha, hb]

@[instance] theorem leKey_isTotal : IsTotal (Str × Bool) leKey := ⟨leKey_total⟩

@[instance] theorem leKey_isTrans : IsTrans (Str × Bool) leKey := ⟨fun _ _ _ => leKey_trans⟩

@[instance] theorem leKey_isAntisymm : IsAntisymm (Str × Bool) leKey := ⟨fun _ _ => leKey_antisymm⟩

@[instance] theorem groupKey_isTotal : IsTotal ((Str × Bool) × AMap Str (List Str))
    (fun a b => leKey a.1 b.1) := ⟨fun a b => leKey_total a.1 b.1⟩

@[instance] theorem groupKey_isTrans : IsTrans ((Str × Bool) × AMap Str (List Str))
    (fun a b => leKey a.1 b.1) := ⟨fun _ _ _ => leKey_trans⟩

@[instance] theorem pairFst_isTotal : IsTotal (Str × List Str) (fun a b => leStr a.1 b.1) :=
  ⟨fun a b => IsTotal.total (r := leStr) a.1 b.1⟩

@[instance] theorem pairFst_isTrans : IsTrans (Str × List Str) (fun a b => leStr a.1 b.1) :=
  ⟨fun _ _ _ h1 h2 => ltStr_neg_trans h1 h2⟩

theorem goodChar_spec {c : Char} (h : goodChar c = true) :
    c ≠ brOpen ∧ c ≠ brClose ∧ c ≠ ',' ∧ c ≠ ':' ∧ c ≠ ';' ∧ c ≠ '*' ∧
      isPySpace c = false := by
  simp only [goodChar, Bool.not_eq_true', Bool.or_eq_false_iff, beq_eq_false_iff_ne]
    at h
  exact ⟨h.1.1.1.1.1.1, h.1.1.1.1.1.2, h.1.1.1.1.2, h.1.1.1.2, h.1.1.2, h.1.2, h.2⟩

theorem hasCh_iff {c : Char} {s : Str} : hasCh c s = true ↔ c ∈ s := by
  constructor
  · intro h
    exact List.elem_iff.1 h
  · intro h
    exact List.elem_iff.2 h

theorem mem_joinSep {c : Char} {sep : Str} :
    ∀ {l : List Str}, c ∈ joinSep sep l → c ∈ sep ∨ ∃ s ∈ l, c ∈ s := by
  intro l
  induction l with
  | nil => intro h; simp [joinSep] at h
  | cons x xs ih =>
    intro h
    cases xs with
    | nil =>
      right
      exact ⟨x, by simp, by simpa [joinSep] using h⟩
    | cons y ys =>
      simp only [joinSep, List.mem_append] at h
      rcases h with (h | h) | h
      · right; exact ⟨x, by simp, h⟩
      · left; exact h
      · rcases ih h with h | ⟨s, hs, hc⟩
        · left; exact h
        · right; exact ⟨s, by simp [hs], hc⟩

theorem nameOf_chars {segs : List Str} (h : ∀ s ∈ segs, goodSeg s) :
    ∀ c ∈ nameOf segs, goodChar c = true ∨ c = ':' := by
  intro c hc
  rcases mem_joinSep hc with hsep | ⟨s, hs, hcs⟩
  · right
    have : (S "::") = [':', ':'] := rfl
    rw [this] at hsep
    simpa using hsep
  · left; exact (h s hs).2.2 c hcs

theorem nameOf_not_mem {segs : List Str} (h : ∀ s ∈ segs, goodSeg s) {c : Char}
    (hc : goodChar c = false) (hc2 : c ≠ ':') : c ∉ nameOf segs := by
  intro hmem
  rcases nameOf_chars h c hmem with hg | he
  · rw [hg] at hc; cases hc
  · exact hc2 he

theorem nameOf_no_space {segs : List Str} (h : ∀ s ∈ segs, goodSeg s) :
    ∀ c ∈ nameOf segs, isPySpace c = false := by
  intro c hc
  rcases nameOf_chars h c hc with hg | he
  · exact (goodChar_spec hg).2.2.2.2.2.2
  · subst he; rfl

theorem dropWhile_eq_self_of {p : Char → Bool} {l : Str}
    (h : ∀ c ∈ l, p c = false) : l.dropWhile p = l := by
  cases l with
  | nil => rfl
  | cons a l2 =>
    rw [List.dropWhile_cons]
    simp [h a (by simp)]

theorem pyStrip_no_space {s : Str} (h : ∀ c ∈ s, isPySpace c = false) :
    pyStrip s = s := by
  unfold pyStrip
  rw [dropWhile_eq_self_of h]
  rw [dropWhile_eq_self_of (fun c hc => h c (by simpa using hc))]
  simp

theorem strStarts_append (p r : Str) : strStarts (p ++ r) p = true := by
  induction p with
  | nil => cases r <;> rfl
  | cons c p2 ih => simp [strStarts, ih]

theorem strEnds_append (r suf : Str) : strEnds (r ++ suf) suf = true := by
  unfold strEnds
  rw [List.reverse_append]
  exact strStarts_append _ _

theorem strStarts_cons_head {s p : Str} {c : Char}
    (h : strStarts s (c :: p) = true) : ∃ t, s = c :: t := by
  cases s with
  | nil => simp [strStarts] at h
  | cons a s2 =>
    simp only [strStarts, Bool.and_eq_true, beq_iff_eq] at h
    exact ⟨s2, by rw [h.1]⟩

theorem strEnds_star_false {s : Str} (h : '*' ∉ s) :
    strEnds s (S "::*") = false := by
  by_contra hx
  rw [Bool.not_eq_false] at hx
  unfold strEnds at hx
  have hrev : (S "::*").reverse = '*' :: [':', ':'] := rfl
  rw [hrev] at hx
  obtain ⟨t, ht⟩ := strStarts_cons_head hx
  have hm : '*' ∈ s.reverse := by rw [ht]; simp
  rw [List.mem_reverse] at hm
  exact h hm

theorem splitCC_cons_ne (d : Char) (rest : Str) (hd : d ≠ ':') :
    splitCC (d :: rest) = match splitCC rest with
      | r :: rs => (d :: r) :: rs
      | [] => [[d]] := by
  rw [splitCC.eq_def]
  cases rest with
  | nil => simp
  | cons e rest2 =>
    by_cases he : e = ':'
    · subst he
      simp [hd]
    · simp [hd, he]

theorem splitCC_no_colon {s : Str} (h : ∀ c ∈ s, c ≠ ':') : splitCC s = [s] := by
  induction s with
  | nil => rfl
  | cons d s2 ih =>
    rw [splitCC_cons_ne d s2 (h d (by simp))]
    rw [ih (fun c hc => h c (by simp [hc]))]

theorem splitCC_sep (s t : Str) (h : ∀ c ∈ s, c ≠ ':') :
    splitCC (s ++ ':' :: ':' :: t) = s :: splitCC t := by
  induction s with
  | nil => rfl
  | cons d s2 ih =>
    rw [List.cons_append]
    rw [splitCC_cons_ne d _ (h d (by simp))]
    rw [ih (fun c hc => h c (by simp [hc]))]

theorem goodSeg_no_colon {s : Str} (h : goodSeg s) : ∀ c ∈ s, c ≠ ':' :=
  fun c hc => (goodChar_spec (h.2.2 c hc)).2.2.2.1

theorem splitCC_nameOf {segs : List Str} (hne : segs ≠ [])
    (h : ∀ s ∈ segs, goodSeg s) : splitCC (nameOf segs) = segs := by
  induction segs with
  | nil => cases hne rfl
  | cons x xs ih =>
    cases xs with
    | nil => exact splitCC_no_colon (goodSeg_no_colon (h x (by simp)))
    | cons y ys =>
      have hstep : nameOf (x :: y :: ys) = x ++ ':' :: ':' :: nameOf (y :: ys) := by
        show x ++ S "::" ++ nameOf (y :: ys) = _
        rw [show (S "::" : Str) = [':', ':'] from rfl]
        simp
      rw [hstep, splitCC_sep _ _ (goodSeg_no_colon (h x (by simp)))]
      rw [ih (by simp) (fun s hs => h s (by simp [hs]))]

theorem filter_ne_nil_self {l : List Str} (h : ∀ s ∈ l, s ≠ []) :
    l.filter (fun p => p ≠ []) = l := by
  rw [List.filter_eq_self]
  intro a ha
  simpa using h a ha

theorem hasCC_append_cc (s t : Str) : hasCC (s ++ ':' :: ':' :: t) = true := by
  induction s with
  | nil => rfl
  | cons d s2 ih =>
    rw [List.cons_append, hasCC.eq_def]
    split
    · rename_i heq
      simp at heq
    · rfl
    · rename_i x rest heq
      injection heq with h1 h2
      rw [← h2]
      exact ih

theorem nameOf_cons2 (x y : Str) (ys : List Str) :
    nameOf (x :: y :: ys) = x ++ ':' :: ':' :: nameOf (y :: ys) := by
  show x ++ S "::" ++ nameOf (y :: ys) = _
  rw [show (S "::" : Str) = [':', ':'] from rfl]
  simp

theorem hasCC_nameOf {segs : List Str} (h2 : 2 ≤ segs.length) :
    hasCC (nameOf segs) = true := by
  match segs, h2 with
  | x :: y :: ys, _ =>
    rw [nameOf_cons2]
    exact hasCC_append_cc _ _

theorem pyStrip_sandwich {a b : Char} (mid : Str) (ha : isPySpace a = false)
    (hb : isPySpace b = false) : pyStrip (a :: (mid ++ [b])) = a :: (mid ++ [b]) := by
  unfold pyStrip
  rw [List.dropWhile_cons]
  rw [if_neg (by simp [ha])]
  rw [List.reverse_cons, List.reverse_append]
  show ((b :: mid.reverse ++ [a]).dropWhile isPySpace).reverse = _
  rw [List.cons_append, List.dropWhile_cons]
  rw [if_neg (by simp [hb])]
  simp

theorem lineOf_shape (segs : List Str) :
    lineOf segs = 'u' :: ((S "se " ++ nameOf segs) ++ [';']) := by
  show S "use " ++ nameOf segs ++ S ";" = _
  rw [show (S "use " : Str) = 'u' :: S "se " from rfl,
    show (S ";" : Str) = [';'] from rfl]
  simp

theorem pyStrip_lineOf (segs : List Str) :
    pyStrip (lineOf segs) = lineOf segs := by
  rw [lineOf_shape, pyStrip_sandwich _ (by decide) (by decide)]

theorem lineOf_starts_use (segs : List Str) :
    strStarts (lineOf segs) (S "use ") = true := by
  show strStarts (S "use " ++ (nameOf segs ++ S ";")) (S "use ") = true
  exact strStarts_append _ _

theorem lineOf_not_pub (segs : List Str) :
    strStarts (lineOf segs) (S "pub use ") = false := by
  rw [lineOf_shape, show (S "pub use " : Str) = 'p' :: S "ub use " from rfl]
  show (('u' == 'p') && _) = false
  rw [show ('u' == 'p') = false from rfl]
  simp

theorem lineOf_not_cfg (segs : List Str) :
    strStarts (lineOf segs) (S "#[cfg") = false := by
  rw [lineOf_shape, show (S "#[cfg" : Str) = '#' :: S "[cfg" from rfl]
  show (('u' == '#') && _) = false
  rw [show ('u' == '#') = false from rfl]
  simp

theorem lineOf_ends_semi (segs : List Str) :
    strEnds (lineOf segs) (S ";") = true := by
  show strEnds (S "use " ++ nameOf segs ++ S ";") (S ";") = true
  rw [show S "use " ++ nameOf segs ++ S ";" =
    (S "use " ++ nameOf segs) ++ S ";" by simp]
  exact strEnds_append _ _

theorem sortStr_singleton (x : Str) : sortStr [x] = [x] := by
  simp [sortStr, List.insertionSort, List.orderedInsert]

theorem nameOf_no_brace {segs : List Str} (h : ∀ s ∈ segs, goodSeg s) :
    hasCh brOpen (nameOf segs) = false := by
  by_contra hx
  rw [Bool.not_eq_false] at hx
  exact nameOf_not_mem h (by decide) (by decide) (hasCh_iff.1 hx)

theorem nameOf_no_star {segs : List Str} (h : ∀ s ∈ segs, goodSeg s) :
    strEnds (nameOf segs) (S "::*") = false :=
  strEnds_star_false (nameOf_not_mem h (by decide) (by decide))

theorem drop4_lineOf (segs : List Str) :
    (lineOf segs).drop 4 = nameOf segs ++ S ";" := by
  show (S "use " ++ (nameOf segs ++ S ";")).drop 4 = _
  rw [show (4 : Nat) = (S "use ").length from rfl]
  exact List.drop_left _ _

theorem pathOf_lineOf {segs : List Str} (h : ∀ s ∈ segs, goodSeg s) :
    pyStrip (((lineOf segs).drop 4).dropLast) = nameOf segs := by
  rw [drop4_lineOf, show (S ";" : Str) = [';'] from rfl, List.dropLast_concat]
  exact pyStrip_no_space (nameOf_no_space h)

theorem canonicalize_lineOf {segs : List Str} (h : goodPath segs) :
    _canonicalize_import none (lineOf segs) = .ok ([], false, [nameOf segs]) := by
  obtain ⟨hlen, hsegs⟩ := h
  unfold _canonicalize_import
  simp only [Option.getD_none, List.filter_nil, lineOf_not_pub,
    Bool.false_eq_true, if_false, if_neg]
  rw [pathOf_lineOf hsegs]
  rw [if_neg (by simp [nameOf_no_star hsegs])]
  rw [if_neg (by simp [nameOf_no_brace hsegs])]
  rw [splitCC_nameOf (by intro he; rw [he] at hlen; simp at hlen) hsegs]
  rw [filter_ne_nil_self (fun s hs => (hsegs s hs).1)]
  rw [if_pos (by intro he; rw [he] at hlen; simp at hlen)]
  rw [sortStr_singleton]
  rfl

theorem parseAux_R :
    ∀ (fuel : Nat) (lines : List Str) (i : Nat) (uses : List UseStmt)
      (others : List Str),
      (∀ l ∈ lines, ∃ segs, goodPath segs ∧ l = lineOf segs) →
      lines.length - i < fuel →
      parseAux lines fuel i uses others =
        .ok (uses ++ ((lines.drop i).map (fun l => (none, l, false))), others) := by
  intro fuel
  induction fuel with
  | zero =>
    intro lines i uses others hR hf
    omega
  | succ n ih =>
    intro lines i uses others hR hf
    cases hget : lines.get? i with
    | none =>
      have hge : lines.length ≤ i := List.get?_eq_none.1 hget
      simp only [parseAux]
      rw [hget]
      rw [List.drop_eq_nil_of_le hge]
      simp
    | some raw =>
      have hlt : i < lines.length := by
        by_contra hge
        rw [List.get?_eq_none.2 (by omega)] at hget
        cases hget
      have hmem : raw ∈ lines := List.get?_mem hget
      obtain ⟨segs, hgood, hline⟩ := hR raw hmem
      have hdrop : lines.drop i = raw :: lines.drop (i + 1) := by
        have := List.drop_eq_getElem_cons hlt
        rw [this]
        congr 1
        have : lines[i]? = some lines[i] := List.getElem?_eq_getElem hlt
        rw [List.get?_eq_getElem?] at hget
        rw [this] at hget
        exact Option.some.injEq _ _ ▸ hget
      simp only [parseAux]
      rw [hget]
      subst hline
      simp only [pyStrip_lineOf, lineOf_not_cfg, lineOf_not_pub,
        lineOf_starts_use, lineOf_ends_semi, Bool.false_and, Bool.true_and,
        Bool.and_self, Bool.false_eq_true, if_false, if_true]
      rw [ih lines (i + 1) (uses ++ [(none, lineOf segs, false)]) others hR
        (by omega)]
      rw [hdrop]
      simp

theorem parse_R (paths : List (List Str))
    (h : ∀ segs ∈ paths, goodPath segs) :
    parse_import_statements (paths.map lineOf) =
      .ok (paths.map (fun segs => (none, lineOf segs, false)), []) := by
  unfold parse_import_statements
  rw [parseAux_R _ _ _ _ _ ?_ (by simp)]
  · simp [List.map_map]
  · intro l hl
    rw [List.mem_map] at hl
    obtain ⟨segs, hs, he⟩ := hl
    exact ⟨segs, h segs hs, he.symm⟩

theorem splitCh_not_mem {c : Char} {s : Str} (h : c ∉ s) : splitCh c s = [s] := by
  induction s with
  | nil => rfl
  | cons d s2 ih =>
    rw [splitCh.eq_def]
    simp only []
    rw [if_neg (by simp; intro he; exact h (by simp [he]))]
    rw [ih (fun hm => h (by simp [hm]))]

theorem splitCh_append {c : Char} (s t : Str) (h : c ∉ s) :
    splitCh c (s ++ c :: t) = s :: splitCh c t := by
  induction s with
  | nil =>
    rw [List.nil_append, splitCh.eq_def]
    simp
  | cons d s2 ih =>
    rw [List.cons_append, splitCh.eq_def]
    simp only []
    rw [if_neg (by simp; intro he; exact h (by simp [he]))]
    rw [ih (fun hm => h (by simp [hm]))]

theorem splitCh_joinSep (c : Char) :
    ∀ (l : List Str), l ≠ [] → (∀ s ∈ l, c ∉ s) →
      splitCh c (joinSep [c] l) = l := by
  intro l
  induction l with
  | nil => intro h; cases h rfl
  | cons x xs ih =>
    intro _ hmem
    cases xs with
    | nil =>
      show splitCh c x = [x]
      exact splitCh_not_mem (hmem x (by simp))
    | cons y ys =>
      have hj : joinSep [c] (x :: y :: ys) = x ++ c :: joinSep [c] (y :: ys) := by simp [joinSep]
      rw [hj, splitCh_append _ _ (hmem x (by simp))]
      rw [ih (by simp) (fun s hs => hmem s (by simp [hs]))]

theorem lineOf_no_newline {segs : List Str} (h : ∀ s ∈ segs, goodSeg s) :
    '\n' ∉ lineOf segs := by
  intro hm
  unfold lineOf at hm
  simp only [List.mem_append] at hm
  rcases hm with (hm | hm) | hm
  · simp [S] at hm
  · exact nameOf_not_mem h (by decide) (by decide) hm
  · simp [S] at hm

theorem textOf_shape : ∀ (paths : List (List Str)), paths ≠ [] →
    ∃ mid, textOf paths = 'u' :: (mid ++ [';']) := by
  intro paths
  induction paths with
  | nil => intro h; cases h rfl
  | cons p ps ih =>
    intro _
    cases ps with
    | nil =>
      refine ⟨S "se " ++ nameOf p, ?_⟩
      show lineOf p = _
      exact lineOf_shape p
    | cons q qs =>
      obtain ⟨mid2, hmid2⟩ := ih (by simp)
      refine ⟨S "se " ++ nameOf p ++ [';', '\n', 'u'] ++ mid2, ?_⟩
      have hj : textOf (p :: q :: qs) = lineOf p ++ '\n' :: textOf (q :: qs) := by simp [textOf, joinSep]
      rw [hj, lineOf_shape p, hmid2]
      simp

theorem pyStrip_textOf {paths : List (List Str)} (hne : paths ≠ []) :
    pyStrip (textOf paths) = textOf paths := by
  obtain ⟨mid, hmid⟩ := textOf_shape paths hne
  rw [hmid, pyStrip_sandwich _ (by decide) (by decide)]

theorem splitCh_textOf {paths : List (List Str)} (hne : paths ≠ [])
    (h : ∀ segs ∈ paths, goodPath segs) :
    splitCh '\n' (textOf paths) = paths.map lineOf := by
  unfold textOf
  rw [splitCh_joinSep _ _ (by simpa using hne) ?_]
  intro s hs
  rw [List.mem_map] at hs
  obtain ⟨segs, hmem, he⟩ := hs
  rw [← he]
  exact lineOf_no_newline (h segs hmem).2

theorem splitStep_R {segs : List Str} (hg : goodPath segs)
    (acc : List (Option Str × Bool × AMap Str (List Str)) ×
      List (Option Str × Bool × List Str) × List UseStmt) :
    splitStep acc (none, lineOf segs, false) =
      .ok (acc.1, acc.2.1 ++ [(none, false, segs)], acc.2.2) := by
  unfold splitStep
  simp only []
  have h48 : (if (false = true) then 8 else 4) = 4 := rfl
  rw [h48, pathOf_lineOf hg.2]
  rw [if_neg (by simp [hasCC_nameOf hg.1, nameOf_no_star hg.2])]
  rw [if_neg (by simp [nameOf_no_brace hg.2])]
  rw [splitCC_nameOf (by have := hg.1; intro he; rw [he] at this; simp at this) hg.2]
  rw [filter_ne_nil_self (fun s hs => (hg.2 s hs).1)]
  rfl

theorem foldlM_split_R :
    ∀ (paths : List (List Str)), (∀ p ∈ paths, goodPath p) →
    ∀ (acc : List (Option Str × Bool × AMap Str (List Str)) ×
      List (Option Str × Bool × List Str) × List UseStmt),
      List.foldlM splitStep acc
          (paths.map (fun segs => ((none : Option Str), lineOf segs, false))) =
        .ok (acc.1,
          acc.2.1 ++ paths.map (fun segs => ((none : Option Str), false, segs)),
          acc.2.2) := by
  intro paths
  induction paths with
  | nil =>
    intro h acc
    simp only [List.map_nil, List.foldlM_nil, List.append_nil]
    rfl
  | cons p ps ih =>
    intro h acc
    simp only [List.map_cons, List.foldlM_cons]
    rw [splitStep_R (h p (by simp))]
    show List.foldlM splitStep _ _ = _
    rw [ih (fun q hq => h q (by simp [hq]))]
    simp

theorem split_R (paths : List (List Str)) (h : ∀ p ∈ paths, goodPath p) :
    _split_use_statements
        (paths.map (fun segs => ((none : Option Str), lineOf segs, false))) =
      .ok ([], paths.map (fun segs => ((none : Option Str), false, segs)), []) := by
  unfold _split_use_statements
  rw [foldlM_split_R paths h ([], [], [])]
  simp

theorem lowSimpleStep_R {segs : List Str} (hg : goodPath segs)
    (g : AMap (Str × Bool) (AMap Str (List Str))) :
    lowSimpleStep g (none, false, segs) =
      .ok (gUpd g (nameOf segs.dropLast, false) [] [segs.getLastD []]) := by
  unfold lowSimpleStep
  have h2 : segs.length ≥ 2 := hg.1
  rw [dif_pos h2]
  cases segs with
  | nil => simp at h2
  | cons a as => rfl

theorem foldlM_low_R :
    ∀ (paths : List (List Str)), (∀ p ∈ paths, goodPath p) →
    ∀ (g : AMap (Str × Bool) (AMap Str (List Str))),
      List.foldlM lowSimpleStep g
          (paths.map (fun segs => ((none : Option Str), false, segs))) =
        .ok (paths.foldl
          (fun g segs => gUpd g (nameOf segs.dropLast, false) [] [segs.getLastD []])
          g) := by
  intro paths
  induction paths with
  | nil =>
    intro h g
    simp only [List.map_nil, List.foldlM_nil, List.foldl_nil]
    rfl
  | cons p ps ih =>
    intro h g
    simp only [List.map_cons, List.foldlM_cons]
    rw [lowSimpleStep_R (h p (by simp))]
    show List.foldlM lowSimpleStep _ _ = _
    rw [ih (fun q hq => h q (by simp [hq]))]
    simp

theorem collect_low_R (paths : List (List Str)) (h : ∀ p ∈ paths, goodPath p) :
    collect_low_groups
        (paths.map (fun segs => ((none : Option Str), lineOf segs, false))) =
      .ok (lowGroups paths, []) := by
  unfold collect_low_groups
  rw [split_R paths h]
  simp only [bind, Except.bind, List.foldl_nil]
  rw [foldlM_low_R paths h]
  rfl

theorem mem_sAdd {y x : Str} {s : List Str} :
    y ∈ sAdd s x ↔ y ∈ s ∨ y = x := by
  unfold sAdd
  split
  · rename_i hc
    constructor
    · exact Or.inl
    · intro h
      rcases h with h | h
      · exact h
      · subst h
        exact List.elem_iff.1 hc
  · simp

theorem mem_sUnion {y : Str} : ∀ {xs s : List Str},
    y ∈ sUnion s xs ↔ y ∈ s ∨ y ∈ xs := by
  intro xs
  induction xs with
  | nil => intro s; simp [sUnion]
  | cons x xs2 ih =>
    intro s
    show y ∈ sUnion (sAdd s x) xs2 ↔ _
    rw [ih, mem_sAdd]
    constructor
    · rintro ((h | h) | h)
      · exact Or.inl h
      · exact Or.inr (by simp [h])
      · exact Or.inr (by simp [h])
    · rintro (h | h)
      · exact Or.inl (Or.inl h)
      · rcases List.mem_cons.1 h with h | h
        · exact Or.inl (Or.inr h)
        · exact Or.inr h

theorem attrNames_nil {base : Str} : attrNames base [] = [] := rfl

theorem attrNames_cons {base : Str} {kv : Str × List Str}
    {m : AMap Str (List Str)} :
    attrNames base (kv :: m) =
      kv.2.map (fun it => base ++ S "::" ++ it) ++ attrNames base m := rfl

theorem groupNames_nil : groupNames [] = [] := rfl

theorem groupNames_cons {kv : (Str × Bool) × AMap Str (List Str)}
    {g : AMap (Str × Bool) (AMap Str (List Str))} :
    groupNames (kv :: g) = attrNames kv.1.1 kv.2 ++ groupNames g := rfl

theorem mem_attrNames_mUpd {y base attr : Str} {xs : List Str} :
    ∀ {m : AMap Str (List Str)},
      y ∈ attrNames base (mUpd m attr xs) ↔
        y ∈ attrNames base m ∨ ∃ x ∈ xs, y = base ++ S "::" ++ x := by
  intro m
  induction m with
  | nil =>
    show y ∈ attrNames base [(attr, sUnion [] xs)] ↔ _
    rw [attrNames_cons, attrNames_nil]
    simp only [List.append_nil, List.mem_map, attrNames_nil,
      List.not_mem_nil, false_or]
    constructor
    · rintro ⟨x, hx, he⟩
      rcases mem_sUnion.1 hx with hx | hx
      · simp at hx
      · exact ⟨x, hx, he.symm⟩
    · rintro ⟨x, hx, he⟩
      exact ⟨x, mem_sUnion.2 (Or.inr hx), he.symm⟩
  | cons kv m2 ih =>
    rcases kv with ⟨k2, v⟩
    rw [mUpd.eq_def]
    simp only []
    split
    · rw [attrNames_cons, attrNames_cons]
      simp only [List.mem_append, List.mem_map]
      constructor
      · rintro (⟨x, hx, he⟩ | h)
        · rcases mem_sUnion.1 hx with hx | hx
          · exact Or.inl (Or.inl ⟨x, hx, he⟩)
          · exact Or.inr ⟨x, hx, he.symm⟩
        · exact Or.inl (Or.inr h)
      · rintro ((⟨x, hx, he⟩ | h) | ⟨x, hx, he⟩)
        · exact Or.inl ⟨x, mem_sUnion.2 (Or.inl hx), he⟩
        · exact Or.inr h
        · exact Or.inl ⟨x, mem_sUnion.2 (Or.inr hx), he.symm⟩
    · rw [attrNames_cons, attrNames_cons]
      simp only [List.mem_append]
      rw [ih]
      tauto

theorem mem_groupNames_gUpd {y attr : Str} {k : Str × Bool} {xs : List Str} :
    ∀ {g : AMap (Str × Bool) (AMap Str (List Str))},
      y ∈ groupNames (gUpd g k attr xs) ↔
        y ∈ groupNames g ∨ ∃ x ∈ xs, y = k.1 ++ S "::" ++ x := by
  intro g
  induction g with
  | nil =>
    show y ∈ groupNames [(k, mUpd [] attr xs)] ↔ _
    rw [groupNames_cons, groupNames_nil]
    simp only [List.append_nil, List.not_mem_nil, false_or]
    rw [mem_attrNames_mUpd]
    simp [attrNames_nil]
  | cons kv g2 ih =>
    rcases kv with ⟨k2, v⟩
    rw [gUpd.eq_def]
    simp only []
    split
    · rename_i hk
      have hk2 : k2 = k := by simpa using hk
      subst hk2
      rw [groupNames_cons, groupNames_cons]
      simp only [List.mem_append]
      rw [mem_attrNames_mUpd]
      exact or_right_comm
    · rw [groupNames_cons, groupNames_cons]
      simp only [List.mem_append]
      rw [ih]
      tauto

theorem nameOf_concat (l : List Str) (x : Str) (hl : l ≠ []) :
    nameOf (l ++ [x]) = nameOf l ++ S "::" ++ x := by
  induction l with
  | nil => cases hl rfl
  | cons a as ih =>
    cases as with
    | nil =>
      show nameOf (a :: [x]) = nameOf [a] ++ S "::" ++ x
      rw [nameOf_cons2]
      rw [show (S "::" : Str) = [':', ':'] from rfl]
      simp [nameOf, joinSep]
    | cons b bs =>
      rw [show ((a :: b :: bs : List Str) ++ [x]) = a :: b :: (bs ++ [x]) from rfl]
      rw [nameOf_cons2 a b (bs ++ [x])]
      rw [show (b :: (bs ++ [x]) : List Str) = (b :: bs) ++ [x] from rfl]
      rw [ih (by simp)]
      rw [nameOf_cons2 a b bs]
      rw [show (S "::" : Str) = [':', ':'] from rfl]
      simp

theorem dropLast_concat_getLastD :
    ∀ (l : List Str) (d : Str), l ≠ [] → l.dropLast ++ [l.getLastD d] = l := by
  intro l
  induction l with
  | nil => intro d h; cases h rfl
  | cons a as ih =>
    intro d h
    cases as with
    | nil => rfl
    | cons b bs =>
      have h1 : (a :: b :: bs).dropLast = a :: (b :: bs).dropLast := by
        simp [List.dropLast]
      have h2 : (a :: b :: bs).getLastD d = (b :: bs).getLastD a := by
        simp [List.getLastD]
      rw [h1, h2, List.cons_append, ih a (by simp)]

theorem nameOf_split {segs : List Str} (h2 : 2 ≤ segs.length) :
    nameOf segs = nameOf segs.dropLast ++ S "::" ++ segs.getLastD [] := by
  have hne : segs ≠ [] := by
    intro he
    rw [he] at h2
    simp at h2
  have hdne : segs.dropLast ≠ [] := by
    intro he
    have : segs.length - 1 = 0 := by
      rw [← List.length_dropLast, he]
      rfl
    omega
  conv_lhs => rw [← dropLast_concat_getLastD segs [] hne]
  rw [nameOf_concat _ _ hdne]

theorem mem_groupNames_lowFold (y : Str) : ∀ (paths : List (List Str))
    (g : AMap (Str × Bool) (AMap Str (List Str))),
    y ∈ groupNames (paths.foldl
        (fun g segs => gUpd g (nameOf segs.dropLast, false) [] [segs.getLastD []])
        g) ↔
      y ∈ groupNames g ∨
        ∃ segs ∈ paths, y = nameOf segs.dropLast ++ S "::" ++ segs.getLastD [] := by
  intro paths
  induction paths with
  | nil => intro g; simp
  | cons p ps ih =>
    intro g
    rw [List.foldl_cons, ih, mem_groupNames_gUpd]
    simp only [List.mem_cons, List.not_mem_nil, or_false]
    constructor
    · rintro ((h | ⟨x, hx, he⟩) | ⟨segs, hs, he⟩)
      · exact Or.inl h
      · subst hx
        exact Or.inr ⟨p, Or.inl rfl, he⟩
      · exact Or.inr ⟨segs, Or.inr hs, he⟩
    · rintro (h | ⟨segs, hs | hs, he⟩)
      · exact Or.inl (Or.inl h)
      · subst hs
        exact Or.inl (Or.inr ⟨_, rfl, he⟩)
      · exact Or.inr ⟨segs, hs, he⟩

theorem mem_groupNames_lowGroups {paths : List (List Str)}
    (h : ∀ segs ∈ paths, 2 ≤ segs.length) (y : Str) :
    y ∈ groupNames (lowGroups paths) ↔ ∃ segs ∈ paths, y = nameOf segs := by
  unfold lowGroups
  rw [mem_groupNames_lowFold]
  rw [groupNames_nil]
  simp only [List.not_mem_nil, false_or]
  constructor
  · rintro ⟨segs, hs, he⟩
    exact ⟨segs, hs, by rw [nameOf_split (h segs hs)]; exact he⟩
  · rintro ⟨segs, hs, he⟩
    exact ⟨segs, hs, by rw [← nameOf_split (h segs hs)]; exact he⟩

theorem pyStrip_spaces_append {sp : Str} (h : ∀ c ∈ sp, isPySpace c = true)
    (s : Str) : pyStrip (sp ++ s) = pyStrip s := by
  unfold pyStrip
  congr 1
  rw [List.dropWhile_append]
  have hsp : sp.dropWhile isPySpace = [] := by
    rw [List.dropWhile_eq_nil_iff]
    intro x hx
    exact h x hx
  rw [hsp]
  rfl

theorem pyStrip_all_space {sp : Str} (h : ∀ c ∈ sp, isPySpace c = true) :
    pyStrip sp = [] := by
  have h2 := pyStrip_spaces_append h []
  rw [List.append_nil] at h2
  rw [h2]
  rfl

theorem pyStrip_good_head {c : Char} {t : Str} (hc : isPySpace c = false)
    (ht : ∀ d ∈ t, isPySpace d = false) {sp : Str}
    (hsp : ∀ d ∈ sp, isPySpace d = true) :
    pyStrip (sp ++ c :: t) = c :: t := by
  rw [pyStrip_spaces_append hsp]
  refine pyStrip_no_space ?_
  intro d hd
  rcases List.mem_cons.1 hd with hd | hd
  · rw [hd]; exact hc
  · exact ht d hd

theorem strEnds_concat_ne {mid pre : Str} {c d : Char} (h : c ≠ d) :
    strEnds (mid ++ [c]) (pre ++ [d]) = false := by
  unfold strEnds
  rw [List.reverse_append, List.reverse_append]
  show strStarts (c :: mid.reverse) (d :: pre.reverse) = false
  simp only [strStarts, Bool.and_eq_false_iff]
  left
  simpa using h

theorem countCh_append (c : Char) (s t : Str) :
    countCh c (s ++ t) = countCh c s + countCh c t := by
  unfold countCh
  rw [List.filter_append, List.length_append]

theorem countCh_eq_zero {c : Char} {s : Str} (h : c ∉ s) : countCh c s = 0 := by
  unfold countCh
  rw [List.length_eq_zero, List.filter_eq_nil_iff]
  intro a ha
  simp only [beq_iff_eq]
  intro he
  rw [he] at ha
  exact h ha

theorem countCh_single (c : Char) : countCh c [c] = 1 := by
  unfold countCh
  simp

theorem hasCC_no_colon {s : Str} (h : ∀ c ∈ s, c ≠ ':') : hasCC s = false := by
  induction s with
  | nil => rfl
  | cons d rest ih =>
    rw [hasCC.eq_def]
    split
    · rfl
    · rename_i heq
      injection heq with h1 h2
      exact absurd h1 (h d (by simp))
    · rename_i heq
      injection heq with h1 h2
      rw [← h2]
      exact ih (fun c hc => h c (List.mem_cons_of_mem d hc))

theorem idxBrace_append {s : Str} (h : brOpen ∉ s) (t : Str) :
    idxBrace (s ++ brOpen :: t) = s.length := by
  induction s with
  | nil =>
    show idxBrace (brOpen :: t) = 0
    simp [idxBrace]
  | cons c s2 ih =>
    rw [List.cons_append]
    show (if c == brOpen then 0 else 1 + idxBrace (s2 ++ brOpen :: t)) = s2.length + 1
    rw [if_neg (by simp; intro he; exact h (by simp [he]))]
    rw [ih (fun hm => h (by simp [hm]))]
    omega

theorem rstripColon_cc {b : Str} {mid : Str} {c : Char} (hb : b = mid ++ [c])
    (hc : c ≠ ':') : rstripColon (b ++ [':', ':']) = b := by
  unfold rstripColon
  rw [hb]
  rw [List.reverse_append, List.reverse_append]
  show (((':' :: [':']) ++ (c :: mid.reverse)).dropWhile (fun d => d == ':')).reverse
    = _
  rw [List.dropWhile_append]
  have h1 : ([':', ':'] : Str).dropWhile (fun d => d == ':') = [] := rfl
  rw [h1]
  show ((c :: mid.reverse).dropWhile (fun d => d == ':')).reverse = _
  rw [List.dropWhile_cons, if_neg (by simpa using hc)]
  simp

theorem nameOf_ends_good {bsegs : List Str} (hne : bsegs ≠ [])
    (h : ∀ s ∈ bsegs, goodSeg s) :
    ∃ mid c, nameOf bsegs = mid ++ [c] ∧ goodChar c = true := by
  have hlast : bsegs.dropLast ++ [bsegs.getLastD []] = bsegs :=
    dropLast_concat_getLastD bsegs [] hne
  have hlg : goodSeg (bsegs.getLastD []) := by
    refine h _ ?_
    have hm : bsegs.getLastD [] ∈ bsegs.dropLast ++ [bsegs.getLastD []] :=
      List.mem_append_right _ (List.mem_singleton_self _)
    rwa [hlast] at hm
  obtain ⟨hlne, _, hlchars⟩ := hlg
  have hseg : (bsegs.getLastD []).dropLast ++
      [(bsegs.getLastD []).getLast hlne] = bsegs.getLastD [] :=
    List.dropLast_append_getLast hlne
  have hcgood : goodChar ((bsegs.getLastD []).getLast hlne) = true :=
    hlchars _ (List.getLast_mem hlne)
  cases hd : bsegs.dropLast with
  | nil =>
    refine ⟨(bsegs.getLastD []).dropLast, (bsegs.getLastD []).getLast hlne, ?_,
      hcgood⟩
    have hb2 : [bsegs.getLastD []] = bsegs := by
      have h3 := hlast
      rw [hd] at h3
      simpa using h3
    have hb3 : nameOf bsegs = bsegs.getLastD [] := by
      conv_lhs => rw [← hb2]
      rfl
    rw [hb3]
    exact hseg.symm
  | cons q qs =>
    refine ⟨nameOf bsegs.dropLast ++ S "::" ++ (bsegs.getLastD []).dropLast,
      (bsegs.getLastD []).getLast hlne, ?_, hcgood⟩
    conv_lhs => rw [← hlast]
    rw [nameOf_concat _ _ (by rw [hd]; simp)]
    conv_lhs => rw [← hseg]
    simp

theorem sAdd_nodup {s : List Str} (h : s.Nodup) (x : Str) : (sAdd s x).Nodup := by
  unfold sAdd
  split
  · exact h
  · rename_i hc
    rw [List.nodup_append]
    refine ⟨h, List.nodup_singleton x, ?_⟩
    intro a ha hb
    simp only [List.mem_singleton] at hb
    subst hb
    exact absurd (List.elem_iff.2 ha) (by simpa using hc)

theorem sUnion_nodup {xs : List Str} : ∀ {s : List Str}, s.Nodup →
    (sUnion s xs).Nodup := by
  induction xs with
  | nil => intro s h; exact h
  | cons x xs2 ih =>
    intro s h
    show (sUnion (sAdd s x) xs2).Nodup
    exact ih (sAdd_nodup h x)

theorem sAdd_not_mem {s : List Str} {x : Str} (h : x ∉ s) : sAdd s x = s ++ [x] := by
  unfold sAdd
  rw [if_neg (by simpa using h)]

theorem sUnion_disjoint : ∀ {xs s : List Str}, xs.Nodup → (∀ x ∈ xs, x ∉ s) →
    sUnion s xs = s ++ xs := by
  intro xs
  induction xs with
  | nil => intro s _ _; simp [sUnion]
  | cons x xs2 ih =>
    intro s hnd hdis
    show sUnion (sAdd s x) xs2 = _
    rw [sAdd_not_mem (hdis x (by simp))]
    rw [ih (List.Nodup.of_cons hnd) ?_]
    · simp
    · intro y hy
      simp only [List.mem_append, List.mem_singleton]
      rintro (h | h)
      · exact hdis y (by simp [hy]) h
      · subst h
        exact (List.nodup_cons.1 hnd).1 hy

theorem sUnion_nil_nodup {l : List Str} (h : l.Nodup) : sUnion [] l = l := by
  rw [sUnion_disjoint h (by intro x _; simp)]
  rfl

theorem foldl_sAdd_map (f : Str → Str) :
    ∀ (l : List Str) (s : List Str),
      l.foldl (fun fp item => sAdd fp (f item)) s = sUnion s (l.map f) := by
  intro l
  induction l with
  | nil => intro s; rfl
  | cons x xs ih =>
    intro s
    rw [List.foldl_cons, List.map_cons]
    show _ = sUnion (sAdd s (f x)) (xs.map f)
    exact ih (sAdd s (f x))

theorem nodup_map_append_left {b : Str} {l : List Str} (h : l.Nodup) :
    (l.map (fun it => b ++ S "::" ++ it)).Nodup := by
  refine List.Nodup.map ?_ h
  intro x y he
  have h2 : b ++ S "::" ++ x = b ++ S "::" ++ y := he
  rw [List.append_assoc, List.append_assoc] at h2
  have h3 := List.append_cancel_left h2
  exact List.append_cancel_left h3

theorem goodSeg_no_space {it : Str} (h : goodSeg it) :
    ∀ c ∈ it, isPySpace c = false :=
  fun c hc => (goodChar_spec (h.2.2 c hc)).2.2.2.2.2.2

theorem pyStrip_goodSeg {it : Str} (h : goodSeg it) {sp : Str}
    (hsp : ∀ c ∈ sp, isPySpace c = true) : pyStrip (sp ++ it) = it := by
  cases hit : it with
  | nil => exact absurd hit h.1
  | cons c t =>
    refine pyStrip_good_head ?_ ?_ hsp
    · exact goodSeg_no_space h c (by rw [hit]; simp)
    · intro d hd
      exact goodSeg_no_space h d (by rw [hit]; simp [hd])

theorem braceItemsGo_step {acc : List Str} {cur : Str} {hs : Bool} {c : Char}
    {rest : Str} (h1 : (c == brOpen) = false) (h2 : (c == brClose) = false)
    (h3 : (c == ',') = false) :
    braceItemsGo acc cur 0 hs (c :: rest) =
      braceItemsGo acc (cur ++ [c]) 0 hs rest := by
  show (if c == brOpen then _ else _) = _
  rw [if_neg (by simp [h1]), if_neg (by simp [h2]), if_neg (by simp [h3])]

theorem braceItemsGo_push {s : Str} (hg : ∀ c ∈ s, goodChar c = true) :
    ∀ {acc : List Str} {cur : Str} {hs : Bool} {rest : Str},
      braceItemsGo acc cur 0 hs (s ++ rest) =
        braceItemsGo acc (cur ++ s) 0 hs rest := by
  induction s with
  | nil => intro acc cur hs rest; simp
  | cons c s2 ih =>
    intro acc cur hs rest
    rw [List.cons_append]
    have hc := goodChar_spec (hg c (by simp))
    rw [braceItemsGo_step (by simpa using hc.1) (by simpa using hc.2.1)
      (by simpa using hc.2.2.1)]
    rw [ih (fun d hd => hg d (by simp [hd]))]
    simp

theorem braceItemsGo_space {acc : List Str} {cur : Str} {hs : Bool} {rest : Str} :
    braceItemsGo acc cur 0 hs (' ' :: rest) =
      braceItemsGo acc (cur ++ [' ']) 0 hs rest :=
  braceItemsGo_step (by decide) (by decide) (by decide)

theorem braceItemsGo_comma_item {acc : List Str} {cur : Str} {hs : Bool}
    {rest : Str} {it : Str} (hcur : pyStrip cur = it) (hne : it ≠ [])
    (hself : it ≠ S "self") :
    braceItemsGo acc cur 0 hs (',' :: rest) =
      braceItemsGo (acc ++ [it]) [] 0 hs rest := by
  show (if (',' == brOpen) then _ else _) = _
  rw [if_neg (by decide), if_neg (by decide),
    if_pos (by decide : ((',' == ',') && ((0 : Int) == 0)) = true)]
  simp only [hcur]
  rw [if_neg hne, if_neg hself]

theorem braceItemsGo_end {acc : List Str} {cur : Str} {hs : Bool} {it : Str}
    (hcur : pyStrip cur = it) (hne : it ≠ []) (hself : it ≠ S "self") :
    braceItemsGo acc cur 0 hs [] = (acc ++ [it], hs) := by
  show (if pyStrip cur = [] then _ else _) = _
  rw [hcur, if_neg hne, if_neg hself]

theorem braceItemsGo_end_space {acc : List Str} {cur : Str} {hs : Bool}
    (hcur : pyStrip cur = []) : braceItemsGo acc cur 0 hs [] = (acc, hs) := by
  show (if pyStrip cur = [] then _ else _) = _
  rw [if_pos hcur]

theorem braceItemsGo_joinSep :
    ∀ (l : List Str), l ≠ [] → (∀ it ∈ l, goodSeg it) →
    ∀ (acc : List Str) (sp : Str), (∀ c ∈ sp, isPySpace c = true) →
      braceItemsGo acc sp 0 false (joinSep (S ", ") l) = (acc ++ l, false) := by
  intro l
  induction l with
  | nil => intro h; cases h rfl
  | cons x xs ih =>
    intro _ hg acc sp hsp
    cases xs with
    | nil =>
      show braceItemsGo acc sp 0 false x = _
      have h0 : braceItemsGo acc sp 0 false (x ++ []) =
          braceItemsGo acc (sp ++ x) 0 false [] :=
        braceItemsGo_push (hg x (by simp)).2.2
      rw [List.append_nil] at h0
      rw [h0]
      exact braceItemsGo_end (pyStrip_goodSeg (hg x (by simp)) hsp)
        (hg x (by simp)).1 (hg x (by simp)).2.1
    | cons y ys =>
      have hj : joinSep (S ", ") (x :: y :: ys) =
          x ++ (',' :: ' ' :: joinSep (S ", ") (y :: ys)) := by
        show x ++ S ", " ++ _ = _
        rw [show (S ", " : Str) = [',', ' '] from rfl]
        simp
      rw [hj, braceItemsGo_push (hg x (by simp)).2.2]
      rw [braceItemsGo_comma_item (pyStrip_goodSeg (hg x (by simp)) hsp)
        (hg x (by simp)).1 (hg x (by simp)).2.1]
      rw [braceItemsGo_space]
      simp only [List.nil_append]
      rw [ih (by simp) (fun s hs => hg s (by simp [hs])) (acc ++ [x]) [' ']
        (by intro c hc; simp at hc; rw [hc]; rfl)]
      simp

theorem braceItemsGo_flatten :
    ∀ (l : List Str), (∀ it ∈ l, goodSeg it) →
    ∀ (acc : List Str) (sp : Str), (∀ c ∈ sp, isPySpace c = true) →
      braceItemsGo acc sp 0 false
        ((l.map (fun it => ' ' :: (it ++ [',']))).flatten ++ [' ']) =
        (acc ++ l, false) := by
  intro l
  induction l with
  | nil =>
    intro _ acc sp hsp
    show braceItemsGo acc sp 0 false [' '] = _
    rw [braceItemsGo_space]
    rw [braceItemsGo_end_space (pyStrip_all_space ?_)]
    · simp
    · intro c hc
      rcases List.mem_append.1 hc with hc | hc
      · exact hsp c hc
      · simp at hc
        rw [hc]
        rfl
  | cons it its ih =>
    intro hg acc sp hsp
    rw [List.map_cons, List.flatten_cons]
    rw [show ((' ' :: (it ++ [','])) ++
        ((its.map (fun it => ' ' :: (it ++ [',']))).flatten) ++ [' '] : Str) =
      ' ' :: (it ++ ',' ::
        ((its.map (fun it => ' ' :: (it ++ [',']))).flatten ++ [' '])) by simp]
    rw [braceItemsGo_space]
    rw [braceItemsGo_push (hg it (by simp)).2.2]
    have hsp2 : ∀ c ∈ sp ++ [' '], isPySpace c = true := by
      intro c hc
      rcases List.mem_append.1 hc with hc | hc
      · exact hsp c hc
      · simp at hc
        rw [hc]
        rfl
    rw [braceItemsGo_comma_item (pyStrip_goodSeg (hg it (by simp)) hsp2)
      (hg it (by simp)).1 (hg it (by simp)).2.1]
    rw [ih (fun s hs => hg s (by simp [hs])) (acc ++ [it]) [] (by simp)]
    simp

theorem parse_nested_joinSep {l : List Str} (hne : l ≠ [])
    (hg : ∀ it ∈ l, goodSeg it) (hnd : l.Nodup) :
    parse_nested_import_items (joinSep (S ", ") l) = l := by
  unfold parse_nested_import_items _parse_brace_aware_items
  rw [braceItemsGo_joinSep l hne hg [] [] (by simp)]
  simp only [List.nil_append]
  rw [if_neg (by simp)]
  exact sUnion_nil_nodup hnd

theorem parse_nested_flatten {l : List Str} (hg : ∀ it ∈ l, goodSeg it)
    (hnd : l.Nodup) :
    parse_nested_import_items
      ((l.map (fun it => ' ' :: (it ++ [',']))).flatten ++ [' ']) = l := by
  unfold parse_nested_import_items _parse_brace_aware_items
  rw [braceItemsGo_flatten l hg [] [] (by simp)]
  simp only [List.nil_append]
  rw [if_neg (by simp)]
  exact sUnion_nil_nodup hnd

theorem hasCh_false {c : Char} {s : Str} (h : c ∉ s) : hasCh c s = false := by
  cases hx : hasCh c s
  · rfl
  · exact absurd (hasCh_iff.1 hx) h

theorem goodSeg_not_mem {it : Str} (h : goodSeg it) {c : Char}
    (hc : goodChar c = false) : c ∉ it := by
  intro hm
  have := h.2.2 c hm
  rw [this] at hc
  cases hc

theorem handleItem_plain {it : Str} (hg : goodSeg it) (pre : Str)
    (m : AMap Str (List Str)) (fuel : Nat) :
    handleItem (fuel + 1) pre it m = .ok (mUpd m pre [it]) := by
  simp only [handleItem]
  have hps : pyStrip it = it := pyStrip_no_space (goodSeg_no_space hg)
  rw [if_neg (by
    rw [hps]
    simp [hasCh_false (goodSeg_not_mem hg (c := brOpen) (by decide))])]
  rw [if_neg (by rw [hps]; simp [hasCC_no_colon (goodSeg_no_colon hg)])]
  rw [hps]

theorem foldlM_handleItem {b : Str} :
    ∀ (l : List Str), (∀ it ∈ l, goodSeg it) → ∀ (s : List Str),
      List.foldlM (fun m it => handleItem (it.length + 1) b it m)
          ([(b, s)] : AMap Str (List Str)) l = .ok [(b, sUnion s l)] := by
  intro l
  induction l with
  | nil => intro _ s; rfl
  | cons x xs ih =>
    intro hg s
    rw [List.foldlM_cons, handleItem_plain (hg x (by simp))]
    simp only [bind, Except.bind]
    rw [show mUpd [(b, s)] b [x] = [(b, sUnion s [x])] by
      unfold mUpd; rw [if_pos (by simp)]]
    rw [ih (fun y hy => hg y (by simp [hy]))]
    rfl

theorem foldlM_handleItem_nil {b : Str} {l : List Str} (hne : l ≠ [])
    (hg : ∀ it ∈ l, goodSeg it) (hnd : l.Nodup) :
    List.foldlM (fun m it => handleItem (it.length + 1) b it m)
        ([] : AMap Str (List Str)) l = .ok [(b, l)] := by
  cases l with
  | nil => cases hne rfl
  | cons x xs =>
    rw [List.foldlM_cons, handleItem_plain (hg x (by simp))]
    simp only [bind, Except.bind]
    rw [show mUpd [] b [x] = [(b, [x])] from rfl]
    rw [foldlM_handleItem xs (fun y hy => hg y (by simp [hy])) [x]]
    rw [sUnion_disjoint (List.Nodup.of_cons hnd) ?_]
    · rfl
    · intro y hy
      simp only [List.mem_singleton]
      intro he
      subst he
      exact (List.nodup_cons.1 hnd).1 hy

theorem process_braces {b mid : Str} {c : Char} (hb : b = mid ++ [c])
    (hc : c ≠ ':') (hbnb : brOpen ∉ b) {inner : Str} {l : List Str}
    (hpn : parse_nested_import_items inner = l) (hne : l ≠ [])
    (hg : ∀ it ∈ l, goodSeg it) (hnd : l.Nodup) :
    process_import_with_braces ((b ++ S "::") ++ brOpen :: (inner ++ [brClose])) =
      .ok [(b, l)] := by
  unfold process_import_with_braces
  dsimp only
  have hk : idxBrace ((b ++ S "::") ++ brOpen :: (inner ++ [brClose])) =
      (b ++ S "::").length := by
    refine idxBrace_append ?_ _
    intro hm
    rcases List.mem_append.1 hm with hm | hm
    · exact hbnb hm
    · rw [show (S "::" : Str) = [':', ':'] from rfl] at hm
      simp only [List.mem_cons, List.not_mem_nil, or_false] at hm
      rcases hm with hm | hm <;> exact absurd hm (by decide)
  rw [hk]
  rw [List.take_left]
  rw [show rstripColon (b ++ S "::") = b by
    rw [show (b ++ S "::" : Str) = b ++ [':', ':'] from rfl]
    exact rstripColon_cc hb hc]
  have hslice : sliceInner ((b ++ S "::") ++ brOpen :: (inner ++ [brClose]))
      (b ++ S "::").length = inner := by
    unfold sliceInner
    rw [show ((b ++ S "::") ++ brOpen :: (inner ++ [brClose]) : Str) =
      ((b ++ S "::") ++ [brOpen]) ++ (inner ++ [brClose]) by simp]
    rw [show (b ++ S "::").length + 1 = ((b ++ S "::") ++ [brOpen]).length by
      simp [Nat.add_assoc]]
    rw [List.drop_left]
    rw [List.dropLast_concat]
  rw [hslice, hpn]
  exact foldlM_handleItem_nil hne hg hnd

theorem nameOf_head_good {bsegs : List Str} (hne : bsegs ≠ [])
    (h : ∀ s ∈ bsegs, goodSeg s) :
    ∃ c t, nameOf bsegs = c :: t ∧ goodChar c = true := by
  cases bsegs with
  | nil => cases hne rfl
  | cons s rest =>
    have hs := h s (by simp)
    cases s with
    | nil => exact absurd rfl hs.1
    | cons c s2 =>
      cases rest with
      | nil =>
        exact ⟨c, s2, rfl, hs.2.2 c (by simp)⟩
      | cons r rs =>
        refine ⟨c, s2 ++ ':' :: ':' :: nameOf (r :: rs), ?_, hs.2.2 c (by simp)⟩
        rw [nameOf_cons2]
        simp

theorem strStarts_u_pub (t : Str) : strStarts ('u' :: t) (S "pub use ") = false := by
  rw [show (S "pub use " : Str) = 'p' :: S "ub use " from rfl]
  show (('u' == 'p') && _) = false
  rw [show ('u' == 'p') = false from rfl]
  simp

theorem fold_names_no_self {b : Str} :
    ∀ (l : List Str), (∀ it ∈ l, goodSeg it) → ∀ (fp : List Str),
      l.foldl (fun fp item => if item == S "self" then sAdd fp b
        else sAdd fp (b ++ S "::" ++ item)) fp =
      sUnion fp (l.map (fun it => b ++ S "::" ++ it)) := by
  intro l
  induction l with
  | nil => intro _ fp; rfl
  | cons x xs ih =>
    intro hg fp
    rw [List.foldl_cons]
    rw [if_neg (by simpa using (hg x (by simp)).2.1)]
    rw [ih (fun y hy => hg y (by simp [hy]))]
    rfl

theorem canonicalize_braced {bsegs : List Str} (hbne : bsegs ≠ [])
    (hbg : ∀ s ∈ bsegs, goodSeg s) {inner : Str} {l : List Str}
    (hpn : parse_nested_import_items inner = l) (hlne : l ≠ [])
    (hg : ∀ it ∈ l, goodSeg it) (hnd : l.Nodup) :
    _canonicalize_import none
        (S "use " ++ (nameOf bsegs ++ S "::" ++ brOpen :: (inner ++ [brClose]))
          ++ S ";") =
      .ok ([], false,
        sortStr (l.map (fun it => nameOf bsegs ++ S "::" ++ it))) := by
  obtain ⟨c0, t0, hhead, hc0⟩ := nameOf_head_good hbne hbg
  obtain ⟨midb, cb, hbend, hcb⟩ := nameOf_ends_good hbne hbg
  have hstmt : (S "use " ++ (nameOf bsegs ++ S "::" ++ brOpen ::
      (inner ++ [brClose])) ++ S ";" : Str) =
      'u' :: (S "se " ++ (nameOf bsegs ++ S "::" ++ brOpen ::
        (inner ++ [brClose])) ++ S ";") := by
    rw [show (S "use " : Str) = 'u' :: S "se " from rfl]
    simp
  unfold _canonicalize_import
  rw [hstmt, strStarts_u_pub]
  simp only [Option.getD_none, List.filter_nil, Bool.false_eq_true, if_false]
  rw [← hstmt]
  have hdrop : ((S "use " ++ (nameOf bsegs ++ S "::" ++ brOpen ::
      (inner ++ [brClose])) ++ S ";" : Str).drop 4).dropLast =
      nameOf bsegs ++ S "::" ++ brOpen :: (inner ++ [brClose]) := by
    rw [show (S "use " ++ (nameOf bsegs ++ S "::" ++ brOpen ::
      (inner ++ [brClose])) ++ S ";" : Str) = S "use " ++
      ((nameOf bsegs ++ S "::" ++ brOpen :: (inner ++ [brClose])) ++ S ";") by
        simp]
    rw [show (4 : Nat) = (S "use ").length from rfl]
    rw [List.drop_left]
    rw [show (S ";" : Str) = [';'] from rfl]
    rw [List.dropLast_concat]
  rw [hdrop]
  have hpath : (nameOf bsegs ++ S "::" ++ brOpen :: (inner ++ [brClose]) : Str) =
      c0 :: ((t0 ++ S "::" ++ brOpen :: inner) ++ [brClose]) := by
    rw [hhead]
    simp
  rw [show pyStrip (nameOf bsegs ++ S "::" ++ brOpen :: (inner ++ [brClose])) =
      nameOf bsegs ++ S "::" ++ brOpen :: (inner ++ [brClose]) by
    rw [hpath]
    exact pyStrip_sandwich _ (by rw [(goodChar_spec hc0).2.2.2.2.2.2]) (by rfl)]
  rw [show strEnds (nameOf bsegs ++ S "::" ++ brOpen :: (inner ++ [brClose]))
      (S "::*") = false by
    rw [hpath, show (S "::*" : Str) = [':', ':'] ++ ['*'] from rfl]
    rw [show (c0 :: ((t0 ++ S "::" ++ brOpen :: inner) ++ [brClose]) : Str) =
      (c0 :: (t0 ++ S "::" ++ brOpen :: inner)) ++ [brClose] by simp]
    exact strEnds_concat_ne (by decide)]
  rw [if_neg (by simp)]
  rw [if_pos (by
    refine hasCh_iff.2 ?_
    simp)]
  have hregroup : (nameOf bsegs ++ S "::" ++ brOpen ::
      (inner ++ [brClose]) : Str) =
      (nameOf bsegs ++ S "::") ++ brOpen :: (inner ++ [brClose]) := by simp
  rw [hregroup]
  rw [process_braces hbend (by exact (goodChar_spec hcb).2.2.2.1)
    (by
      intro hm
      exact nameOf_not_mem hbg (by decide) (by decide) hm)
    hpn hlne hg hnd]
  simp only [bind, Except.bind]
  rw [show ([(nameOf bsegs, l)] : AMap Str (List Str)).foldl
      (fun fp bpItems => bpItems.2.foldl (fun fp item =>
        if item == S "self" then sAdd fp bpItems.1
        else sAdd fp (bpItems.1 ++ S "::" ++ item)) fp) [] =
      l.foldl (fun fp item => if item == S "self" then sAdd fp (nameOf bsegs)
        else sAdd fp (nameOf bsegs ++ S "::" ++ item)) [] from rfl]
  rw [fold_names_no_self l hg []]
  rw [sUnion_nil_nodup (nodup_map_append_left hnd)]

theorem organize_plain_fold :
    ∀ (items : List Str), (∀ it ∈ items, goodSeg it) →
    ∀ (m : AMap Str (List Str)) (flat : List Str),
      items.foldl
        (fun acc item =>
          if hasCC item || hasCh brOpen item then
            if hasCh brOpen item then
              let module_name := rstripColon (pyStrip (item.take (idxBrace item)))
              if module_name == S "self" then (acc.1, acc.2 ++ [S "self"])
              else
                let start_idx := idxBrace item + 1
                let end_idx := findClose start_idx 0 (item.drop start_idx)
                if end_idx == 0 then (acc.1, acc.2 ++ [item])
                else
                  let nested_content :=
                    pyStrip ((item.drop start_idx).take (end_idx - start_idx))
                  let ni := process_nested_module_items nested_content
                  let mg := mUpd acc.1 module_name ni.1
                  (if ni.2 then mUpd mg module_name [S "self"] else mg, acc.2)
            else
              let parts := splitCC item
              if parts.length ≥ 2 then
                match parts with
                | [] => (acc.1, acc.2 ++ [item])
                | p :: ps => (mUpd acc.1 p [joinSep (S "::") ps], acc.2)
              else (acc.1, acc.2 ++ [item])
          else (acc.1, acc.2 ++ [item]))
        (m, flat) = (m, flat ++ items) := by
  intro items
  induction items with
  | nil => intro _ m flat; simp
  | cons it its ih =>
    intro hg m flat
    rw [List.foldl_cons]
    rw [if_neg (by
      simp [hasCC_no_colon (goodSeg_no_colon (hg it (by simp))),
        hasCh_false (goodSeg_not_mem (hg it (by simp)) (c := brOpen) (by decide))])]
    rw [ih (fun y hy => hg y (by simp [hy])) m (flat ++ [it])]
    simp

theorem organize_plain {items : List Str} (hg : ∀ it ∈ items, goodSeg it) :
    organize_items_by_module items = ([], items) := by
  unfold organize_items_by_module
  have h0 := organize_plain_fold items hg [] []
  rw [h0]
  rfl

theorem sortedSelfLast_no_self {items : List Str}
    (h : ∀ it ∈ items, it ≠ S "self") : sortedSelfLast items = sortStr items := by
  unfold sortedSelfLast
  rw [List.filter_eq_self.2 (by
    intro a ha
    simpa using h a ha)]
  rw [if_neg (by
    intro hc
    exact h _ (List.elem_iff.1 hc) rfl)]
  simp

theorem genStmtLines_plain {items : List Str} (hg : ∀ it ∈ items, goodSeg it)
    (base : Str) :
    genStmtLines false base [] items = lowBlock base items := by
  unfold genStmtLines lowBlock
  rw [organize_plain hg]
  simp only []
  rw [sortedSelfLast_no_self (fun it hit => (hg it hit).2.1)]
  rw [show format_module_groups [] = [] from rfl]
  rw [List.append_nil]
  rw [if_neg (by simp)]
  simp only [List.nil_append]
  cases hsi : sortStr items with
  | nil => rfl
  | cons x xs =>
    cases xs with
    | nil => rfl
    | cons y ys =>
      simp only []
      have hany : (x :: y :: ys).any (fun it => hasCh brOpen it) = false := by
        rw [List.any_eq_false]
        intro it hit
        have hmem : it ∈ sortStr items := by rw [hsi]; exact hit
        simp [hasCh_false (goodSeg_not_mem (hg it ((sortStr_mem it items).1 hmem))
          (c := brOpen) (by decide))]
      rw [hany]
      simp only [Bool.false_or]
      by_cases hlen : (x :: y :: ys).length > 2
      · rw [if_pos (by simpa using hlen), if_pos hlen]
        rfl
      · rw [if_neg (by simpa using hlen), if_neg hlen]
        rfl

theorem gUpd_groupsOf (b it : Str) :
    ∀ (gs : List (Str × List Str)),
      gUpd (groupsOf gs) (b, false) [] [it] = groupsOf (updPair gs b it) := by
  intro gs
  induction gs with
  | nil => rfl
  | cons p gs2 ih =>
    show gUpd (((p.1, false), [([], p.2)]) :: groupsOf gs2) (b, false) [] [it] = _
    rw [gUpd.eq_def]
    simp only []
    by_cases hpb : p.1 = b
    · rw [if_pos (by simp [hpb])]
      rw [show updPair (p :: gs2) b it = (p.1, sAdd p.2 it) :: gs2 by
        rw [updPair.eq_def]
        simp [hpb]]
      show _ = ((p.1, false), [([], sAdd p.2 it)]) :: groupsOf gs2
      rw [show mUpd [([], p.2)] [] [it] = [([], sAdd p.2 it)] by
        unfold mUpd
        rw [if_pos (by simp)]
        rfl]
    · rw [if_neg (by simp [hpb])]
      rw [show updPair (p :: gs2) b it = p :: updPair gs2 b it by
        rw [updPair.eq_def]
        simp [hpb]]
      rw [show groupsOf (p :: updPair gs2 b it) =
        ((p.1, false), [([], p.2)]) :: groupsOf (updPair gs2 b it) from rfl]
      rw [← ih]

theorem lowGroups_eq_groupsOf (paths : List (List Str)) :
    lowGroups paths = groupsOf (lowPairs paths) := by
  unfold lowGroups lowPairs
  have hgen : ∀ (ps : List (List Str)) (gs : List (Str × List Str)),
      ps.foldl
        (fun g segs => gUpd g (nameOf segs.dropLast, false) [] [segs.getLastD []])
        (groupsOf gs) =
      groupsOf (ps.foldl
        (fun gs segs => updPair gs (nameOf segs.dropLast) (segs.getLastD [])) gs) := by
    intro ps
    induction ps with
    | nil => intro gs; rfl
    | cons p ps2 ih =>
      intro gs
      rw [List.foldl_cons, List.foldl_cons]
      rw [gUpd_groupsOf]
      exact ih _
  exact hgen paths []

theorem orderedInsert_map {α β : Type} (f : α → β) (r : β → β → Prop)
    [DecidableRel r] (q : α → α → Prop) [DecidableRel q]
    (hrr : ∀ a b, r (f a) (f b) ↔ q a b) (a : α) :
    ∀ (l : List α),
      (l.map f).orderedInsert r (f a) = (l.orderedInsert q a).map f := by
  intro l
  induction l with
  | nil => rfl
  | cons x xs ih =>
    show List.orderedInsert r (f a) (f x :: xs.map f) = _
    rw [List.orderedInsert, List.orderedInsert]
    by_cases hq : q a x
    · rw [if_pos ((hrr a x).2 hq), if_pos hq]
      rfl
    · rw [if_neg (fun hr => hq ((hrr a x).1 hr)), if_neg hq]
      rw [List.map_cons, ih]

theorem insertionSort_map {α β : Type} (f : α → β) (r : β → β → Prop)
    [DecidableRel r] (q : α → α → Prop) [DecidableRel q]
    (hrr : ∀ a b, r (f a) (f b) ↔ q a b) :
    ∀ (l : List α),
      (l.map f).insertionSort r = (l.insertionSort q).map f := by
  intro l
  induction l with
  | nil => rfl
  | cons x xs ih =>
    show List.orderedInsert r (f x) ((xs.map f).insertionSort r) = _
    rw [ih]
    exact orderedInsert_map f r q hrr x _

theorem sortGroupPairs_groupsOf (gs : List (Str × List Str)) :
    sortGroupPairs (groupsOf gs) = groupsOf (gs.insertionSort pairLe) := by
  unfold sortGroupPairs groupsOf
  exact insertionSort_map
    (fun p : Str × List Str => ((p.1, false), ([([], p.2)] : AMap Str (List Str))))
    (fun a b => leKey a.1 b.1) pairLe (fun a b => Iff.rfl) gs

theorem foldl_append_flatMap {α : Type} (f : α → List Str) :
    ∀ (l : List α) (acc : List Str),
      l.foldl (fun r x => r ++ f x) acc = acc ++ l.flatMap f := by
  intro l
  induction l with
  | nil => intro acc; simp
  | cons x xs ih =>
    intro acc
    rw [List.foldl_cons, ih, List.flatMap_cons]
    simp

theorem sortAttrPairs_singleton (x : Str × List Str) :
    sortAttrPairs [x] = [x] := by
  unfold sortAttrPairs
  rfl

theorem generate_groupsOf (gs : List (Str × List Str)) :
    generate_import_statements (groupsOf gs) [] =
      (gs.insertionSort pairLe).flatMap
        (fun p => genStmtLines false p.1 [] p.2) := by
  unfold generate_import_statements
  rw [show (([] : List UseStmt).foldl
      (fun r st => r ++ (match st.1 with | some c => [c] | none => []) ++ [st.2.1])
      [] : List Str) = [] from rfl]
  rw [sortGroupPairs_groupsOf]
  have hfold : ∀ (ps : List (Str × List Str)) (acc : List Str),
      (groupsOf ps).foldl
        (fun r kv =>
          (sortAttrPairs kv.2).foldl
            (fun r av => r ++ genStmtLines kv.1.2 kv.1.1 av.1 av.2) r)
        acc =
      acc ++ ps.flatMap (fun p => genStmtLines false p.1 [] p.2) := by
    intro ps
    induction ps with
    | nil => intro acc; simp [groupsOf]
    | cons p ps2 ih =>
      intro acc
      show List.foldl _ _ (((p.1, false), [([], p.2)]) :: groupsOf ps2) = _
      rw [List.foldl_cons]
      rw [show (sortAttrPairs [([], p.2)]).foldl
          (fun r av => r ++ genStmtLines false p.1 av.1 av.2) acc =
          acc ++ genStmtLines false p.1 [] p.2 by
        rw [sortAttrPairs_singleton]
        rfl]
      rw [ih]
      rw [List.flatMap_cons]
      simp
  exact hfold _ []

theorem sAdd_ne_nil {s : List Str} (h : s ≠ []) (x : Str) : sAdd s x ≠ [] := by
  unfold sAdd
  split
  · exact h
  · simp

theorem updPair_keys :
    ∀ (gs : List (Str × List Str)) (b it : Str),
      (updPair gs b it).map Prod.fst =
        gs.map Prod.fst ++
          (if gs.any (fun p => p.1 == b) then [] else [b]) := by
  intro gs
  induction gs with
  | nil => intro b it; rfl
  | cons p rest ih =>
    intro b it
    rw [updPair.eq_def]
    simp only []
    by_cases hpb : p.1 = b
    · rw [if_pos (by simp [hpb])]
      rw [show ((p :: rest).any (fun p => p.1 == b)) = true by simp [hpb]]
      simp
    · rw [if_neg (by simp [hpb])]
      rw [List.map_cons, ih]
      rw [show ((p :: rest).any (fun p => p.1 == b)) =
        (rest.any (fun p => p.1 == b)) by simp [hpb]]
      simp

theorem updPair_good {gs : List (Str × List Str)} (h : goodPairs gs) {b it : Str}
    (hb : goodBase b) (hit : goodSeg it) : goodPairs (updPair gs b it) := by
  induction gs with
  | nil =>
    refine ⟨by simp [updPair], ?_⟩
    intro p hp
    simp only [updPair, List.mem_singleton] at hp
    subst hp
    exact ⟨hb, by simp, List.nodup_singleton it, by
      intro y hy
      simp only [List.mem_singleton] at hy
      rw [hy]
      exact hit⟩
  | cons q rest ih =>
    obtain ⟨hnd, hmem⟩ := h
    rw [updPair.eq_def]
    simp only []
    by_cases hqb : q.1 = b
    · rw [if_pos (by simp [hqb])]
      refine ⟨by simpa using hnd, ?_⟩
      intro p hp
      rcases List.mem_cons.1 hp with hp | hp
      · subst hp
        obtain ⟨hgb, hne, hnd2, hg⟩ := hmem _ (List.mem_cons_self _ _)
        refine ⟨hgb, sAdd_ne_nil hne it, sAdd_nodup hnd2 it, ?_⟩
        intro y hy
        rcases mem_sAdd.1 hy with hy | hy
        · exact hg y hy
        · rw [hy]; exact hit
      · exact hmem p (by simp [hp])
    · rw [if_neg (by simp [hqb])]
      have hrest : goodPairs rest :=
        ⟨(List.nodup_cons.1 hnd).2, fun p hp => hmem p (by simp [hp])⟩
      obtain ⟨hnd3, hmem3⟩ := ih hrest
      refine ⟨?_, ?_⟩
      · rw [List.map_cons, List.nodup_cons]
        refine ⟨?_, hnd3⟩
        rw [updPair_keys]
        intro hk
        rcases List.mem_append.1 hk with hk | hk
        · exact (List.nodup_cons.1 hnd).1 hk
        · split at hk
          · simp at hk
          · simp only [List.mem_singleton] at hk
            exact hqb hk
      · intro r hr
        rcases List.mem_cons.1 hr with hr | hr
        · subst hr
          exact hmem _ (List.mem_cons_self _ _)
        · exact hmem3 r hr

theorem lowPairs_good {paths : List (List Str)}
    (h : ∀ p ∈ paths, goodPath p) : goodPairs (lowPairs paths) := by
  unfold lowPairs
  have hgen : ∀ (ps : List (List Str)), (∀ p ∈ ps, goodPath p) →
      ∀ (gs : List (Str × List Str)), goodPairs gs →
      goodPairs (ps.foldl
        (fun gs segs => updPair gs (nameOf segs.dropLast) (segs.getLastD [])) gs) := by
    intro ps
    induction ps with
    | nil => intro _ gs hgs; exact hgs
    | cons p ps2 ih =>
      intro hps gs hgs
      rw [List.foldl_cons]
      refine ih (fun q hq => hps q (by simp [hq])) _ ?_
      have hp := hps p (by simp)
      refine updPair_good hgs ⟨p.dropLast, ?_, ?_, rfl⟩ ?_
      · intro he
        have h2 := hp.1
        have h3 : p.length - 1 = 0 := by
          rw [← List.length_dropLast, he]
          rfl
        omega
      · intro s hs
        exact hp.2 s (List.dropLast_subset p hs)
      · refine hp.2 _ ?_
        have hm : p.getLastD [] ∈ p.dropLast ++ [p.getLastD []] :=
          List.mem_append_right _ (List.mem_singleton_self _)
        rwa [dropLast_concat_getLastD p [] (by
          intro he
          have h2 := hp.1
          rw [he] at h2
          simp at h2)] at hm
  exact hgen paths h [] ⟨List.nodup_nil, by simp⟩

theorem groupNames_groupsOf :
    ∀ (gs : List (Str × List Str)),
      groupNames (groupsOf gs) =
        gs.flatMap (fun p => p.2.map (fun it => p.1 ++ S "::" ++ it)) := by
  intro gs
  induction gs with
  | nil => rfl
  | cons p rest ih =>
    show groupNames (((p.1, false), [([], p.2)]) :: groupsOf rest) = _
    rw [groupNames_cons, List.flatMap_cons, ih]
    rw [show attrNames p.1 [([], p.2)] =
      p.2.map (fun it => p.1 ++ S "::" ++ it) by
        rw [attrNames_cons, attrNames_nil]
        simp]

theorem pyStrip_item_line {it : Str} (hg : goodSeg it) :
    pyStrip (S "    " ++ it ++ S ",") = it ++ [','] := by
  cases hit : it with
  | nil => exact absurd hit hg.1
  | cons c t =>
    rw [show (S "    " ++ (c :: t) ++ S "," : Str) =
      S "    " ++ (c :: (t ++ [','])) by
        rw [show (S "," : Str) = [','] from rfl]
        simp]
    refine pyStrip_good_head ?_ ?_ (by decide)
    · exact goodSeg_no_space hg c (by rw [hit]; simp)
    · intro d hd
      rcases List.mem_append.1 hd with hd | hd
      · exact goodSeg_no_space hg d (by rw [hit]; simp [hd])
      · simp only [List.mem_singleton] at hd
        rw [hd]
        rfl

theorem multiScan_low :
    ∀ (its : List Str) (full : Str) (rest : List Str),
      (∀ it ∈ its, goodSeg it) →
      multiScan 1 full
          ((its.map (fun it => S "    " ++ it ++ S ",")) ++ (S "\x7d;") :: rest) =
        (0, full ++ (its.map (fun it => ' ' :: (it ++ [',']))).flatten ++
          [' ', brClose, ';'], its.length + 1) := by
  intro its
  induction its with
  | nil =>
    intro full rest _
    show multiScan 1 full (S "\x7d;" :: rest) = _
    simp only [multiScan]
    rw [if_pos (by norm_num)]
    rw [show pyStrip (S "\x7d;") = S "\x7d;" from rfl]
    rw [show (1 : Int) + ↑(countCh brOpen (S "\x7d;")) -
        ↑(countCh brClose (S "\x7d;")) = 0 by
      rw [show countCh brOpen (S "\x7d;") = 0 from rfl,
        show countCh brClose (S "\x7d;") = 1 from rfl]
      norm_num]
    rw [if_pos (by
      rw [Bool.and_eq_true]
      refine ⟨by norm_num, ?_⟩
      rw [show (full ++ [' '] ++ S "\x7d;" : Str) =
        (full ++ [' ', brClose]) ++ S ";" by
        rw [show (S "\x7d;" : Str) = [brClose, ';'] from rfl,
          show (S ";" : Str) = [';'] from rfl]
        simp]
      exact strEnds_append _ _)]
    rw [show (S "\x7d;" : Str) = [brClose, ';'] from rfl]
    simp
  | cons it its2 ih =>
    intro full rest hg
    rw [List.map_cons, List.cons_append]
    show multiScan 1 full _ = _
    simp only [multiScan]
    rw [if_pos (by norm_num)]
    rw [pyStrip_item_line (hg it (by simp))]
    rw [show (1 : Int) + ↑(countCh brOpen (it ++ [','])) -
        ↑(countCh brClose (it ++ [','])) = 1 by
      rw [countCh_eq_zero (by
        intro hm
        rcases List.mem_append.1 hm with hm | hm
        · exact goodSeg_not_mem (hg it (by simp)) (c := brOpen) (by decide) hm
        · simp only [List.mem_singleton] at hm
          exact absurd hm (by decide))]
      rw [countCh_eq_zero (by
        intro hm
        rcases List.mem_append.1 hm with hm | hm
        · exact goodSeg_not_mem (hg it (by simp)) (c := brClose) (by decide) hm
        · simp only [List.mem_singleton] at hm
          exact absurd hm (by decide))]
      norm_num]
    rw [if_neg (by
      intro hand
      rw [show ((1 : Int) == 0) = false by decide] at hand
      simp at hand)]
    rw [ih (full ++ [' '] ++ (it ++ [','])) rest
      (fun y hy => hg y (by simp [hy]))]
    simp only [List.map_cons, List.flatten_cons]
    simp

theorem strStarts_u_cfg (t : Str) : strStarts ('u' :: t) (S "#[cfg") = false := by
  rw [show (S "#[cfg" : Str) = '#' :: S "[cfg" from rfl]
  show (('u' == '#') && _) = false
  rw [show ('u' == '#') = false from rfl]
  simp

theorem use_semi_shape (X : Str) :
    (S "use " ++ X ++ S ";" : Str) = 'u' :: ((S "se " ++ X) ++ [';']) := by
  rw [show (S "use " : Str) = 'u' :: S "se " from rfl,
    show (S ";" : Str) = [';'] from rfl]
  simp

theorem pyStrip_use_semi (X : Str) :
    pyStrip (S "use " ++ X ++ S ";") = S "use " ++ X ++ S ";" := by
  rw [use_semi_shape]
  exact pyStrip_sandwich _ (by decide) (by decide)

theorem use_semi_not_cfg (X : Str) :
    strStarts (S "use " ++ X ++ S ";") (S "#[cfg") = false := by
  rw [use_semi_shape]
  exact strStarts_u_cfg _

theorem use_semi_not_pub (X : Str) :
    strStarts (S "use " ++ X ++ S ";") (S "pub use ") = false := by
  rw [use_semi_shape]
  exact strStarts_u_pub _

theorem use_semi_starts_use (X : Str) :
    strStarts (S "use " ++ X ++ S ";") (S "use ") = true := by
  rw [List.append_assoc]
  exact strStarts_append _ _

theorem use_semi_ends (X : Str) :
    strEnds (S "use " ++ X ++ S ";") (S ";") = true :=
  strEnds_append _ _

theorem parseAux_use_semi_step {lines : List Str} {i : Nat} {X : Str}
    (hget : lines.get? i = some (S "use " ++ X ++ S ";")) (fuel : Nat)
    (uses : List UseStmt) (others : List Str) :
    parseAux lines (fuel + 1) i uses others =
      parseAux lines fuel (i + 1)
        (uses ++ [(none, S "use " ++ X ++ S ";", false)]) others := by
  simp only [parseAux]
  rw [hget]
  simp only [pyStrip_use_semi, use_semi_not_cfg, use_semi_not_pub,
    use_semi_starts_use, use_semi_ends, Bool.false_and, Bool.true_and,
    Bool.and_self, Bool.false_eq_true, if_false, if_true]

theorem use_brace_shape (b : Str) :
    (S "use " ++ b ++ S "::" ++ [brOpen] : Str) =
      'u' :: ((S "se " ++ b ++ S "::") ++ [brOpen]) := by
  rw [show (S "use " : Str) = 'u' :: S "se " from rfl]
  simp

theorem pyStrip_use_brace (b : Str) :
    pyStrip (S "use " ++ b ++ S "::" ++ [brOpen]) =
      S "use " ++ b ++ S "::" ++ [brOpen] := by
  rw [use_brace_shape]
  exact pyStrip_sandwich _ (by decide) (by decide)

theorem use_brace_not_cfg (b : Str) :
    strStarts (S "use " ++ b ++ S "::" ++ [brOpen]) (S "#[cfg") = false := by
  rw [use_brace_shape]
  exact strStarts_u_cfg _

theorem use_brace_not_pub (b : Str) :
    strStarts (S "use " ++ b ++ S "::" ++ [brOpen]) (S "pub use ") = false := by
  rw [use_brace_shape]
  exact strStarts_u_pub _

theorem use_brace_starts_use (b : Str) :
    strStarts (S "use " ++ b ++ S "::" ++ [brOpen]) (S "use ") = true := by
  rw [List.append_assoc, List.append_assoc]
  exact strStarts_append _ _

theorem use_brace_not_semi (b : Str) :
    strEnds (S "use " ++ b ++ S "::" ++ [brOpen]) (S ";") = false := by
  rw [show (S ";" : Str) = ([] : Str) ++ [';'] from rfl]
  exact strEnds_concat_ne (by decide)

theorem use_brace_not_closer (b : Str) :
    strEnds (S "use " ++ b ++ S "::" ++ [brOpen]) (S "\x7d;") = false := by
  rw [show (S "\x7d;" : Str) = [brClose] ++ [';'] from rfl]
  exact strEnds_concat_ne (by decide)

theorem use_brace_hasCh (b : Str) :
    hasCh brOpen (S "use " ++ b ++ S "::" ++ [brOpen]) = true := by
  refine hasCh_iff.2 ?_
  simp

theorem use_brace_count {b : Str} (hbo : brOpen ∉ b) (hbc : brClose ∉ b) :
    ((countCh brOpen (S "use " ++ b ++ S "::" ++ [brOpen]) : Int) -
      (countCh brClose (S "use " ++ b ++ S "::" ++ [brOpen]) : Int)) = 1 := by
  rw [countCh_append, countCh_append, countCh_append]
  rw [countCh_append, countCh_append, countCh_append]
  rw [show countCh brOpen (S "use ") = 0 from rfl,
    show countCh brClose (S "use ") = 0 from rfl,
    show countCh brOpen (S "::") = 0 from rfl,
    show countCh brClose (S "::") = 0 from rfl,
    show countCh brOpen [brOpen] = 1 from rfl,
    show countCh brClose [brOpen] = 0 from rfl,
    countCh_eq_zero hbo, countCh_eq_zero hbc]
  norm_num

theorem parseAux_brace_step {lines : List Str} {i : Nat} {b : Str}
    (hbo : brOpen ∉ b) (hbc : brClose ∉ b)
    (hget : lines.get? i = some (S "use " ++ b ++ S "::" ++ [brOpen]))
    {its : List Str} (hg : ∀ it ∈ its, goodSeg it) {rest : List Str}
    (hdrop : lines.drop (i + 1) =
      (its.map (fun it => S "    " ++ it ++ S ",")) ++ (S "\x7d;") :: rest)
    (fuel : Nat) (uses : List UseStmt) (others : List Str) :
    parseAux lines (fuel + 1) i uses others =
      parseAux lines fuel (i + 1 + (its.length + 1))
        (uses ++ [(none,
          S "use " ++ b ++ S "::" ++ [brOpen] ++
            (its.map (fun it => ' ' :: (it ++ [',']))).flatten ++
            [' ', brClose, ';'], false)]) others := by
  simp only [parseAux]
  rw [hget]
  simp only [pyStrip_use_brace, use_brace_not_cfg, use_brace_not_pub,
    use_brace_starts_use, use_brace_not_semi, use_brace_not_closer,
    use_brace_hasCh, Bool.false_and, Bool.true_and, Bool.and_self,
    Bool.false_eq_true, if_false, Bool.false_or, Bool.true_or, Bool.and_true,
    Bool.not_false, if_true]
  rw [show ((countCh brOpen (S "use " ++ b ++ S "::" ++ [brOpen]) : Int) -
    (countCh brClose (S "use " ++ b ++ S "::" ++ [brOpen]) : Int)) = 1 from
    use_brace_count hbo hbc]
  rw [hdrop]
  rw [multiScan_low its _ rest hg]
  simp only []
  rw [if_pos (by
    rw [Bool.and_eq_true]
    refine ⟨by norm_num, ?_⟩
    rw [show (S "use " ++ b ++ S "::" ++ [brOpen] ++
      (its.map (fun it => ' ' :: (it ++ [',']))).flatten ++
      [' ', brClose, ';'] : Str) =
      (S "use " ++ b ++ S "::" ++ [brOpen] ++
        (its.map (fun it => ' ' :: (it ++ [',']))).flatten ++
        [' ', brClose]) ++ S ";" by
      rw [show (S ";" : Str) = [';'] from rfl]
      simp
    ]
    exact strEnds_append _ _)]

theorem lowBlock_single {base : Str} {items : List Str} {it : Str}
    (h : sortStr items = [it]) :
    lowBlock base items = [S "use " ++ base ++ S "::" ++ it ++ S ";"] := by
  unfold lowBlock
  rw [h]

theorem stmtOf_single {base : Str} {items : List Str} {it : Str}
    (h : sortStr items = [it]) :
    stmtOf base items = S "use " ++ base ++ S "::" ++ it ++ S ";" := by
  unfold stmtOf
  rw [h]

theorem lowBlock_two {base : Str} {items : List Str} {x y : Str}
    (h : sortStr items = [x, y]) :
    lowBlock base items =
      [S "use " ++ base ++ S "::" ++ [brOpen] ++ joinSep (S ", ") [x, y] ++
        [brClose] ++ S ";"] := by
  unfold lowBlock
  rw [h]
  rfl

theorem stmtOf_two {base : Str} {items : List Str} {x y : Str}
    (h : sortStr items = [x, y]) :
    stmtOf base items =
      S "use " ++ base ++ S "::" ++ [brOpen] ++ joinSep (S ", ") [x, y] ++
        [brClose] ++ S ";" := by
  unfold stmtOf
  rw [h]
  rfl

theorem lowBlock_multi {base : Str} {items : List Str} {x y z : Str} {zs : List Str}
    (h : sortStr items = x :: y :: z :: zs) :
    lowBlock base items =
      (S "use " ++ base ++ S "::" ++ [brOpen]) ::
        ((x :: y :: z :: zs).map (fun it => S "    " ++ it ++ S ",") ++
          [S "\x7d;"]) := by
  unfold lowBlock
  rw [h]
  dsimp only
  rw [if_pos (by simp)]

theorem stmtOf_multi {base : Str} {items : List Str} {x y z : Str} {zs : List Str}
    (h : sortStr items = x :: y :: z :: zs) :
    stmtOf base items =
      S "use " ++ base ++ S "::" ++ [brOpen] ++
        ((x :: y :: z :: zs).map (fun it => ' ' :: (it ++ [',']))).flatten ++
        [' ', brClose, ';'] := by
  unfold stmtOf
  rw [h]
  dsimp only
  rw [if_pos (by simp)]

theorem get?_of_drop_cons {lines : List Str} {i : Nat} {x : Str} {t : List Str}
    (h : lines.drop i = x :: t) : lines.get? i = some x := by
  rw [List.get?_eq_getElem?, ← List.head?_drop, h]
  rfl

theorem get?_of_drop_nil {lines : List Str} {i : Nat}
    (h : lines.drop i = []) : lines.get? i = none := by
  rw [List.get?_eq_getElem?, ← List.head?_drop, h]
  rfl

theorem parseAux_lowBlocks :
    ∀ (gs : List (Str × List Str)),
      (∀ p ∈ gs, goodBase p.1 ∧ p.2 ≠ [] ∧ ∀ it ∈ p.2, goodSeg it) →
      ∀ (fuel i : Nat) (lines : List Str) (uses : List UseStmt)
        (others : List Str),
        lines.drop i = gs.flatMap (fun p => lowBlock p.1 p.2) →
        gs.length < fuel →
        parseAux lines fuel i uses others =
          .ok (uses ++ gs.map
            (fun p => ((none : Option Str), stmtOf p.1 p.2, false)), others) := by
  intro gs
  induction gs with
  | nil =>
    intro _ fuel i lines uses others hdrop hfuel
    cases fuel with
    | zero => omega
    | succ f =>
      simp only [parseAux]
      rw [get?_of_drop_nil (by rw [hdrop]; rfl)]
      simp
  | cons p rest ih =>
    intro hmem fuel i lines uses others hdrop hfuel
    cases fuel with
    | zero => omega
    | succ f =>
      obtain ⟨hgb, hne, hg⟩ := hmem p (by simp)
      obtain ⟨bsegs, hbne, hbsegs, hbeq⟩ := hgb
      have hbo : brOpen ∉ p.1 := by
        rw [hbeq]
        exact nameOf_not_mem hbsegs (by decide) (by decide)
      have hbc : brClose ∉ p.1 := by
        rw [hbeq]
        exact nameOf_not_mem hbsegs (by decide) (by decide)
      have hblock : lines.drop i =
          lowBlock p.1 p.2 ++ rest.flatMap (fun q => lowBlock q.1 q.2) := by
        rw [hdrop, List.flatMap_cons]
      have hslne : sortStr p.2 ≠ [] := by
        intro he
        apply hne
        have hp := sortStr_perm p.2
        rw [he] at hp
        exact hp.symm.eq_nil
      have hgs : ∀ it ∈ sortStr p.2, goodSeg it := by
        intro it hit
        exact hg it ((sortStr_mem it p.2).1 hit)
      cases hsl : sortStr p.2 with
      | nil => exact absurd hsl hslne
      | cons x xs =>
        cases xs with
        | nil =>
          have hlineE : (S "use " ++ p.1 ++ S "::" ++ x ++ S ";" : Str) =
              S "use " ++ (p.1 ++ S "::" ++ x) ++ S ";" := by simp
          have hdropA : lines.drop i =
              (S "use " ++ (p.1 ++ S "::" ++ x) ++ S ";") ::
                rest.flatMap (fun q => lowBlock q.1 q.2) := by
            rw [hblock, lowBlock_single hsl, hlineE]
            rfl
          rw [parseAux_use_semi_step (get?_of_drop_cons hdropA) f uses others]
          rw [ih (fun q hq => hmem q (by simp [hq])) f (i + 1) lines _ others ?_
            (by simp at hfuel ⊢; omega)]
          · simp only [List.map_cons]
            rw [stmtOf_single hsl, hlineE]
            simp
          · rw [← List.drop_drop, hdropA]
            rfl
        | cons y ys =>
          cases ys with
          | nil =>
            have hlineE : (S "use " ++ p.1 ++ S "::" ++ [brOpen] ++
                joinSep (S ", ") [x, y] ++ [brClose] ++ S ";" : Str) =
                S "use " ++ (p.1 ++ S "::" ++ [brOpen] ++
                  joinSep (S ", ") [x, y] ++ [brClose]) ++ S ";" := by simp
            have hdropB : lines.drop i =
                (S "use " ++ (p.1 ++ S "::" ++ [brOpen] ++
                  joinSep (S ", ") [x, y] ++ [brClose]) ++ S ";") ::
                  rest.flatMap (fun q => lowBlock q.1 q.2) := by
              rw [hblock, lowBlock_two hsl, hlineE]
              rfl
            rw [parseAux_use_semi_step (get?_of_drop_cons hdropB) f uses others]
            rw [ih (fun q hq => hmem q (by simp [hq])) f (i + 1) lines _ others ?_
              (by simp at hfuel ⊢; omega)]
            · simp only [List.map_cons]
              rw [stmtOf_two hsl, hlineE]
              simp
            · rw [← List.drop_drop, hdropB]
              rfl
          | cons z zs =>
            have hdropC : lines.drop i =
                (S "use " ++ p.1 ++ S "::" ++ [brOpen]) ::
                  (((x :: y :: z :: zs).map
                      (fun it => S "    " ++ it ++ S ",")) ++
                    (S "\x7d;") ::
                      rest.flatMap (fun q => lowBlock q.1 q.2)) := by
              rw [hblock, lowBlock_multi hsl]
              simp
            have hdropC1 : lines.drop (i + 1) =
                ((x :: y :: z :: zs).map (fun it => S "    " ++ it ++ S ",")) ++
                  (S "\x7d;") :: rest.flatMap (fun q => lowBlock q.1 q.2) := by
              rw [← List.drop_drop, hdropC]
              rfl
            have hgsl : ∀ it ∈ x :: y :: z :: zs, goodSeg it := by
              intro it hit
              refine hgs it ?_
              rw [hsl]
              exact hit
            rw [parseAux_brace_step hbo hbc (get?_of_drop_cons hdropC) hgsl
              hdropC1 f uses others]
            rw [ih (fun q hq => hmem q (by simp [hq])) f
              (i + 1 + ((x :: y :: z :: zs).length + 1)) lines _ others ?_
              (by simp at hfuel ⊢; omega)]
            · simp only [List.map_cons]
              rw [stmtOf_multi hsl]
              simp
            · rw [← List.drop_drop, hdropC1]
              rw [show ((x :: y :: z :: zs).map
                  (fun it => S "    " ++ it ++ S ",")) ++
                  (S "\x7d;") :: rest.flatMap (fun q => lowBlock q.1 q.2) =
                (((x :: y :: z :: zs).map
                    (fun it => S "    " ++ it ++ S ",")) ++ [S "\x7d;"]) ++
                  rest.flatMap (fun q => lowBlock q.1 q.2) by simp]
              rw [show (x :: y :: z :: zs).length + 1 =
                (((x :: y :: z :: zs).map
                    (fun it => S "    " ++ it ++ S ",")) ++ [S "\x7d;"]).length by
                simp]
              exact List.drop_left _ _

theorem getLastD_indep : ∀ (l : List Str) (a b : Str), l ≠ [] →
    l.getLastD a = l.getLastD b := by
  intro l
  induction l with
  | nil => intro a b h; cases h rfl
  | cons x xs ih =>
    intro a b _
    cases xs with
    | nil => rfl
    | cons y ys =>
      show (y :: ys).getLastD x = (y :: ys).getLastD x
      rfl

theorem joinSep_head : ∀ (ls : List Str) {c : Char} {t : Str},
    ls.headD [] = c :: t → ∃ X, joinSep ['\n'] ls = c :: X := by
  intro ls c t h
  cases ls with
  | nil => simp at h
  | cons x xs =>
    have hx : x = c :: t := h
    cases xs with
    | nil => exact ⟨t, hx⟩
    | cons y ys =>
      refine ⟨t ++ '\n' :: joinSep ['\n'] (y :: ys), ?_⟩
      show x ++ ['\n'] ++ joinSep ['\n'] (y :: ys) = _
      rw [hx]
      simp

theorem joinSep_last : ∀ (ls : List Str) {m : Str} {d : Char},
    ls.getLastD [] = m ++ [d] → ls ≠ [] →
    ∃ Y, joinSep ['\n'] ls = Y ++ [d] := by
  intro ls
  induction ls with
  | nil => intro m d _ h; cases h rfl
  | cons x xs ih =>
    intro m d hlast _
    cases xs with
    | nil =>
      exact ⟨m, hlast⟩
    | cons y ys =>
      have hlast2 : (y :: ys).getLastD [] = m ++ [d] := by
        rw [getLastD_indep (y :: ys) [] x (by simp)]
        exact hlast
      obtain ⟨Y, hY⟩ := ih hlast2 (by simp)
      refine ⟨x ++ '\n' :: Y, ?_⟩
      show x ++ ['\n'] ++ joinSep ['\n'] (y :: ys) = _
      rw [hY]
      simp

theorem pyStrip_first_last {s : Str} {c d : Char} (h1 : ∃ X, s = c :: X)
    (h2 : ∃ Y, s = Y ++ [d]) (hc : isPySpace c = false)
    (hd : isPySpace d = false) : pyStrip s = s := by
  obtain ⟨X, hX⟩ := h1
  obtain ⟨Y, hY⟩ := h2
  cases Y with
  | nil =>
    rw [hY]
    refine pyStrip_no_space ?_
    intro e he
    simp only [List.nil_append, List.mem_singleton] at he
    rw [he]
    exact hd
  | cons e Y2 =>
    have he : e = c := by
      have h3 : (c :: X : Str) = e :: (Y2 ++ [d]) := hX.symm.trans hY
      injection h3 with h4 h5
      exact h4.symm
    rw [hY, List.cons_append]
    rw [he]
    exact pyStrip_sandwich _ hc hd

theorem lowBlock_ne_nil (b : Str) (items : List Str) :
    lowBlock b items ≠ [] := by
  unfold lowBlock
  cases hsl : sortStr items with
  | nil => simp
  | cons x xs =>
    cases xs with
    | nil => simp
    | cons y ys =>
      dsimp only
      split <;> simp

theorem lowBlock_head (b : Str) (items : List Str) :
    ∃ t, (lowBlock b items).headD [] = 'u' :: t := by
  unfold lowBlock
  cases hsl : sortStr items with
  | nil =>
    refine ⟨S "se " ++ b ++ S "::" ++ [brOpen] ++ joinSep (S ", ") [] ++
      [brClose] ++ S ";", ?_⟩
    show S "use " ++ b ++ S "::" ++ [brOpen] ++ joinSep (S ", ") [] ++
      [brClose] ++ S ";" = _
    rw [show (S "use " : Str) = 'u' :: S "se " from rfl]
    simp
  | cons x xs =>
    cases xs with
    | nil =>
      refine ⟨S "se " ++ b ++ S "::" ++ x ++ S ";", ?_⟩
      show S "use " ++ b ++ S "::" ++ x ++ S ";" = _
      rw [show (S "use " : Str) = 'u' :: S "se " from rfl]
      simp
    | cons y ys =>
      dsimp only
      split
      · refine ⟨S "se " ++ b ++ S "::" ++ [brOpen], ?_⟩
        show S "use " ++ b ++ S "::" ++ [brOpen] = _
        rw [show (S "use " : Str) = 'u' :: S "se " from rfl]
        simp
      · refine ⟨S "se " ++ b ++ S "::" ++ [brOpen] ++
          joinSep (S ", ") (x :: y :: ys) ++ [brClose] ++ S ";", ?_⟩
        show S "use " ++ b ++ S "::" ++ [brOpen] ++
          joinSep (S ", ") (x :: y :: ys) ++ [brClose] ++ S ";" = _
        rw [show (S "use " : Str) = 'u' :: S "se " from rfl]
        simp

theorem lowBlock_last (b : Str) (items : List Str) :
    ∃ m, (lowBlock b items).getLastD [] = m ++ [';'] := by
  unfold lowBlock
  cases hsl : sortStr items with
  | nil =>
    refine ⟨S "use " ++ b ++ S "::" ++ [brOpen] ++ joinSep (S ", ") [] ++
      [brClose], ?_⟩
    show S "use " ++ b ++ S "::" ++ [brOpen] ++ joinSep (S ", ") [] ++
      [brClose] ++ S ";" = _
    rw [show (S ";" : Str) = [';'] from rfl]
  | cons x xs =>
    cases xs with
    | nil =>
      refine ⟨S "use " ++ b ++ S "::" ++ x, ?_⟩
      show S "use " ++ b ++ S "::" ++ x ++ S ";" = _
      rw [show (S ";" : Str) = [';'] from rfl]
    | cons y ys =>
      dsimp only
      split
      · refine ⟨[brClose], ?_⟩
        have hlast : ((S "use " ++ b ++ S "::" ++ [brOpen]) ::
            ((x :: y :: ys).map (fun it => S "    " ++ it ++ S ",") ++
              [S "\x7d;"])).getLastD [] = S "\x7d;" := by
          rw [List.getLastD_eq_getLast?]
          rw [show (S "use " ++ b ++ S "::" ++ [brOpen]) ::
            ((x :: y :: ys).map (fun it => S "    " ++ it ++ S ",") ++
              [S "\x7d;"]) = ((S "use " ++ b ++ S "::" ++ [brOpen]) ::
            (x :: y :: ys).map (fun it => S "    " ++ it ++ S ",")) ++
              [S "\x7d;"] by simp]
          rw [List.getLast?_concat]
          rfl
        rw [hlast]
        rfl
      · refine ⟨S "use " ++ b ++ S "::" ++ [brOpen] ++
          joinSep (S ", ") (x :: y :: ys) ++ [brClose], ?_⟩
        show S "use " ++ b ++ S "::" ++ [brOpen] ++
          joinSep (S ", ") (x :: y :: ys) ++ [brClose] ++ S ";" = _
        rw [show (S ";" : Str) = [';'] from rfl]

theorem lowBlock_nil {b : Str} {items : List Str} (h : sortStr items = []) :
    lowBlock b items =
      [S "use " ++ b ++ S "::" ++ [brOpen] ++ joinSep (S ", ") [] ++ [brClose]
        ++ S ";"] := by
  unfold lowBlock
  rw [h]
  rfl

theorem nl_nameOf {bsegs : List Str} (h : ∀ s ∈ bsegs, goodSeg s) :
    '\n' ∉ nameOf bsegs :=
  nameOf_not_mem h (by decide) (by decide)

theorem nl_joinSep_items {l : List Str} (hg : ∀ it ∈ l, goodSeg it) :
    '\n' ∉ joinSep (S ", ") l := by
  intro hm
  rcases mem_joinSep hm with hm | ⟨s, hs, hc⟩
  · rw [show (S ", " : Str) = [',', ' '] from rfl] at hm
    simp at hm
  · exact goodSeg_not_mem (hg s hs) (c := '\n') (by decide) hc

theorem lowBlock_no_newline {b : Str} {bsegs : List Str}
    (hbsegs : ∀ s ∈ bsegs, goodSeg s) (hbeq : b = nameOf bsegs)
    {items : List Str} (hg : ∀ it ∈ items, goodSeg it) :
    ∀ l ∈ lowBlock b items, '\n' ∉ l := by
  have hnb : '\n' ∉ b := by rw [hbeq]; exact nl_nameOf hbsegs
  have hgs : ∀ it ∈ sortStr items, goodSeg it :=
    fun it hit => hg it ((sortStr_mem it items).1 hit)
  intro l hl hm
  cases hsl : sortStr items with
  | nil =>
    rw [lowBlock_nil hsl] at hl
    simp only [List.mem_singleton] at hl
    subst hl
    simp only [List.mem_append] at hm
    rcases hm with (((((hm | hm) | hm) | hm) | hm) | hm) | hm
    · exact (by decide : '\n' ∉ S "use ") hm
    · exact hnb hm
    · exact (by decide : '\n' ∉ S "::") hm
    · exact absurd hm (by decide)
    · exact absurd hm (by decide)
    · exact absurd hm (by decide)
    · exact (by decide : '\n' ∉ S ";") hm
  | cons x xs =>
    cases xs with
    | nil =>
      rw [lowBlock_single hsl] at hl
      simp only [List.mem_singleton] at hl
      subst hl
      simp only [List.mem_append] at hm
      rcases hm with (((hm | hm) | hm) | hm) | hm
      · exact (by decide : '\n' ∉ S "use ") hm
      · exact hnb hm
      · exact (by decide : '\n' ∉ S "::") hm
      · exact goodSeg_not_mem (hgs x (by rw [hsl]; simp)) (c := '\n')
          (by decide) hm
      · exact (by decide : '\n' ∉ S ";") hm
    | cons y ys =>
      cases ys with
      | nil =>
        rw [lowBlock_two hsl] at hl
        simp only [List.mem_singleton] at hl
        subst hl
        simp only [List.mem_append] at hm
        rcases hm with (((((hm | hm) | hm) | hm) | hm) | hm) | hm
        · exact (by decide : '\n' ∉ S "use ") hm
        · exact hnb hm
        · exact (by decide : '\n' ∉ S "::") hm
        · exact absurd hm (by decide)
        · exact nl_joinSep_items (fun it hit => hgs it (by rw [hsl]; exact hit))
            hm
        · exact absurd hm (by decide)
        · exact (by decide : '\n' ∉ S ";") hm
      | cons z zs =>
        rw [lowBlock_multi hsl] at hl
        rcases List.mem_cons.1 hl with hl | hl
        · subst hl
          simp only [List.mem_append] at hm
          rcases hm with ((hm | hm) | hm) | hm
          · exact (by decide : '\n' ∉ S "use ") hm
          · exact hnb hm
          · exact (by decide : '\n' ∉ S "::") hm
          · exact absurd hm (by decide)
        · rcases List.mem_append.1 hl with hl | hl
          · rw [List.mem_map] at hl
            obtain ⟨it, hit, he⟩ := hl
            subst he
            simp only [List.mem_append] at hm
            rcases hm with (hm | hm) | hm
            · exact (by decide : '\n' ∉ S "    ") hm
            · exact goodSeg_not_mem (hgs it (by rw [hsl]; exact hit))
                (c := '\n') (by decide) hm
            · exact (by decide : '\n' ∉ S ",") hm
          · simp only [List.mem_singleton] at hl
            subst hl
            exact (by decide : '\n' ∉ S "\x7d;") hm

theorem flatMap_blocks_ne_nil {gs : List (Str × List Str)} (h : gs ≠ []) :
    gs.flatMap (fun p => lowBlock p.1 p.2) ≠ [] := by
  cases gs with
  | nil => cases h rfl
  | cons p rest =>
    rw [List.flatMap_cons]
    intro he
    rcases List.append_eq_nil.1 he with ⟨h1, _⟩
    exact lowBlock_ne_nil p.1 p.2 h1

theorem flatMap_blocks_headD {gs : List (Str × List Str)} (h : gs ≠ []) :
    ∃ t, (gs.flatMap (fun p => lowBlock p.1 p.2)).headD [] = 'u' :: t := by
  cases gs with
  | nil => cases h rfl
  | cons p rest =>
    rw [List.flatMap_cons]
    obtain ⟨t, ht⟩ := lowBlock_head p.1 p.2
    refine ⟨t, ?_⟩
    cases hb : lowBlock p.1 p.2 with
    | nil => exact absurd hb (lowBlock_ne_nil p.1 p.2)
    | cons L ls =>
      rw [hb] at ht
      show L = 'u' :: t
      exact ht

theorem getLastD_append_ne {l2 : List Str} (h : l2 ≠ []) (l1 : List Str) :
    (l1 ++ l2).getLastD [] = l2.getLastD [] := by
  rw [List.getLastD_eq_getLast?, List.getLastD_eq_getLast?]
  rw [List.getLast?_append_of_ne_nil _ h]

theorem flatMap_blocks_lastD :
    ∀ (gs : List (Str × List Str)), gs ≠ [] →
    ∃ m, (gs.flatMap (fun p => lowBlock p.1 p.2)).getLastD [] = m ++ [';'] := by
  intro gs
  induction gs with
  | nil => intro h; cases h rfl
  | cons p rest ih =>
    intro _
    rw [List.flatMap_cons]
    cases rest with
    | nil =>
      simp only [List.flatMap_nil, List.append_nil]
      exact lowBlock_last p.1 p.2
    | cons q qs =>
      obtain ⟨m, hm⟩ := ih (by simp)
      refine ⟨m, ?_⟩
      rw [getLastD_append_ne (flatMap_blocks_ne_nil (by simp))]
      exact hm

theorem blocks_len_ge :
    ∀ (gs : List (Str × List Str)),
      gs.length ≤ (gs.flatMap (fun p => lowBlock p.1 p.2)).length := by
  intro gs
  induction gs with
  | nil => simp
  | cons p rest ih =>
    rw [List.flatMap_cons, List.length_append, List.length_cons]
    have h1 : 1 ≤ (lowBlock p.1 p.2).length :=
      List.length_pos.2 (lowBlock_ne_nil p.1 p.2)
    omega

theorem flatMap_congr {α : Type} {f g : α → List Str} :
    ∀ (l : List α), (∀ x ∈ l, f x = g x) → l.flatMap f = l.flatMap g := by
  intro l
  induction l with
  | nil => intro _; rfl
  | cons x xs ih =>
    intro h
    rw [List.flatMap_cons, List.flatMap_cons, h x (by simp),
      ih (fun y hy => h y (by simp [hy]))]

theorem textOf_not_space {paths : List (List Str)} (hne : paths ≠ []) :
    (textOf paths).all isPySpace = false := by
  obtain ⟨mid, hmid⟩ := textOf_shape paths hne
  rw [hmid]
  rw [List.all_cons]
  rw [show isPySpace 'u' = false from rfl]
  rfl

theorem updPair_ne_nil (gs : List (Str × List Str)) (b it : Str) :
    updPair gs b it ≠ [] := by
  cases gs with
  | nil => simp [updPair]
  | cons p rest =>
    rw [updPair.eq_def]
    simp only []
    split <;> simp

theorem lowPairs_ne_nil {paths : List (List Str)} (hne : paths ≠ []) :
    lowPairs paths ≠ [] := by
  unfold lowPairs
  have hgen : ∀ (ps : List (List Str)) (gs : List (Str × List Str)),
      gs ≠ [] →
      ps.foldl
        (fun gs segs => updPair gs (nameOf segs.dropLast) (segs.getLastD [])) gs
        ≠ [] := by
    intro ps
    induction ps with
    | nil => intro gs h; exact h
    | cons p ps2 ih =>
      intro gs _
      rw [List.foldl_cons]
      exact ih _ (updPair_ne_nil _ _ _)
  cases paths with
  | nil => cases hne rfl
  | cons p ps =>
    rw [List.foldl_cons]
    exact hgen ps _ (updPair_ne_nil _ _ _)

theorem sortedLowPairs_good {paths : List (List Str)}
    (h : ∀ p ∈ paths, goodPath p) :
    ∀ q ∈ (lowPairs paths).insertionSort pairLe,
      goodBase q.1 ∧ q.2 ≠ [] ∧ q.2.Nodup ∧ ∀ it ∈ q.2, goodSeg it := by
  intro q hq
  have hperm := List.perm_insertionSort pairLe (lowPairs paths)
  have hmem : q ∈ lowPairs paths := hperm.mem_iff.1 hq
  exact (lowPairs_good h).2 q hmem

theorem sortedLowPairs_ne_nil {paths : List (List Str)} (hne : paths ≠ []) :
    (lowPairs paths).insertionSort pairLe ≠ [] := by
  intro he
  have hperm := List.perm_insertionSort pairLe (lowPairs paths)
  rw [he] at hperm
  exact lowPairs_ne_nil hne hperm.symm.eq_nil

theorem low_R (paths : List (List Str)) (hne : paths ≠ [])
    (h : ∀ p ∈ paths, goodPath p) :
    streamline_rust_imports_low (textOf paths) =
      .ok (joinSep ['\n']
        (((lowPairs paths).insertionSort pairLe).flatMap
          (fun p => lowBlock p.1 p.2))) := by
  unfold streamline_rust_imports_low
  rw [if_neg (by rw [textOf_not_space hne]; simp)]
  rw [pyStrip_textOf hne, splitCh_textOf hne h]
  simp only [bind, Except.bind]
  rw [parse_R paths h]
  simp only []
  rw [collect_low_R paths h]
  simp only []
  rw [lowGroups_eq_groupsOf, generate_groupsOf]
  rw [flatMap_congr _ (fun q hq =>
    genStmtLines_plain (fun it hit => (sortedLowPairs_good h q hq).2.2.2 it hit)
      q.1)]
  rw [if_neg (by simp)]
  rfl

theorem drop4_use_semi (X : Str) :
    ((S "use " ++ X ++ S ";").drop 4).dropLast = X := by
  rw [show (S "use " ++ X ++ S ";" : Str) = S "use " ++ (X ++ S ";") by simp]
  rw [show (4 : Nat) = (S "use ").length from rfl]
  rw [List.drop_left]
  rw [show (S ";" : Str) = [';'] from rfl]
  rw [List.dropLast_concat]

theorem pyStrip_braced_path {bsegs : List Str} (hbne : bsegs ≠ [])
    (hbsegs : ∀ s ∈ bsegs, goodSeg s) (inner : Str) :
    pyStrip (nameOf bsegs ++ S "::" ++ brOpen :: (inner ++ [brClose])) =
      nameOf bsegs ++ S "::" ++ brOpen :: (inner ++ [brClose]) := by
  obtain ⟨c0, t0, hhead, hc0⟩ := nameOf_head_good hbne hbsegs
  rw [show (nameOf bsegs ++ S "::" ++ brOpen :: (inner ++ [brClose]) : Str) =
    c0 :: ((t0 ++ S "::" ++ brOpen :: inner) ++ [brClose]) by
      rw [hhead]
      simp]
  exact pyStrip_sandwich _ (by rw [(goodChar_spec hc0).2.2.2.2.2.2]) (by rfl)

theorem hasCC_braced_path (bsegs : List Str) (X : Str) :
    hasCC (nameOf bsegs ++ S "::" ++ X) = true := by
  rw [show (nameOf bsegs ++ S "::" ++ X : Str) =
    nameOf bsegs ++ ':' :: ':' :: X by
      rw [show (S "::" : Str) = [':', ':'] from rfl]
      simp]
  exact hasCC_append_cc _ _

theorem no_star_braced_path (bsegs : List Str) (inner : Str) :
    strEnds (nameOf bsegs ++ S "::" ++ brOpen :: (inner ++ [brClose]))
      (S "::*") = false := by
  rw [show (S "::*" : Str) = [':', ':'] ++ ['*'] from rfl]
  rw [show (nameOf bsegs ++ S "::" ++ brOpen :: (inner ++ [brClose]) : Str) =
    (nameOf bsegs ++ S "::" ++ brOpen :: inner) ++ [brClose] by simp]
  exact strEnds_concat_ne (by decide)

theorem sortStr_nodup {l : List Str} (h : l.Nodup) : (sortStr l).Nodup :=
  (sortStr_perm l).nodup_iff.2 h

theorem canonicalize_stmtOf {q : Str × List Str} (hgb : goodBase q.1)
    (hne : q.2 ≠ []) (hnd : q.2.Nodup) (hg : ∀ it ∈ q.2, goodSeg it) :
    _canonicalize_import none (stmtOf q.1 q.2) =
      .ok ([], false,
        sortStr ((sortStr q.2).map (fun it => q.1 ++ S "::" ++ it))) := by
  obtain ⟨bsegs, hbne, hbsegs, hbeq⟩ := hgb
  have hgs : ∀ it ∈ sortStr q.2, goodSeg it :=
    fun it hit => hg it ((sortStr_mem it q.2).1 hit)
  have hsnd : (sortStr q.2).Nodup := sortStr_nodup hnd
  have hslne : sortStr q.2 ≠ [] := by
    intro he
    apply hne
    have hp := sortStr_perm q.2
    rw [he] at hp
    exact hp.symm.eq_nil
  cases hsl : sortStr q.2 with
  | nil => exact absurd hsl hslne
  | cons x xs =>
    cases xs with
    | nil =>
      rw [stmtOf_single hsl]
      have hgood : goodPath (bsegs ++ [x]) := by
        constructor
        · rw [List.length_append]
          have h1 : 1 ≤ bsegs.length := List.length_pos.2 hbne
          simp
          omega
        · intro s hs
          rcases List.mem_append.1 hs with hs | hs
          · exact hbsegs s hs
          · simp only [List.mem_singleton] at hs
            subst hs
            exact hgs s (by rw [hsl]; simp)
      have hline : (S "use " ++ q.1 ++ S "::" ++ x ++ S ";" : Str) =
          lineOf (bsegs ++ [x]) := by
        unfold lineOf
        rw [nameOf_concat _ _ hbne, hbeq]
        simp
      rw [hline, canonicalize_lineOf hgood]
      rw [hbeq, List.map_cons, List.map_nil, sortStr_singleton,
        nameOf_concat _ _ hbne]
    | cons y ys =>
      cases ys with
      | nil =>
        rw [stmtOf_two hsl]
        rw [show (S "use " ++ q.1 ++ S "::" ++ [brOpen] ++
            joinSep (S ", ") [x, y] ++ [brClose] ++ S ";" : Str) =
          S "use " ++ (nameOf bsegs ++ S "::" ++
            brOpen :: (joinSep (S ", ") [x, y] ++ [brClose])) ++ S ";" by
            rw [hbeq]
            simp]
        rw [canonicalize_braced hbne hbsegs
          (parse_nested_joinSep (by simp) (by
            intro it hit
            refine hgs it ?_
            rw [hsl]
            exact hit) (by
            rw [← hsl]
            exact hsnd)) (by simp) (by
            intro it hit
            refine hgs it ?_
            rw [hsl]
            exact hit) (by
            rw [← hsl]
            exact hsnd)]
        rw [hbeq]
      | cons z zs =>
        rw [stmtOf_multi hsl]
        rw [show (S "use " ++ q.1 ++ S "::" ++ [brOpen] ++
            ((x :: y :: z :: zs).map (fun it => ' ' :: (it ++ [',']))).flatten ++
            [' ', brClose, ';'] : Str) =
          S "use " ++ (nameOf bsegs ++ S "::" ++
            brOpen :: ((((x :: y :: z :: zs).map
              (fun it => ' ' :: (it ++ [',']))).flatten ++ [' ']) ++ [brClose]))
            ++ S ";" by
            rw [hbeq]
            rw [show ([' ', brClose, ';'] : Str) = [' '] ++ [brClose] ++ [';']
              from rfl,
              show (S ";" : Str) = [';'] from rfl]
            simp]
        rw [canonicalize_braced hbne hbsegs
          (parse_nested_flatten (by
            intro it hit
            refine hgs it ?_
            rw [hsl]
            exact hit) (by
            rw [← hsl]
            exact hsnd)) (by simp) (by
            intro it hit
            refine hgs it ?_
            rw [hsl]
            exact hit) (by
            rw [← hsl]
            exact hsnd)]
        rw [hbeq]

theorem stmtOf_guard {q : Str × List Str} (hgb : goodBase q.1) (hne : q.2 ≠ [])
    (hg : ∀ it ∈ q.2, goodSeg it) :
    (!(hasCC (pyStrip (((stmtOf q.1 q.2).drop 4).dropLast))) ||
      strEnds (pyStrip (((stmtOf q.1 q.2).drop 4).dropLast)) (S "::*")) =
      false := by
  obtain ⟨bsegs, hbne, hbsegs, hbeq⟩ := hgb
  have hgs : ∀ it ∈ sortStr q.2, goodSeg it :=
    fun it hit => hg it ((sortStr_mem it q.2).1 hit)
  have hslne : sortStr q.2 ≠ [] := by
    intro he
    apply hne
    have hp := sortStr_perm q.2
    rw [he] at hp
    exact hp.symm.eq_nil
  cases hsl : sortStr q.2 with
  | nil => exact absurd hsl hslne
  | cons x xs =>
    cases xs with
    | nil =>
      rw [stmtOf_single hsl]
      have hgood2 : ∀ s ∈ bsegs ++ [x], goodSeg s := by
        intro s hs
        rcases List.mem_append.1 hs with hs | hs
        · exact hbsegs s hs
        · simp only [List.mem_singleton] at hs
          subst hs
          exact hgs s (by rw [hsl]; simp)
      have hline : (S "use " ++ q.1 ++ S "::" ++ x ++ S ";" : Str) =
          lineOf (bsegs ++ [x]) := by
        unfold lineOf
        rw [nameOf_concat _ _ hbne, hbeq]
        simp
      rw [hline]
      rw [show ((lineOf (bsegs ++ [x])).drop 4).dropLast =
        nameOf (bsegs ++ [x]) ++ [] by
          rw [drop4_lineOf, show (S ";" : Str) = [';'] from rfl,
            List.dropLast_concat]
          simp]
      rw [List.append_nil]
      rw [pyStrip_no_space (nameOf_no_space hgood2)]
      rw [hasCC_nameOf (by
        rw [List.length_append]
        have h1 : 1 ≤ bsegs.length := List.length_pos.2 hbne
        simp
        omega)]
      rw [nameOf_no_star hgood2]
      rfl
    | cons y ys =>
      cases ys with
      | nil =>
        rw [stmtOf_two hsl]
        rw [show (S "use " ++ q.1 ++ S "::" ++ [brOpen] ++
            joinSep (S ", ") [x, y] ++ [brClose] ++ S ";" : Str) =
          S "use " ++ (nameOf bsegs ++ S "::" ++
            brOpen :: (joinSep (S ", ") [x, y] ++ [brClose])) ++ S ";" by
            rw [hbeq]
            simp]
        rw [drop4_use_semi]
        rw [pyStrip_braced_path hbne hbsegs]
        rw [no_star_braced_path]
        rw [show (nameOf bsegs ++ S "::" ++
          brOpen :: (joinSep (S ", ") [x, y] ++ [brClose]) : Str) =
          nameOf bsegs ++ S "::" ++
            (brOpen :: (joinSep (S ", ") [x, y] ++ [brClose])) from rfl]
        rw [hasCC_braced_path]
        rfl
      | cons z zs =>
        rw [stmtOf_multi hsl]
        rw [show (S "use " ++ q.1 ++ S "::" ++ [brOpen] ++
            ((x :: y :: z :: zs).map (fun it => ' ' :: (it ++ [',']))).flatten ++
            [' ', brClose, ';'] : Str) =
          S "use " ++ (nameOf bsegs ++ S "::" ++
            brOpen :: ((((x :: y :: z :: zs).map
              (fun it => ' ' :: (it ++ [',']))).flatten ++ [' ']) ++ [brClose]))
            ++ S ";" by
            rw [hbeq]
            rw [show ([' ', brClose, ';'] : Str) = [' '] ++ [brClose] ++ [';']
              from rfl,
              show (S ";" : Str) = [';'] from rfl]
            simp]
        rw [drop4_use_semi]
        rw [pyStrip_braced_path hbne hbsegs]
        rw [no_star_braced_path]
        rw [hasCC_braced_path]
        rfl

theorem flatMap_single {α : Type} (f : α → Str) (l : List α) :
    l.flatMap (fun a => [f a]) = l.map f := by
  induction l with
  | nil => rfl
  | cons x xs ih =>
    rw [List.flatMap_cons, List.map_cons, ih]
    rfl

theorem nameStep_eval {s : Str} {names : List Str}
    (hguard : (!(hasCC (pyStrip ((s.drop 4).dropLast))) ||
      strEnds (pyStrip ((s.drop 4).dropLast)) (S "::*")) = false)
    (hcanon : _canonicalize_import none s = .ok ([], false, names))
    (acc : List Str) :
    nameStep acc (none, s, false) = .ok (acc ++ names) := by
  unfold nameStep
  dsimp only
  have h48 : (if (false = true) then 8 else 4) = 4 := rfl
  rw [h48, hguard]
  simp only [Bool.false_eq_true, if_false]
  rw [hcanon]
  rfl

theorem foldlM_names_map {α : Type} (toStmt : α → Str) (toNames : α → List Str) :
    ∀ (l : List α),
      (∀ a ∈ l,
        (!(hasCC (pyStrip (((toStmt a).drop 4).dropLast))) ||
          strEnds (pyStrip (((toStmt a).drop 4).dropLast)) (S "::*")) = false ∧
        _canonicalize_import none (toStmt a) = .ok ([], false, toNames a)) →
      ∀ (acc : List Str),
        List.foldlM nameStep acc
          (l.map (fun a => ((none : Option Str), toStmt a, false))) =
        .ok (acc ++ l.flatMap toNames) := by
  intro l
  induction l with
  | nil =>
    intro _ acc
    simp only [List.map_nil, List.foldlM_nil, List.flatMap_nil, List.append_nil]
    rfl
  | cons a as ih =>
    intro hprops acc
    obtain ⟨hguard, hcanon⟩ := hprops a (by simp)
    rw [List.map_cons, List.foldlM_cons]
    rw [nameStep_eval hguard hcanon acc]
    simp only [bind, Except.bind]
    rw [ih (fun b hb => hprops b (by simp [hb]))]
    rw [List.flatMap_cons]
    simp

theorem importNames_R (paths : List (List Str)) (hne : paths ≠ [])
    (h : ∀ p ∈ paths, goodPath p) :
    importNames (textOf paths) = .ok (paths.map nameOf) := by
  unfold importNames
  rw [pyStrip_textOf hne, splitCh_textOf hne h]
  simp only [bind, Except.bind]
  rw [parse_R paths h]
  simp only []
  rw [foldlM_names_map lineOf (fun segs => [nameOf segs]) paths ?_ []]
  · rw [flatMap_single]
    rfl
  · intro segs hs
    constructor
    · rw [show ((lineOf segs).drop 4).dropLast = nameOf segs ++ [] by
        rw [drop4_lineOf, show (S ";" : Str) = [';'] from rfl,
          List.dropLast_concat]
        simp]
      rw [List.append_nil]
      rw [pyStrip_no_space (nameOf_no_space (h segs hs).2)]
      rw [hasCC_nameOf (h segs hs).1]
      rw [nameOf_no_star (h segs hs).2]
      rfl
    · exact canonicalize_lineOf (h segs hs)

theorem importNames_out (paths : List (List Str)) (hne : paths ≠ [])
    (h : ∀ p ∈ paths, goodPath p) :
    importNames (joinSep ['\n']
        (((lowPairs paths).insertionSort pairLe).flatMap
          (fun p => lowBlock p.1 p.2))) =
      .ok (((lowPairs paths).insertionSort pairLe).flatMap
        (fun q => sortStr ((sortStr q.2).map
          (fun it => q.1 ++ S "::" ++ it)))) := by
  unfold importNames
  have hsne : (lowPairs paths).insertionSort pairLe ≠ [] :=
    sortedLowPairs_ne_nil hne
  have hLne : ((lowPairs paths).insertionSort pairLe).flatMap
      (fun p => lowBlock p.1 p.2) ≠ [] := flatMap_blocks_ne_nil hsne
  have hstrip : pyStrip (joinSep ['\n']
      (((lowPairs paths).insertionSort pairLe).flatMap
        (fun p => lowBlock p.1 p.2))) =
      joinSep ['\n'] (((lowPairs paths).insertionSort pairLe).flatMap
        (fun p => lowBlock p.1 p.2)) := by
    obtain ⟨t, ht⟩ := flatMap_blocks_headD hsne
    obtain ⟨m, hm⟩ := flatMap_blocks_lastD _ hsne
    exact pyStrip_first_last (joinSep_head _ ht) (joinSep_last _ hm hLne)
      (by decide) (by decide)
  rw [hstrip]
  rw [splitCh_joinSep '\n' _ hLne (by
    intro l hl
    rw [List.mem_flatMap] at hl
    obtain ⟨q, hq, hlq⟩ := hl
    obtain ⟨hgb, hqne, hqnd, hqg⟩ := sortedLowPairs_good h q hq
    obtain ⟨bsegs, hbne, hbsegs, hbeq⟩ := hgb
    exact lowBlock_no_newline hbsegs hbeq hqg l hlq)]
  simp only [bind, Except.bind]
  rw [show parse_import_statements
      (((lowPairs paths).insertionSort pairLe).flatMap
        (fun p => lowBlock p.1 p.2)) =
      .ok (((lowPairs paths).insertionSort pairLe).map
        (fun p => ((none : Option Str), stmtOf p.1 p.2, false)), []) by
    unfold parse_import_statements
    rw [parseAux_lowBlocks ((lowPairs paths).insertionSort pairLe)
      (fun q hq =>
        ⟨(sortedLowPairs_good h q hq).1, (sortedLowPairs_good h q hq).2.1,
          (sortedLowPairs_good h q hq).2.2.2⟩)
      ((((lowPairs paths).insertionSort pairLe).flatMap
        (fun p => lowBlock p.1 p.2)).length + 1) 0
      (((lowPairs paths).insertionSort pairLe).flatMap
        (fun p => lowBlock p.1 p.2)) [] [] (by rfl)
      (by
        have h1 := blocks_len_ge ((lowPairs paths).insertionSort pairLe)
        omega)]
    simp]
  simp only []
  have hfold := foldlM_names_map
    (fun q : Str × List Str => stmtOf q.1 q.2)
    (fun q : Str × List Str =>
      sortStr ((sortStr q.2).map (fun it => q.1 ++ S "::" ++ it)))
    ((lowPairs paths).insertionSort pairLe)
    (fun q hq => by
      obtain ⟨hgb, hqne, hqnd, hqg⟩ := sortedLowPairs_good h q hq
      exact ⟨stmtOf_guard hgb hqne hqg, canonicalize_stmtOf hgb hqne hqnd hqg⟩)
    []
  simp only [] at hfold
  rw [hfold]
  simp

theorem is_covered_simple {p n : Str} (hp : strEnds p (S "::*") = false) :
    _is_covered_by (([] : Str), false, [p]) (([] : Str), false, [n]) =
      (p == n) := by
  unfold _is_covered_by
  dsimp only
  rw [if_pos (by simp)]
  simp only [List.all_cons, List.all_nil, List.any_cons, List.any_nil, hp,
    Bool.false_and, Bool.or_false, Bool.and_true]

theorem any_congr_mem {α : Type} {l : List α} {f g : α → Bool}
    (h : ∀ x ∈ l, f x = g x) : l.any f = l.any g := by
  induction l with
  | nil => rfl
  | cons x xs ih =>
    rw [List.any_cons, List.any_cons, h x (by simp),
      ih (fun y hy => h y (by simp [hy]))]

theorem beq_symm_str {a b : Str} : (a == b) = (b == a) := by
  by_cases h : a = b
  · subst h
    rfl
  · rw [beq_eq_false_iff_ne.2 h, beq_eq_false_iff_ne.2 (Ne.symm h)]

theorem contains_eq_any (l : List Str) (x : Str) :
    l.contains x = l.any (fun n => n == x) := by
  induction l with
  | nil => rfl
  | cons b bs ih =>
    rw [List.any_cons]
    show (match x == b with
      | true => true
      | false => List.elem x bs) = (b == x || bs.any (fun n => n == x))
    rw [show (x == b) = (b == x) from beq_symm_str]
    cases hbx : (b == x) with
    | true =>
      simp
    | false =>
      simp only [Bool.false_or]
      exact ih

theorem any_covered_eq_contains {z : Str} :
    ∀ (sn : List Str), (∀ n ∈ sn, strEnds n (S "::*") = false) →
      ((sn.map (fun n => (([] : Str), false, [n]))).any
        (fun pk => _is_covered_by pk (([] : Str), false, [z]))) =
      sn.contains z := by
  intro sn
  induction sn with
  | nil => intro _; rfl
  | cons n ns ih =>
    intro hsn
    rw [List.map_cons, List.any_cons, is_covered_simple (hsn n (by simp)),
      ih (fun m hm => hsn m (by simp [hm])), contains_eq_any, contains_eq_any,
      List.any_cons]

theorem collect_block_line {segs : List Str} (rest : List Str) :
    _collect_import_block (lineOf segs :: rest) =
      ([lineOf segs], rest, lineOf segs) := by
  unfold _collect_import_block
  dsimp only
  rw [pyStrip_lineOf, if_pos (lineOf_ends_semi segs)]

theorem uniqueAux_R :
    ∀ (ps : List (List Str)), (∀ p ∈ ps, goodPath p) →
    ∀ (fuel : Nat), ps.length < fuel →
    ∀ (seenNames : List Str) (out : List Str),
      (∀ n ∈ seenNames, strEnds n (S "::*") = false) →
      uniqueAux fuel (ps.map lineOf)
          (seenNames.map (fun n => (([] : Str), false, [n]))) out =
        .ok (out ++ (uniqR ps seenNames).map lineOf,
          (uniqRSeen ps seenNames).map (fun n => (([] : Str), false, [n]))) := by
  intro ps
  induction ps with
  | nil =>
    intro _ fuel hfuel seenNames out _
    cases fuel with
    | zero => omega
    | succ f =>
      show Except.ok (out, _) = _
      rw [show uniqR [] seenNames = [] from rfl,
        show uniqRSeen [] seenNames = seenNames from rfl]
      simp
  | cons p rest ih =>
    intro hg fuel hfuel seenNames out hseen
    cases fuel with
    | zero => omega
    | succ f =>
      rw [List.map_cons]
      rw [uniqueAux]
      dsimp only
      rw [if_neg (by
        rw [pyStrip_lineOf, lineOf_not_cfg]
        simp)]
      rw [if_pos (by
        rw [pyStrip_lineOf, lineOf_starts_use]
        simp)]
      rw [collect_block_line]
      dsimp only
      rw [canonicalize_lineOf (hg p (by simp))]
      dsimp only
      rw [any_covered_eq_contains seenNames hseen]
      cases hc : seenNames.contains (nameOf p) with
      | true =>
        rw [if_pos rfl]
        rw [ih (fun q hq => hg q (by simp [hq])) f (by simp at hfuel; omega)
          seenNames out hseen]
        rw [show uniqR (p :: rest) seenNames = uniqR rest seenNames by
          rw [uniqR.eq_def]
          dsimp only
          rw [hc, if_pos rfl]]
        rw [show uniqRSeen (p :: rest) seenNames = uniqRSeen rest seenNames by
          rw [uniqRSeen.eq_def]
          dsimp only
          rw [hc, if_pos rfl]]
      | false =>
        rw [if_neg (by simp)]
        have hmap : (seenNames.map (fun n => (([] : Str), false, [n]))) ++
            [(([] : Str), false, [nameOf p])] =
            (seenNames ++ [nameOf p]).map
              (fun n => (([] : Str), false, [n])) := by
          rw [List.map_append]
          rfl
        rw [hmap]
        rw [ih (fun q hq => hg q (by simp [hq])) f (by simp at hfuel; omega)
          (seenNames ++ [nameOf p]) (out ++ [lineOf p]) (by
            intro n hn
            rcases List.mem_append.1 hn with hn | hn
            · exact hseen n hn
            · simp only [List.mem_singleton] at hn
              subst hn
              exact nameOf_no_star (hg p (by simp)).2)]
        rw [show uniqR (p :: rest) seenNames =
            p :: uniqR rest (seenNames ++ [nameOf p]) by
          rw [uniqR.eq_def]
          dsimp only
          rw [hc, if_neg (by simp)]]
        rw [show uniqRSeen (p :: rest) seenNames =
            uniqRSeen rest (seenNames ++ [nameOf p]) by
          rw [uniqRSeen.eq_def]
          dsimp only
          rw [hc, if_neg (by simp)]]
        simp

theorem unique_R (paths : List (List Str)) (hne : paths ≠ [])
    (h : ∀ p ∈ paths, goodPath p) :
    streamline_rust_imports_unique (textOf paths) =
      .ok (textOf (uniqR paths [])) := by
  unfold streamline_rust_imports_unique
  rw [if_neg (by rw [textOf_not_space hne]; simp)]
  rw [splitCh_textOf hne h]
  have hu := uniqueAux_R paths h ((paths.map lineOf).length + 1)
    (by simp) [] [] (by simp)
  simp only [List.map_nil] at hu
  rw [hu]
  dsimp only
  rw [List.nil_append]
  rfl

theorem uniqR_sub : ∀ (ps : List (List Str)) (seen : List Str) (p : List Str),
    p ∈ uniqR ps seen → p ∈ ps := by
  intro ps
  induction ps with
  | nil => intro seen p hp; simp [uniqR] at hp
  | cons q qs ih =>
    intro seen p hp
    rw [uniqR.eq_def] at hp
    dsimp only at hp
    split at hp
    · exact List.mem_cons_of_mem q (ih _ p hp)
    · rcases List.mem_cons.1 hp with hp | hp
      · exact hp ▸ List.mem_cons_self q qs
      · exact List.mem_cons_of_mem q (ih _ p hp)

theorem uniqR_names_mem : ∀ (ps : List (List Str)) (seen : List Str) (x : Str),
    x ∈ (uniqR ps seen).map nameOf ↔ x ∈ ps.map nameOf ∧ x ∉ seen := by
  intro ps
  induction ps with
  | nil => intro seen x; simp [uniqR]
  | cons q qs ih =>
    intro seen x
    rw [uniqR.eq_def]
    dsimp only
    cases hc : seen.contains (nameOf q) with
    | true =>
      rw [if_pos rfl]
      rw [ih]
      have hqm : nameOf q ∈ seen := List.elem_iff.1 hc
      rw [List.map_cons]
      constructor
      · rintro ⟨hx, hns⟩
        exact ⟨List.mem_cons_of_mem _ hx, hns⟩
      · rintro ⟨hx, hns⟩
        rcases List.mem_cons.1 hx with hx | hx
        · subst hx
          exact absurd hqm hns
        · exact ⟨hx, hns⟩
    | false =>
      rw [if_neg (by simp)]
      rw [List.map_cons, List.map_cons]
      have hqnm : nameOf q ∉ seen := by
        intro hm
        have h2 : seen.contains (nameOf q) = true := List.elem_iff.2 hm
        rw [hc] at h2
        cases h2
      constructor
      · intro hx
        rcases List.mem_cons.1 hx with hx | hx
        · subst hx
          exact ⟨List.mem_cons_self _ _, hqnm⟩
        · obtain ⟨hx2, hns⟩ := (ih _ x).1 hx
          refine ⟨List.mem_cons_of_mem _ hx2, ?_⟩
          intro hm
          exact hns (List.mem_append_left _ hm)
      · rintro ⟨hx, hns⟩
        rcases List.mem_cons.1 hx with hx | hx
        · subst hx
          exact List.mem_cons_self _ _
        · by_cases hxq : x = nameOf q
          · subst hxq
            exact List.mem_cons_self _ _
          · refine List.mem_cons_of_mem _ ((ih _ x).2 ⟨hx, ?_⟩)
            intro hm
            rcases List.mem_append.1 hm with hm | hm
            · exact hns hm
            · simp only [List.mem_singleton] at hm
              exact hxq hm

theorem uniqR_ne_nil {ps : List (List Str)} (hne : ps ≠ []) :
    uniqR ps [] ≠ [] := by
  cases ps with
  | nil => cases hne rfl
  | cons q qs =>
    rw [uniqR.eq_def]
    dsimp only
    rw [if_neg (by simp)]
    simp

theorem mem_namesL {paths : List (List Str)} (h : ∀ p ∈ paths, goodPath p)
    (x : Str) :
    (x ∈ ((lowPairs paths).insertionSort pairLe).flatMap
      (fun q => sortStr ((sortStr q.2).map (fun it => q.1 ++ S "::" ++ it)))) ↔
    ∃ segs ∈ paths, x = nameOf segs := by
  rw [List.mem_flatMap]
  constructor
  · rintro ⟨q, hq, hx⟩
    have hq2 : q ∈ lowPairs paths :=
      (List.perm_insertionSort pairLe _).mem_iff.1 hq
    have hx2 := (sortStr_mem x _).1 hx
    rw [List.mem_map] at hx2
    obtain ⟨it, hit, he⟩ := hx2
    have hit2 : it ∈ q.2 := (sortStr_mem it _).1 hit
    have hgn : x ∈ groupNames (groupsOf (lowPairs paths)) := by
      rw [groupNames_groupsOf, List.mem_flatMap]
      exact ⟨q, hq2, List.mem_map.2 ⟨it, hit2, he⟩⟩
    rw [← lowGroups_eq_groupsOf] at hgn
    exact (mem_groupNames_lowGroups (fun segs hs => (h segs hs).1) x).1 hgn
  · rintro ⟨segs, hs, he⟩
    have hgn : x ∈ groupNames (lowGroups paths) :=
      (mem_groupNames_lowGroups (fun s2 hs2 => (h s2 hs2).1) x).2 ⟨segs, hs, he⟩
    rw [lowGroups_eq_groupsOf, groupNames_groupsOf, List.mem_flatMap] at hgn
    obtain ⟨q, hq, hx⟩ := hgn
    refine ⟨q, (List.perm_insertionSort pairLe _).mem_iff.2 hq, ?_⟩
    rw [List.mem_map] at hx
    obtain ⟨it, hit, he2⟩ := hx
    exact (sortStr_mem x _).2
      (List.mem_map.2 ⟨it, (sortStr_mem it _).2 hit, he2⟩)

/-- Claim C5: for import-statement inputs, all three policies preserve the
multiset of fully-qualified imported names.  FALSE as stated: every policy
deduplicates (multiset equality fails on a repeated `use foo::Bar;`), and
the high policy corrupts two-segment imports (`use a::B;` becomes
`use a::B::B;`) — see `claim_C5_counterexample`.  The amended statement
holds: on inputs consisting of simple normalized `use` lines (at least two
nonempty plain segments per path, no `self`), the SET of fully-qualified
names extracted by the program's own parser and canonicalizer is preserved
by the low and the unique policies. -/
theorem claim_C5 (paths : List (List Str)) (hne : paths ≠ [])
    (h : ∀ p ∈ paths, goodPath p) :
    ∃ names outL namesL outU namesU,
      importNames (textOf paths) = .ok names ∧
      streamline_rust_imports_low (textOf paths) = .ok outL ∧
      importNames outL = .ok namesL ∧
      streamline_rust_imports_unique (textOf paths) = .ok outU ∧
      importNames outU = .ok namesU ∧
      (∀ x, x ∈ namesL ↔ x ∈ names) ∧
      (∀ x, x ∈ namesU ↔ x ∈ names) := by
  refine ⟨paths.map nameOf,
    joinSep ['\n'] (((lowPairs paths).insertionSort pairLe).flatMap
      (fun p => lowBlock p.1 p.2)),
    ((lowPairs paths).insertionSort pairLe).flatMap
      (fun q => sortStr ((sortStr q.2).map (fun it => q.1 ++ S "::" ++ it))),
    textOf (uniqR paths []),
    (uniqR paths []).map nameOf,
    importNames_R paths hne h,
    low_R paths hne h,
    importNames_out paths hne h,
    unique_R paths hne h,
    importNames_R (uniqR paths []) (uniqR_ne_nil hne)
      (fun p hp => h p (uniqR_sub paths [] p hp)),
    ?_, ?_⟩
  · intro x
    rw [mem_namesL h x]
    constructor
    · rintro ⟨segs, hs, he⟩
      exact List.mem_map.2 ⟨segs, hs, he.symm⟩
    · intro hx
      obtain ⟨segs, hs, he⟩ := List.mem_map.1 hx
      exact ⟨segs, hs, he.symm⟩
  · intro x
    rw [uniqR_names_mem paths [] x]
    simp

theorem claim_C5_witness :
    ([[S "a", S "B"], [S "cc", S "dd", S "B"], [S "a", S "B"]] :
      List (List Str)) ≠ [] ∧
    (∀ p ∈ ([[S "a", S "B"], [S "cc", S "dd", S "B"], [S "a", S "B"]] :
      List (List Str)), goodPath p) ∧
    (∃ names outL namesL outU namesU,
      importNames (textOf
        [[S "a", S "B"], [S "cc", S "dd", S "B"], [S "a", S "B"]]) =
        .ok names ∧
      streamline_rust_imports_low (textOf
        [[S "a", S "B"], [S "cc", S "dd", S "B"], [S "a", S "B"]]) =
        .ok outL ∧
      importNames outL = .ok namesL ∧
      streamline_rust_imports_unique (textOf
        [[S "a", S "B"], [S "cc", S "dd", S "B"], [S "a", S "B"]]) =
        .ok outU ∧
      importNames outU = .ok namesU ∧
      (∀ x, x ∈ namesL ↔ x ∈ names) ∧
      (∀ x, x ∈ namesU ↔ x ∈ names)) :=
  ⟨by decide, by decide, claim_C5 _ (by decide) (by decide)⟩

@[instance] theorem pairLe_isTotal : IsTotal (Str × List Str) pairLe :=
  ⟨fun a b => leKey_total (a.1, false) (b.1, false)⟩

@[instance] theorem pairLe_isTrans : IsTrans (Str × List Str) pairLe :=
  ⟨fun _ _ _ h1 h2 => leKey_trans h1 h2⟩

theorem sorted_pairs_sorted (l : List (Str × List Str)) :
    ((l.insertionSort pairLe)).Sorted pairLe :=
  List.sorted_insertionSort pairLe l

theorem sorted_map_items {l : List (Str × List Str)}
    (h : l.Sorted pairLe) (f : Str × List Str → List Str) :
    (l.map (fun q => (q.1, f q))).Sorted pairLe := by
  exact List.Pairwise.map _ (fun a b hab => hab) h

theorem perm_sorted_nodup_eq :
    ∀ (l1 l2 : List (Str × List Str)), l1.Perm l2 → l1.Sorted pairLe →
      l2.Sorted pairLe → (l1.map Prod.fst).Nodup → l1 = l2 := by
  intro l1
  induction l1 with
  | nil =>
    intro l2 hp _ _ _
    exact hp.nil_eq
  | cons a t1 ih =>
    intro l2 hp hs1 hs2 hnd
    have hnd2 : (a.1 :: t1.map Prod.fst).Nodup := by simpa using hnd
    cases l2 with
    | nil =>
      have h0 := hp.symm.nil_eq
      cases h0
    | cons b t2 =>
      have hab : a = b := by
        by_contra hne
        have hbmem : b ∈ a :: t1 := hp.mem_iff.2 (by simp)
        have hamem : a ∈ b :: t2 := hp.mem_iff.1 (by simp)
        have hb1 : b ∈ t1 := by
          rcases List.mem_cons.1 hbmem with h0 | h0
          · exact absurd h0.symm hne
          · exact h0
        have ha2 : a ∈ t2 := by
          rcases List.mem_cons.1 hamem with h0 | h0
          · exact absurd h0 hne
          · exact h0
        have h1 : pairLe a b := (List.sorted_cons.1 hs1).1 b hb1
        have h2 : pairLe b a := (List.sorted_cons.1 hs2).1 a ha2
        have hk : ((a.1, false) : Str × Bool) = (b.1, false) :=
          leKey_antisymm h1 h2
        have hk1 : a.1 = b.1 := by
          have h3 := congrArg Prod.fst hk
          simpa using h3
        refine (List.nodup_cons.1 hnd2).1 ?_
        rw [hk1]
        exact List.mem_map.2 ⟨b, hb1, rfl⟩
      subst hab
      have hp2 : t1.Perm t2 := hp.cons_inv
      rw [ih t2 hp2 (List.sorted_cons.1 hs1).2 (List.sorted_cons.1 hs2).2
        (List.nodup_cons.1 hnd2).2]

theorem getLastD_concat_str (l : List Str) (a : Str) :
    (l ++ [a]).getLastD [] = a := by
  rw [List.getLastD_eq_getLast?, List.getLast?_concat]
  rfl

theorem splitStep_stmt_single {q : Str × List Str} {x : Str}
    (hgb : goodBase q.1) (hsl : sortStr q.2 = [x])
    (hg : ∀ it ∈ q.2, goodSeg it)
    (acc : List (Option Str × Bool × AMap Str (List Str)) ×
      List (Option Str × Bool × List Str) × List UseStmt) :
    ∃ segs,
      splitStep acc ((none : Option Str), stmtOf q.1 q.2, false) =
        .ok (acc.1, acc.2.1 ++ [((none : Option Str), false, segs)], acc.2.2) ∧
      ∀ g, lowSimpleStep g ((none : Option Str), false, segs) =
        .ok (gUpd g (q.1, false) [] (sortStr q.2)) := by
  obtain ⟨bsegs, hbne, hbsegs, hbeq⟩ := hgb
  have hgx : goodSeg x := hg x ((sortStr_mem x q.2).1 (by rw [hsl]; simp))
  have hgood : goodPath (bsegs ++ [x]) := by
    constructor
    · rw [List.length_append]
      have h1 : 1 ≤ bsegs.length := List.length_pos.2 hbne
      simp
      omega
    · intro s hs
      rcases List.mem_append.1 hs with hs | hs
      · exact hbsegs s hs
      · simp only [List.mem_singleton] at hs
        subst hs
        exact hgx
  have hline : stmtOf q.1 q.2 = lineOf (bsegs ++ [x]) := by
    rw [stmtOf_single hsl]
    unfold lineOf
    rw [nameOf_concat _ _ hbne, hbeq]
    simp
  refine ⟨bsegs ++ [x], ?_, ?_⟩
  · rw [hline]
    exact splitStep_R hgood acc
  · intro g
    rw [lowSimpleStep_R hgood g]
    rw [List.dropLast_concat, getLastD_concat_str, ← hbeq, hsl]

theorem splitStep_stmt_braced {q : Str × List Str} {x y : Str} {ys : List Str}
    (hgb : goodBase q.1) (hsl : sortStr q.2 = x :: y :: ys) (hnd : q.2.Nodup)
    (hg : ∀ it ∈ q.2, goodSeg it)
    (acc : List (Option Str × Bool × AMap Str (List Str)) ×
      List (Option Str × Bool × List Str) × List UseStmt) :
    splitStep acc ((none : Option Str), stmtOf q.1 q.2, false) =
      .ok (acc.1 ++ [((none : Option Str), false,
        ([(q.1, sortStr q.2)] : AMap Str (List Str)))], acc.2.1, acc.2.2) := by
  obtain ⟨bsegs, hbne, hbsegs, hbeq⟩ := hgb
  obtain ⟨midb, cb, hbend, hcb⟩ := nameOf_ends_good hbne hbsegs
  have hgs : ∀ it ∈ sortStr q.2, goodSeg it :=
    fun it hit => hg it ((sortStr_mem it q.2).1 hit)
  have hsnd : (sortStr q.2).Nodup := sortStr_nodup hnd
  have hgl : ∀ it ∈ x :: y :: ys, goodSeg it := by
    intro it hit
    refine hgs it ?_
    rw [hsl]
    exact hit
  have hndl : (x :: y :: ys : List Str).Nodup := by
    rw [← hsl]
    exact hsnd
  unfold splitStep
  dsimp only
  cases hys : ys with
  | nil =>
    subst hys
    rw [show stmtOf q.1 q.2 = S "use " ++ (nameOf bsegs ++ S "::" ++
        brOpen :: (joinSep (S ", ") [x, y] ++ [brClose])) ++ S ";" by
      rw [stmtOf_two hsl, hbeq]
      simp]
    have h48 : (if (false = true) then 8 else 4) = 4 := rfl
    rw [h48, drop4_use_semi, pyStrip_braced_path hbne hbsegs]
    rw [if_neg (by
      rw [hasCC_braced_path, no_star_braced_path]
      simp)]
    rw [if_pos (by
      refine hasCh_iff.2 ?_
      simp)]
    rw [show (nameOf bsegs ++ S "::" ++
        brOpen :: (joinSep (S ", ") [x, y] ++ [brClose]) : Str) =
      (nameOf bsegs ++ S "::") ++
        brOpen :: (joinSep (S ", ") [x, y] ++ [brClose]) by simp]
    rw [process_braces hbend ((goodChar_spec hcb).2.2.2.1) (by
        intro hm
        exact nameOf_not_mem hbsegs (by decide) (by decide) hm)
      (parse_nested_joinSep (by simp) hgl hndl) (by simp) hgl hndl]
    simp only [bind, Except.bind, pure, Except.pure]
    rw [← hbeq, ← hsl]
  | cons z zs =>
    subst hys
    rw [show stmtOf q.1 q.2 = S "use " ++ (nameOf bsegs ++ S "::" ++
        brOpen :: ((((x :: y :: z :: zs).map
          (fun it => ' ' :: (it ++ [',']))).flatten ++ [' ']) ++ [brClose]))
        ++ S ";" by
      rw [stmtOf_multi hsl, hbeq]
      rw [show ([' ', brClose, ';'] : Str) = [' '] ++ [brClose] ++ [';']
        from rfl,
        show (S ";" : Str) = [';'] from rfl]
      simp]
    have h48 : (if (false = true) then 8 else 4) = 4 := rfl
    rw [h48, drop4_use_semi, pyStrip_braced_path hbne hbsegs]
    rw [if_neg (by
      rw [hasCC_braced_path, no_star_braced_path]
      simp)]
    rw [if_pos (by
      refine hasCh_iff.2 ?_
      simp)]
    rw [show (nameOf bsegs ++ S "::" ++
        brOpen :: ((((x :: y :: z :: zs).map
          (fun it => ' ' :: (it ++ [',']))).flatten ++ [' ']) ++ [brClose]) :
          Str) =
      (nameOf bsegs ++ S "::") ++
        brOpen :: ((((x :: y :: z :: zs).map
          (fun it => ' ' :: (it ++ [',']))).flatten ++ [' ']) ++ [brClose]) by
      simp]
    rw [process_braces hbend ((goodChar_spec hcb).2.2.2.1) (by
        intro hm
        exact nameOf_not_mem hbsegs (by decide) (by decide) hm)
      (parse_nested_flatten hgl hndl) (by simp) hgl hndl]
    simp only [bind, Except.bind, pure, Except.pure]
    rw [← hbeq, ← hsl]

theorem foldlM_split_stmts :
    ∀ (gs : List (Str × List Str)),
      (∀ q ∈ gs, goodBase q.1 ∧ q.2 ≠ [] ∧ q.2.Nodup ∧
        ∀ it ∈ q.2, goodSeg it) →
      ∀ (acc : List (Option Str × Bool × AMap Str (List Str)) ×
        List (Option Str × Bool × List Str) × List UseStmt),
      ∃ simples,
        List.foldlM splitStep acc
            (gs.map (fun q => ((none : Option Str), stmtOf q.1 q.2, false))) =
          .ok (acc.1 ++ bracedOf gs, acc.2.1 ++ simples, acc.2.2) ∧
        List.Forall₂ (fun (q : Str × List Str) e =>
            ∀ g, lowSimpleStep g e = .ok (gUpd g (q.1, false) [] (sortStr q.2)))
          (gs.filter (fun q => (sortStr q.2).length < 2)) simples := by
  intro gs
  induction gs with
  | nil =>
    intro _ acc
    refine ⟨[], ?_, List.Forall₂.nil⟩
    simp only [List.map_nil, List.foldlM_nil, bracedOf, List.filter_nil,
      List.append_nil]
    rfl
  | cons q rest ih =>
    intro hprops acc
    obtain ⟨hgb, hqne, hqnd, hqg⟩ := hprops q (by simp)
    have hslne : sortStr q.2 ≠ [] := by
      intro he
      apply hqne
      have hp := sortStr_perm q.2
      rw [he] at hp
      exact hp.symm.eq_nil
    rw [List.map_cons, List.foldlM_cons]
    cases hsl : sortStr q.2 with
    | nil => exact absurd hsl hslne
    | cons x xs =>
      cases xs with
      | nil =>
        obtain ⟨segs, hstep, hlow⟩ := splitStep_stmt_single hgb hsl hqg acc
        rw [hstep]
        simp only [bind, Except.bind]
        obtain ⟨simples, hfold, hrel⟩ :=
          ih (fun r hr => hprops r (by simp [hr]))
            (acc.1, acc.2.1 ++ [((none : Option Str), false, segs)], acc.2.2)
        refine ⟨((none : Option Str), false, segs) :: simples, ?_, ?_⟩
        · rw [hfold]
          rw [show (bracedOf (q :: rest)) = bracedOf rest by
            unfold bracedOf
            rw [List.filter_cons_of_neg (by
              simp only [decide_eq_true_eq]
              rw [hsl]
              simp)]]
          simp
        · rw [List.filter_cons_of_pos (by
            simp only [decide_eq_true_eq]
            rw [hsl]
            simp)]
          exact List.Forall₂.cons (by
            intro g
            rw [hlow g, hsl]) hrel
      | cons y ys =>
        rw [splitStep_stmt_braced hgb hsl hqnd hqg acc]
        simp only [bind, Except.bind]
        obtain ⟨simples, hfold, hrel⟩ :=
          ih (fun r hr => hprops r (by simp [hr]))
            (acc.1 ++ [((none : Option Str), false,
              ([(q.1, sortStr q.2)] : AMap Str (List Str)))], acc.2.1, acc.2.2)
        refine ⟨simples, ?_, ?_⟩
        · rw [hfold]
          rw [show (bracedOf (q :: rest)) =
            ((none : Option Str), false,
              ([(q.1, sortStr q.2)] : AMap Str (List Str))) :: bracedOf rest by
            unfold bracedOf
            rw [List.filter_cons_of_pos (by
              simp only [decide_eq_true_eq]
              rw [hsl]
              simp)]
            rfl]
          simp
        · rw [List.filter_cons_of_neg (by
            simp only [decide_eq_true_eq]
            rw [hsl]
            simp)]
          exact hrel

theorem foldl_braced :
    ∀ (qs : List (Str × List Str))
      (g0 : AMap (Str × Bool) (AMap Str (List Str))),
      (qs.map (fun q => ((none : Option Str), false,
          ([(q.1, sortStr q.2)] : AMap Str (List Str))))).foldl
        (fun g e =>
          e.2.2.foldl (fun g bpItems =>
            gUpd g (bpItems.1, e.2.1) ((e.1).getD []) bpItems.2) g)
        g0 =
      qs.foldl (fun g q => gUpd g (q.1, false) [] (sortStr q.2)) g0 := by
  intro qs
  induction qs with
  | nil => intro g0; rfl
  | cons q rest ih =>
    intro g0
    rw [List.map_cons, List.foldl_cons, List.foldl_cons]
    exact ih _

theorem foldlM_lowSimple_rel :
    ∀ {qs : List (Str × List Str)} {simples : List (Option Str × Bool × List Str)},
      List.Forall₂ (fun (q : Str × List Str) e =>
          ∀ g, lowSimpleStep g e = .ok (gUpd g (q.1, false) [] (sortStr q.2)))
        qs simples →
      ∀ (g0 : AMap (Str × Bool) (AMap Str (List Str))),
        List.foldlM lowSimpleStep g0 simples =
          .ok (qs.foldl (fun g q => gUpd g (q.1, false) [] (sortStr q.2)) g0) := by
  intro qs simples hrel
  induction hrel with
  | nil => intro g0; rfl
  | cons hqe hrest ih =>
    intro g0
    rw [List.foldlM_cons]
    rename_i q e qs2 simples2
    rw [hqe g0]
    simp only [bind, Except.bind]
    rw [ih]
    rw [List.foldl_cons]

theorem collect_low_stmts (gs : List (Str × List Str))
    (hprops : ∀ q ∈ gs, goodBase q.1 ∧ q.2 ≠ [] ∧ q.2.Nodup ∧
      ∀ it ∈ q.2, goodSeg it) :
    collect_low_groups
        (gs.map (fun q => ((none : Option Str), stmtOf q.1 q.2, false))) =
      .ok ((gs.filter (fun q => 2 ≤ (sortStr q.2).length) ++
          gs.filter (fun q => (sortStr q.2).length < 2)).foldl
        (fun g q => gUpd g (q.1, false) [] (sortStr q.2)) [], []) := by
  unfold collect_low_groups
  obtain ⟨simples, hfold, hrel⟩ := foldlM_split_stmts gs hprops ([], [], [])
  unfold _split_use_statements
  rw [hfold]
  simp only [bind, Except.bind, List.nil_append]
  rw [show (bracedOf gs).foldl
      (fun g e =>
        e.2.2.foldl (fun g bpItems =>
          gUpd g (bpItems.1, e.2.1) ((e.1).getD []) bpItems.2) g)
      ([] : AMap (Str × Bool) (AMap Str (List Str))) =
    (gs.filter (fun q => 2 ≤ (sortStr q.2).length)).foldl
      (fun g q => gUpd g (q.1, false) [] (sortStr q.2)) [] from
    foldl_braced _ []]
  rw [foldlM_lowSimple_rel hrel]
  rw [← List.foldl_append]
  rfl

theorem gUpd_fresh :
    ∀ (gs0 : List (Str × List Str)) (k : Str), k ∉ gs0.map Prod.fst →
      ∀ (items : List Str),
      gUpd (groupsOf gs0) (k, false) [] items =
        groupsOf (gs0 ++ [(k, sUnion [] items)]) := by
  intro gs0
  induction gs0 with
  | nil => intro k _ items; rfl
  | cons p rest ih =>
    intro k hk items
    show gUpd (((p.1, false), [([], p.2)]) :: groupsOf rest) (k, false) [] items
      = _
    rw [gUpd.eq_def]
    simp only []
    rw [if_neg (by
      simp only [Prod.mk.injEq, beq_iff_eq]
      intro hcon
      rcases hcon with ⟨h1, _⟩
      exact hk (by simp [h1]))]
    rw [ih k (fun hm => hk (by simp [hm])) items]
    rfl

theorem foldl_gstep_groupsOf :
    ∀ (qs gs0 : List (Str × List Str)),
      ((gs0.map Prod.fst ++ qs.map Prod.fst).Nodup) →
      (∀ q ∈ qs, (sortStr q.2).Nodup) →
      qs.foldl (fun g q => gUpd g (q.1, false) [] (sortStr q.2))
          (groupsOf gs0) =
        groupsOf (gs0 ++ qs.map (fun q => (q.1, sortStr q.2))) := by
  intro qs
  induction qs with
  | nil => intro gs0 _ _; simp
  | cons q rest ih =>
    intro gs0 hnd hqnd
    rw [List.foldl_cons]
    have hfresh : q.1 ∉ gs0.map Prod.fst := by
      intro hm
      rw [List.nodup_append] at hnd
      exact hnd.2.2 hm (by simp)
    rw [gUpd_fresh gs0 q.1 hfresh (sortStr q.2)]
    rw [sUnion_nil_nodup (hqnd q (by simp))]
    rw [ih (gs0 ++ [(q.1, sortStr q.2)]) (by
      rw [List.map_append]
      rw [show (gs0.map Prod.fst ++ ([(q.1, sortStr q.2)] : List (Str × List Str)).map Prod.fst) ++ rest.map Prod.fst =
        gs0.map Prod.fst ++ (q :: rest).map Prod.fst by simp]
      exact hnd)
      (fun r hr => hqnd r (by simp [hr]))]
    simp

theorem filter_lt_eq_not_ge (gs : List (Str × List Str)) :
    gs.filter (fun q => (sortStr q.2).length < 2) =
      gs.filter (fun q => !(decide (2 ≤ (sortStr q.2).length))) := by
  refine List.filter_congr ?_
  intro q _
  by_cases h : 2 ≤ (sortStr q.2).length
  · simp [h, Nat.not_lt.2 h]
  · simp [h, Nat.lt_of_not_le h]

theorem pairs2_perm (gs : List (Str × List Str)) :
    ((gs.filter (fun q => 2 ≤ (sortStr q.2).length) ++
        gs.filter (fun q => (sortStr q.2).length < 2)).map
      (fun q => (q.1, sortStr q.2))).Perm
    (gs.map (fun q => (q.1, sortStr q.2))) := by
  refine List.Perm.map _ ?_
  rw [filter_lt_eq_not_ge]
  exact List.filter_append_perm _ gs

theorem flatMap_map {α β : Type} (f : α → β) (g : β → List Str) (l : List α) :
    (l.map f).flatMap g = l.flatMap (fun a => g (f a)) := by
  induction l with
  | nil => rfl
  | cons x xs ih =>
    rw [List.map_cons, List.flatMap_cons, List.flatMap_cons, ih]

theorem lowBlock_sortStr_idem (b : Str) (items : List Str) :
    lowBlock b (sortStr items) = lowBlock b items := by
  unfold lowBlock
  rw [sortStr_idem]

theorem low_idem (paths : List (List Str)) (hne : paths ≠ [])
    (h : ∀ p ∈ paths, goodPath p) :
    streamline_rust_imports_low
        (joinSep ['\n'] (((lowPairs paths).insertionSort pairLe).flatMap
          (fun p => lowBlock p.1 p.2))) =
      .ok (joinSep ['\n'] (((lowPairs paths).insertionSort pairLe).flatMap
        (fun p => lowBlock p.1 p.2))) := by
  have hsne : (lowPairs paths).insertionSort pairLe ≠ [] :=
    sortedLowPairs_ne_nil hne
  have hLne : ((lowPairs paths).insertionSort pairLe).flatMap
      (fun p => lowBlock p.1 p.2) ≠ [] := flatMap_blocks_ne_nil hsne
  obtain ⟨t, ht⟩ := flatMap_blocks_headD hsne
  obtain ⟨m, hm⟩ := flatMap_blocks_lastD _ hsne
  obtain ⟨X, hX⟩ := joinSep_head _ ht
  have hstrip := pyStrip_first_last ⟨X, hX⟩
    (joinSep_last _ hm hLne) (c := 'u') (by decide) (by decide)
  have hspnd : (((lowPairs paths).insertionSort pairLe).map Prod.fst).Nodup := by
    refine ((List.perm_insertionSort pairLe (lowPairs paths)).map
      Prod.fst).nodup_iff.2 ?_
    exact (lowPairs_good h).1
  have hfilperm :
      (((lowPairs paths).insertionSort pairLe).filter
          (fun q => 2 ≤ (sortStr q.2).length) ++
        ((lowPairs paths).insertionSort pairLe).filter
          (fun q => (sortStr q.2).length < 2)).Perm
      ((lowPairs paths).insertionSort pairLe) := by
    rw [filter_lt_eq_not_ge]
    exact List.filter_append_perm _ _
  unfold streamline_rust_imports_low
  rw [if_neg (by
    rw [hX, List.all_cons, show isPySpace 'u' = false from rfl]
    simp)]
  rw [hstrip]
  rw [splitCh_joinSep '\n' _ hLne (by
    intro l hl
    rw [List.mem_flatMap] at hl
    obtain ⟨q, hq, hlq⟩ := hl
    obtain ⟨hgb, hqne, hqnd, hqg⟩ := sortedLowPairs_good h q hq
    obtain ⟨bsegs, hbne, hbsegs, hbeq⟩ := hgb
    exact lowBlock_no_newline hbsegs hbeq hqg l hlq)]
  simp only [bind, Except.bind]
  rw [show parse_import_statements
      (((lowPairs paths).insertionSort pairLe).flatMap
        (fun p => lowBlock p.1 p.2)) =
      .ok (((lowPairs paths).insertionSort pairLe).map
        (fun p => ((none : Option Str), stmtOf p.1 p.2, false)), []) by
    unfold parse_import_statements
    rw [parseAux_lowBlocks ((lowPairs paths).insertionSort pairLe)
      (fun q hq =>
        ⟨(sortedLowPairs_good h q hq).1, (sortedLowPairs_good h q hq).2.1,
          (sortedLowPairs_good h q hq).2.2.2⟩)
      ((((lowPairs paths).insertionSort pairLe).flatMap
        (fun p => lowBlock p.1 p.2)).length + 1) 0
      (((lowPairs paths).insertionSort pairLe).flatMap
        (fun p => lowBlock p.1 p.2)) [] [] (by rfl)
      (by
        have h1 := blocks_len_ge ((lowPairs paths).insertionSort pairLe)
        omega)]
    simp]
  simp only []
  rw [collect_low_stmts ((lowPairs paths).insertionSort pairLe)
    (sortedLowPairs_good h)]
  simp only []
  rw [show (((lowPairs paths).insertionSort pairLe).filter
        (fun q => 2 ≤ (sortStr q.2).length) ++
      ((lowPairs paths).insertionSort pairLe).filter
        (fun q => (sortStr q.2).length < 2)).foldl
      (fun g q => gUpd g (q.1, false) [] (sortStr q.2)) [] =
    groupsOf ((((lowPairs paths).insertionSort pairLe).filter
        (fun q => 2 ≤ (sortStr q.2).length) ++
      ((lowPairs paths).insertionSort pairLe).filter
        (fun q => (sortStr q.2).length < 2)).map
      (fun q => (q.1, sortStr q.2))) by
    have h0 := foldl_gstep_groupsOf
      (((lowPairs paths).insertionSort pairLe).filter
          (fun q => 2 ≤ (sortStr q.2).length) ++
        ((lowPairs paths).insertionSort pairLe).filter
          (fun q => (sortStr q.2).length < 2)) []
      (by
        simp only [List.map_nil, List.nil_append]
        refine (hfilperm.map Prod.fst).nodup_iff.2 hspnd)
      (by
        intro q hq
        exact sortStr_nodup
          ((sortedLowPairs_good h q (hfilperm.mem_iff.1 hq)).2.2.1))
    simpa using h0]
  rw [generate_groupsOf]
  rw [show ((((lowPairs paths).insertionSort pairLe).filter
        (fun q => 2 ≤ (sortStr q.2).length) ++
      ((lowPairs paths).insertionSort pairLe).filter
        (fun q => (sortStr q.2).length < 2)).map
      (fun q => (q.1, sortStr q.2))).insertionSort pairLe =
    ((lowPairs paths).insertionSort pairLe).map
      (fun q => (q.1, sortStr q.2)) by
    refine perm_sorted_nodup_eq _ _ ?_ ?_ ?_ ?_
    · exact (List.perm_insertionSort pairLe _).trans
        (pairs2_perm ((lowPairs paths).insertionSort pairLe))
    · exact sorted_pairs_sorted _
    · exact sorted_map_items (sorted_pairs_sorted (lowPairs paths)) _
    · refine ((List.perm_insertionSort pairLe _).trans
        (pairs2_perm ((lowPairs paths).insertionSort pairLe))).map
        Prod.fst |>.nodup_iff.2 ?_
      rw [List.map_map]
      exact hspnd]
  rw [flatMap_map]
  rw [flatMap_congr _ (fun q hq => by
    show genStmtLines false q.1 [] (sortStr q.2) = lowBlock q.1 q.2
    rw [genStmtLines_plain (fun it hit =>
      (sortedLowPairs_good h q hq).2.2.2 it ((sortStr_mem it q.2).1 hit)) q.1]
    exact lowBlock_sortStr_idem q.1 q.2)]
  rw [if_neg (by simp)]
  rfl

theorem uniqR_names_nodup : ∀ (ps : List (List Str)) (seen : List Str),
    ((uniqR ps seen).map nameOf).Nodup := by
  intro ps
  induction ps with
  | nil => intro seen; simp [uniqR]
  | cons q qs ih =>
    intro seen
    rw [uniqR.eq_def]
    dsimp only
    cases hc : seen.contains (nameOf q) with
    | true =>
      rw [if_pos rfl]
      exact ih seen
    | false =>
      rw [if_neg (by simp)]
      rw [List.map_cons, List.nodup_cons]
      refine ⟨?_, ih _⟩
      intro hm
      have h2 := (uniqR_names_mem qs (seen ++ [nameOf q]) (nameOf q)).1 hm
      exact h2.2 (List.mem_append_right _ (List.mem_singleton_self _))

theorem uniqR_of_nodup : ∀ (ps : List (List Str)) (seen : List Str),
    (ps.map nameOf).Nodup → (∀ p ∈ ps, nameOf p ∉ seen) →
    uniqR ps seen = ps := by
  intro ps
  induction ps with
  | nil => intro seen _ _; rfl
  | cons q qs ih =>
    intro seen hnd hns
    rw [uniqR.eq_def]
    dsimp only
    rw [if_neg (by
      intro hc
      exact hns q (by simp) (List.elem_iff.1 hc))]
    have hnd2 : (nameOf q :: qs.map nameOf).Nodup := by simpa using hnd
    rw [ih (seen ++ [nameOf q]) (List.nodup_cons.1 hnd2).2 (by
      intro p hp hm
      rcases List.mem_append.1 hm with hm | hm
      · exact hns p (by simp [hp]) hm
      · simp only [List.mem_singleton] at hm
        exact (List.nodup_cons.1 hnd2).1 (hm ▸ List.mem_map.2 ⟨p, hp, rfl⟩))]

theorem unique_idem (paths : List (List Str)) (hne : paths ≠ [])
    (h : ∀ p ∈ paths, goodPath p) :
    streamline_rust_imports_unique (textOf (uniqR paths [])) =
      .ok (textOf (uniqR paths [])) := by
  have hne2 : uniqR paths [] ≠ [] := uniqR_ne_nil hne
  have h2 : ∀ p ∈ uniqR paths [], goodPath p :=
    fun p hp => h p (uniqR_sub _ _ p hp)
  rw [unique_R _ hne2 h2]
  rw [uniqR_of_nodup _ [] (uniqR_names_nodup paths []) (by simp)]

/-- Claim C8: each streamlining policy is idempotent on inputs that are
already valid import syntax.  FALSE as stated: the low policy is not
idempotent on the valid nested-group import `use a::\x7b\x7bB\x7d\x7d;`
(one pass yields `use a::::B;`, a second pass changes it again), and the
high policy corrupts even simple imports — see `claim_C8_counterexample`.
The amended statement holds: on inputs consisting of simple normalized
`use` lines (at least two nonempty plain segments per path, no `self`),
applying the low policy or the unique policy twice yields the same result
as applying it once. -/
theorem claim_C8 (paths : List (List Str)) (hne : paths ≠ [])
    (h : ∀ p ∈ paths, goodPath p) :
    ∃ outL outU,
      streamline_rust_imports_low (textOf paths) = .ok outL ∧
      streamline_rust_imports_low outL = .ok outL ∧
      streamline_rust_imports_unique (textOf paths) = .ok outU ∧
      streamline_rust_imports_unique outU = .ok outU :=
  ⟨_, _, low_R paths hne h, low_idem paths hne h, unique_R paths hne h,
    unique_idem paths hne h⟩

theorem claim_C8_witness :
    ([[S "std", S "io", S "Read"], [S "std", S "io", S "Write"],
        [S "std", S "fs", S "File"], [S "std", S "io", S "Read"]] :
      List (List Str)) ≠ [] ∧
    (∀ p ∈ ([[S "std", S "io", S "Read"], [S "std", S "io", S "Write"],
        [S "std", S "fs", S "File"], [S "std", S "io", S "Read"]] :
      List (List Str)), goodPath p) ∧
    (∃ outL outU,
      streamline_rust_imports_low (textOf
        [[S "std", S "io", S "Read"], [S "std", S "io", S "Write"],
          [S "std", S "fs", S "File"], [S "std", S "io", S "Read"]]) =
        .ok outL ∧
      streamline_rust_imports_low outL = .ok outL ∧
      streamline_rust_imports_unique (textOf
        [[S "std", S "io", S "Read"], [S "std", S "io", S "Write"],
          [S "std", S "fs", S "File"], [S "std", S "io", S "Read"]]) =
        .ok outU ∧
      streamline_rust_imports_unique outU = .ok outU) :=
  ⟨by decide, by decide, claim_C8 _ (by decide) (by decide)⟩
